import Mathlib

/-!
Verification of the doc2md conversion pipeline (backend/agent.py and
backend/preprocessor.py) against its natural-language specification.

Text is modelled as `List Char` (one `Char` per Python code point).  Python
functions are transcribed one-to-one; regular expressions are replaced by
equivalent deterministic scanners, with the backtracking behaviour of the
original pattern worked out case by case in the comments.  Floating-point
comparisons of the source (`0.82`, `0.62`, `chunk_size * 0.8`) are modelled
as exact rational comparisons; the two agree on all realistic inputs (the
first deviation would need denominators around 2^47).
-/

namespace DocAgent

abbrev Str := List Char

/-- `{` written without a literal brace. -/
def lbrace : Char := Char.ofNat 123

/-- `}` written without a literal brace. -/
def rbrace : Char := Char.ofNat 125

/-- Python `\s` on the characters this development manipulates
(ASCII whitespace plus NBSP; Python's `\s` also matches further
Unicode whitespace, which never occurs in the strings handled here). -/
def pySpace (c : Char) : Bool :=
  c = ' ' || c = '\t' || c = '\n' || c = '\r' ||
  c = Char.ofNat 11 || c = Char.ofNat 12 || c = Char.ofNat 0xa0

/-- Python `str.lstrip()`. -/
def pyStripL (s : Str) : Str := s.dropWhile pySpace

/-- Python `str.rstrip()`. -/
def pyStripR (s : Str) : Str := (s.reverse.dropWhile pySpace).reverse

/-- Python `str.strip()`. -/
def pyStrip (s : Str) : Str := pyStripR (pyStripL s)

/-- `startsWith` on char lists (Python `str.startswith`). -/
def swith : Str → Str → Bool
  | [], _ => true
  | _ :: _, [] => false
  | p :: ps, c :: cs => p = c && swith ps cs

/-- Python `"\n".join`-inverse: `text.split("\n")`. -/
def splitLines : Str → List Str
  | [] => [[]]
  | c :: r =>
    if c = '\n' then [] :: splitLines r
    else
      match splitLines r with
      | [] => [[c]]
      | l :: ls => (c :: l) :: ls

def nl : Str := ['\n']

/-- join a list of lists with a separator (`sep.join(xs)` in Python). -/
def joinSep (sep : Str) : List Str → Str
  | [] => []
  | [x] => x
  | x :: y :: xs => x ++ sep ++ joinSep sep (y :: xs)

/-- `"\n".join(lines)`. -/
def joinLines (ls : List Str) : Str := joinSep nl ls

/-- decimal rendering of a natural number as a char list. -/
def natStr (n : Nat) : Str := (Nat.repr n).toList

/-- A fenced-code toggle line: `line.strip().startswith("```")`. -/
def isFence (l : Str) : Bool := swith "```".toList (pyStrip l)

/-- `line.startswith("#")`. -/
def startsHash (l : Str) : Bool := swith "#".toList l

/-! ### `preprocessor.split_content` -/

structure SCState where
  chunks : List (List Str)
  current : List Str
  size : Nat
  inCode : Bool
deriving Repr

/-- The fence flag after seeing `line`: in the source the toggle happens
*before* the split decision. -/
def scToggle (st : SCState) (line : Str) : Bool :=
  if isFence line then !st.inCode else st.inCode

/-- The split decision of `split_content`; the float test
`current_size > chunk_size * 0.8` is the exact rational test
`5*size > 4*chunkSize`. -/
def scSplitCond (chunkSize : Nat) (st : SCState) (line : Str) : Bool :=
  !(scToggle st line) && decide (st.size + (line.length + 1) > chunkSize) &&
    decide (st.size > 0) && (startsHash line || decide (5 * st.size > 4 * chunkSize))

/-- One iteration of the `split_content` loop. -/
def scStep (chunkSize : Nat) (st : SCState) (line : Str) : SCState :=
  if scSplitCond chunkSize st line then
    ⟨st.chunks ++ [st.current], [line], line.length + 1, scToggle st line⟩
  else
    ⟨st.chunks, st.current ++ [line], st.size + (line.length + 1), scToggle st line⟩

def splitContentGroups (chunkSize : Nat) (lines : List Str) : List (List Str) :=
  let st := lines.foldl (scStep chunkSize) ⟨[], [], 0, false⟩
  if st.current.isEmpty then st.chunks else st.chunks ++ [st.current]

/-- `preprocessor.split_content(text, chunk_size)`. -/
def split_content (text : Str) (chunkSize : Nat) : List Str :=
  if text.length ≤ chunkSize then [text]
  else (splitContentGroups chunkSize (splitLines text)).map joinLines

/-! ### lemmas: the chunk groups partition the line list -/

theorem splitLines_ne_nil (s : Str) : splitLines s ≠ [] := by
  cases s with
  | nil => simp [splitLines]
  | cons c r =>
    simp only [splitLines]
    split
    · simp
    · cases h : splitLines r <;> simp

theorem joinLines_splitLines (s : Str) : joinLines (splitLines s) = s := by
  induction s with
  | nil => rfl
  | cons c r ih =>
    simp only [splitLines]
    split
    · rename_i hc
      subst hc
      cases h : splitLines r with
      | nil => exact absurd h (splitLines_ne_nil r)
      | cons l ls =>
        rw [h] at ih
        simp only [joinLines, joinSep] at ih ⊢
        rw [List.nil_append, ih]
        rfl
    · cases h : splitLines r with
      | nil => exact absurd h (splitLines_ne_nil r)
      | cons l ls =>
        rw [h] at ih
        cases ls with
        | nil => simp only [joinLines, joinSep] at ih ⊢; rw [ih]
        | cons l2 ls2 =>
          simp only [joinLines, joinSep] at ih ⊢
          rw [List.cons_append, List.cons_append, ih]

/-- Invariant carried through the `split_content` fold. -/
def scInv (st : SCState) (done : List Str) : Prop :=
  st.chunks.flatten ++ st.current = done ∧
  (∀ c ∈ st.chunks, c ≠ []) ∧
  (st.size = 0 ↔ st.current = [])

theorem scStep_inv (cs : Nat) (st : SCState) (line : Str) (done : List Str)
    (h : scInv st done) : scInv (scStep cs st line) (done ++ [line]) := by
  obtain ⟨h1, h2, h3⟩ := h
  by_cases hcond : scSplitCond cs st line = true
  · have hsz : st.size > 0 := by
      unfold scSplitCond at hcond
      simp only [Bool.and_eq_true, decide_eq_true_eq] at hcond
      exact hcond.1.2
    simp only [scStep, hcond, if_true]
    refine ⟨?_, ?_, ?_⟩
    · rw [← h1]
      simp [List.append_assoc]
    · intro c hc
      simp only [List.mem_append, List.mem_singleton] at hc
      rcases hc with hc | hc
      · exact h2 c hc
      · subst hc
        intro hcur
        rw [h3.mpr hcur] at hsz
        exact absurd hsz (by simp)
    · simp
  · simp only [scStep, hcond, if_false, Bool.false_eq_true]
    refine ⟨?_, h2, ?_⟩
    · simp only [← h1, List.append_assoc]
    · simp

theorem scFold_inv (cs : Nat) (lines : List Str) (st : SCState) (done : List Str)
    (h : scInv st done) :
    scInv (lines.foldl (scStep cs) st) (done ++ lines) := by
  induction lines generalizing st done with
  | nil => simpa using h
  | cons l ls ih =>
    have := ih (scStep cs st l) (done ++ [l]) (scStep_inv cs st l done h)
    simpa using this

theorem splitContentGroups_flatten (cs : Nat) (lines : List Str) :
    (splitContentGroups cs lines).flatten = lines ∧
    ∀ g ∈ splitContentGroups cs lines, g ≠ [] := by
  have h0 : scInv ⟨[], [], 0, false⟩ [] := by
    refine ⟨by simp, by simp, by simp⟩
  have h := scFold_inv cs lines ⟨[], [], 0, false⟩ [] h0
  obtain ⟨h1, h2, h3⟩ := h
  unfold splitContentGroups
  simp only []
  split
  · rename_i hcur
    rw [List.isEmpty_iff] at hcur
    rw [hcur] at h1
    simp at h1
    exact ⟨by simpa using h1, h2⟩
  · rename_i hcur
    rw [List.isEmpty_iff] at hcur
    refine ⟨by simpa using h1, ?_⟩
    intro g hg
    simp only [List.mem_append, List.mem_singleton] at hg
    rcases hg with hg | hg
    · exact h2 g hg
    · subst hg; exact hcur

theorem joinSep_append_of_ne_nil (sep : Str) (xs ys : List Str)
    (hx : xs ≠ []) (hy : ys ≠ []) :
    joinSep sep (xs ++ ys) = joinSep sep xs ++ sep ++ joinSep sep ys := by
  induction xs with
  | nil => exact absurd rfl hx
  | cons a as ih =>
    cases as with
    | nil =>
      cases ys with
      | nil => exact absurd rfl hy
      | cons b bs => simp [joinSep]
    | cons a' as' =>
      have h2 := ih (by simp)
      have hstep : joinSep sep ((a :: a' :: as') ++ ys)
          = a ++ sep ++ joinSep sep ((a' :: as') ++ ys) := by
        cases ys with
        | nil => exact absurd rfl hy
        | cons b bs => rfl
      rw [hstep, h2]
      have hstep2 : joinSep sep (a :: a' :: as') = a ++ sep ++ joinSep sep (a' :: as') := rfl
      rw [hstep2]
      simp [List.append_assoc]

/-- Joining the per-group joins equals joining the flattened lines, as long
as every group is non-empty. -/
theorem joinSep_map_joinLines (gs : List (List Str))
    (h : ∀ g ∈ gs, g ≠ []) :
    joinSep nl (gs.map joinLines) = joinLines gs.flatten := by
  induction gs with
  | nil => rfl
  | cons g rest ih =>
    cases rest with
    | nil => simp [joinLines, joinSep]
    | cons g' rest' =>
      have hg : g ≠ [] := h g (by simp)
      have hrest : ∀ x ∈ g' :: rest', x ≠ [] := fun x hx => h x (by simp [hx])
      have ihr := ih hrest
      simp only [List.map_cons] at ihr
      have hflat : (g' :: rest').flatten ≠ [] := by
        have hne : g' ≠ [] := hrest g' (by simp)
        cases g' with
        | nil => exact absurd rfl hne
        | cons c cs => simp
      simp only [List.map_cons, List.flatten_cons]
      have hmap : joinLines g' :: List.map joinLines rest' ≠ [] := by simp
      have hsplit : joinSep nl (joinLines g :: joinLines g' :: List.map joinLines rest')
          = joinSep nl [joinLines g] ++ nl ++ joinSep nl (joinLines g' :: List.map joinLines rest') := by
        have hres := joinSep_append_of_ne_nil nl [joinLines g]
          (joinLines g' :: List.map joinLines rest') (by simp) hmap
        simpa using hres
      rw [hsplit, ihr]
      have hj : joinLines (g ++ (g' :: rest').flatten)
          = joinLines g ++ nl ++ joinLines (g' :: rest').flatten := by
        unfold joinLines
        exact joinSep_append_of_ne_nil nl g (g' :: rest').flatten hg hflat
      simp only [List.flatten_cons] at hj
      rw [hj]
      simp [joinSep, joinLines]

/-- `split_content` is lossless: joining the chunks with the newline the
split removed reproduces the text. -/
theorem split_content_lossless (text : Str) (cs : Nat) :
    joinSep nl (split_content text cs) = text := by
  unfold split_content
  split
  · simp [joinSep]
  · obtain ⟨h1, h2⟩ := splitContentGroups_flatten cs (splitLines text)
    have := joinSep_map_joinLines (splitContentGroups cs (splitLines text)) h2
    rw [this, h1, joinLines_splitLines]

theorem split_content_ne_nil (text : Str) (cs : Nat) : split_content text cs ≠ [] := by
  unfold split_content
  split
  · simp
  · obtain ⟨h1, _⟩ := splitContentGroups_flatten cs (splitLines text)
    intro h
    rw [List.map_eq_nil_iff] at h
    rw [h] at h1
    exact splitLines_ne_nil text (by simpa using h1.symm)

/-! ### generic char/string helpers shared by agent.py transcriptions -/

/-- `endswith` on char lists. -/
def ewith (p s : Str) : Bool := swith p.reverse s.reverse

/-- split on an arbitrary character (Python `s.split(sep)` for 1-char sep). -/
def splitOnChar (sep : Char) : Str → List Str
  | [] => [[]]
  | c :: r =>
    if c = sep then [] :: splitOnChar sep r
    else
      match splitOnChar sep r with
      | [] => [[c]]
      | l :: ls => (c :: l) :: ls

/-- `section_id.split(".")`. -/
def splitDots (s : Str) : List Str := splitOnChar '.' s

/-- value of a decimal digit string (Python `int` on an all-digit string). -/
def digitsToNat (s : Str) : Nat :=
  s.foldl (fun acc c => acc * 10 + (c.toNat - 48)) 0

/-! ### `agent._strip_heading_attrs`

`re.sub(r'\s*\{#[^}]*\}\s*$', '', title).strip()`: the `}` of a match must
be the last non-whitespace character of the title, and the match uses the
leftmost `{#` that has no `}` between it and that final `}`.  The removed
region extends to the end, so the result is the stripped prefix before
that `{#`. -/

/-- Finds the leftmost admissible `\x7b#...\x7d` attribute suffix and
returns the text before it. -/
def attrCut : Str → Option Str
  | [] => none
  | c :: rest =>
    if c = lbrace && rest.head? = some '#' && decide (rest.length ≥ 2) &&
        rest.getLast? = some rbrace && !(rest.dropLast.contains rbrace) then
      some []
    else (attrCut rest).map (fun p => c :: p)

def strip_heading_attrs (title : Str) : Str :=
  match attrCut (pyStripR title) with
  | some pre => pyStrip pre
  | none => pyStrip title

/-! ### raw section splitting (`agent._split_raw_sections`) -/

/-- the remainder of `line` after `^\s*#\s+` (a pandoc level-1 heading
marker), when that prefix matches within the line. -/
def matchRawHeadingMarker (l : Str) : Option Str :=
  match l.dropWhile pySpace with
  | c :: rest =>
    if c = '#' then
      match rest with
      | d :: _ => if pySpace d then some (rest.dropWhile pySpace) else none
      | [] => none
    else none
  | [] => none

/-- `re.match(r'^\s*#\s+', line)` on a single (newline-free) line. -/
def isRawSectionHeading (l : Str) : Bool := (matchRawHeadingMarker l).isSome

structure RawSection where
  content : Str
  hasHeading : Bool
  headingText : Str
deriving Repr

/-- one step of the `_split_raw_sections` grouping loop. -/
def rgStep (p : List (List Str) × List Str) (line : Str) : List (List Str) × List Str :=
  if isRawSectionHeading line then
    (if p.2.isEmpty then p.1 else p.1 ++ [p.2], [line])
  else (p.1, p.2 ++ [line])

def rawGroups (lines : List Str) : List (List Str) :=
  let p := lines.foldl rgStep ([], [])
  if p.2.isEmpty then p.1 else p.1 ++ [p.2]

def toRawSection (g : List Str) : RawSection :=
  let content := joinLines g
  let firstNonEmpty := (g.find? (fun l => !(pyStrip l).isEmpty)).getD []
  let hasHeading := isRawSectionHeading firstNonEmpty
  let headingText :=
    if hasHeading then
      strip_heading_attrs (pyStrip ((matchRawHeadingMarker firstNonEmpty).getD firstNonEmpty))
    else []
  ⟨content, hasHeading, headingText⟩

/-- `agent._split_raw_sections`. -/
def split_raw_sections (body : Str) : List RawSection :=
  (rawGroups (splitLines body)).map toRawSection

/-! ### numbered-heading parsing -/

theorem length_dropWhile_le {α : Type} (p : α → Bool) (l : List α) :
    (l.dropWhile p).length ≤ l.length := by
  induction l with
  | nil => simp [List.dropWhile]
  | cons a as ih =>
    by_cases h : p a
    · simp [List.dropWhile, h]; omega
    · simp [List.dropWhile, h]

/-- maximal munch of `\d+(?:\.\d+)*`: the repeated `. digits` tail.
Structural recursion on a fuel bound (each step consumes at least two
characters, so `l.length` fuel always suffices); fuel keeps the function
kernel-reducible. -/
def sidLoopF : Nat → Str → Str × Str
  | 0, l => ([], l)
  | fuel + 1, l =>
    match l with
    | '.' :: rest =>
      let ds := rest.takeWhile Char.isDigit
      if ds.isEmpty then ([], '.' :: rest)
      else
        let step := sidLoopF fuel (rest.dropWhile Char.isDigit)
        ('.' :: ds ++ step.1, step.2)
    | m => ([], m)

def sidLoop (s : Str) : Str × Str := sidLoopF s.length s

/-- maximal munch of `\d+(?:\.\d+)*`; returns the numeric path and the
rest.  When the surrounding pattern fails after a maximal-munch path, no
shorter path can succeed (a shorter path stops right before a `.` followed
by a digit, and every continuation of the original regexes requires a
non-digit there), so maximal munch is faithful. -/
def sidParse (s : Str) : Option (Str × Str) :=
  let ds := s.takeWhile Char.isDigit
  if ds.isEmpty then none
  else
    let step := sidLoop (s.dropWhile Char.isDigit)
    some (ds ++ step.1, step.2)

/-- `agent._extract_section_id`: `re.match(r'^(\d+(?:\.\d+)*)\s+', heading.strip())`. -/
def extract_section_id (heading : Str) : Str :=
  match sidParse (pyStrip heading) with
  | some (sid, rest) =>
    match rest with
    | c :: _ => if pySpace c then sid else []
    | [] => []
  | none => []

/-- `agent._heading_level_from_section_id`. -/
def heading_level_from_section_id (sid : Str) : Nat :=
  if sid.isEmpty then 2 else min 6 ((splitDots sid).length + 1)

/-- `agent._heading_level_from_numbered_heading`. -/
def heading_level_from_numbered_heading (h : Str) : Nat :=
  heading_level_from_section_id (extract_section_id h)

/-- `agent._normalize_heading_text`: drop every whitespace character. -/
def normalize_heading_text (h : Str) : Str := h.filter (fun c => !pySpace c)

/-- `agent._strip_heading_number_prefix`:
`re.sub(r'^\d+(?:\.\d+)*\s+', '', heading.strip())`. -/
def strip_heading_number_prefix (heading : Str) : Str :=
  let s := pyStrip heading
  match sidParse s with
  | some (_, rest) =>
    match rest with
    | c :: _ => if pySpace c then rest.dropWhile pySpace else s
    | [] => s
  | none => s

/-! ### `agent._looks_like_table_delimiter_line` -/

def tableBorderChar (c : Char) : Bool :=
  c = '+' || c = ':' || c = '=' || c = '-' || c = '|' || c = ' '

/-- `str.strip("|")`. -/
def stripPipes (s : Str) : Str :=
  ((s.dropWhile (· = '|')).reverse.dropWhile (· = '|')).reverse

/-- `re.fullmatch(r':?-{3,}:?', cell or '---')`. -/
def cellDashOk (c0 : Str) : Bool :=
  let c := if c0.isEmpty then ['-', '-', '-'] else c0
  let c1 := if c.head? = some ':' then c.tail else c
  let ds := c1.takeWhile (· = '-')
  let r := c1.dropWhile (· = '-')
  decide (ds.length ≥ 3) && (r.isEmpty || r = [':'])

def looks_like_table_delimiter_line (line : Str) : Bool :=
  let s := pyStrip line
  if s.isEmpty then false
  else if decide (s.length ≥ 5) && s.all tableBorderChar then true
  else if !(swith "|".toList s && ewith "|".toList s) then false
  else
    ((splitOnChar '|' (stripPipes s)).map pyStrip).all cellDashOk

/-! ### `agent._extract_numbered_heading_candidate` -/

def delimSet (c : Char) : Bool :=
  c = '、' || c = '.' || c = '．' || c = ')' || c = '）'

/-- The tail pattern `\s*([、.．\)）])?\s+(.+)$` applied to the text after
the numeric path; returns (delimiter, group 3).  Cases in which the regex
matches but group 3 strips to nothing are folded into `none`, because the
caller immediately returns `None` on an empty `title_body`. -/
def headingTailMatch (r : Str) : Option (Str × Str) :=
  let w := r.takeWhile pySpace
  let r1 := r.dropWhile pySpace
  match r1 with
  | [] => none
  | d :: r2 =>
    if delimSet d then
      let v := r2.takeWhile pySpace
      let t := r2.dropWhile pySpace
      if !v.isEmpty && !t.isEmpty then some ([d], t)
      else if decide (v.length ≥ 2) && t.isEmpty then none
      else if !w.isEmpty then some ([], r1) else none
    else if !w.isEmpty then some ([], r1) else none

def headingCandidateBadStart (stripped : Str) : Bool :=
  ["|", "-", "*", "+", ">", "[", "![", "```"].any
    (fun p => swith p.toList stripped)

/-- the part of `_extract_numbered_heading_candidate` that runs on the
attr-stripped, whitespace-stripped line. -/
def candidateOfStripped (stripped : Str) : Option (Str × Nat) :=
  if stripped.isEmpty then none
  else if headingCandidateBadStart stripped then none
  else if looks_like_table_delimiter_line stripped then none
  else
    match sidParse stripped with
    | none => none
    | some (sid, r) =>
      match headingTailMatch r with
      | none => none
      | some (delim, g3) =>
        let titleBody := pyStrip g3
        if titleBody.isEmpty then none
        else if (delim = ['.'] || delim = ['．'] || delim = [')'] || delim = ['）']) &&
            !(sid.contains '.') then none
        else if decide (((splitDots sid).headD []).length ≥ 3) then none
        else if !(sid.contains '.') &&
            (decide (digitsToNat sid ≤ 0) || decide (digitsToNat sid > 30)) then none
        else if decide (titleBody.length > 80) &&
            (ewith "。".toList titleBody || ewith "；".toList titleBody ||
             ewith ";".toList titleBody) then none
        else some (sid ++ [' '] ++ titleBody, heading_level_from_section_id sid)

/-- `agent._extract_numbered_heading_candidate`. -/
def extract_numbered_heading_candidate (line : Str) : Option (Str × Nat) :=
  candidateOfStripped (strip_heading_attrs (pyStrip line))

/-! ### `agent._build_section_chunks` -/

structure ChunkJob where
  content : Str
  sectionId : Str
  sectionHeading : Str
  allowedHeadings : List Str
  continuationMode : Bool
  chunkHasHeading : Bool
  previousHeading : Str
  nextHeading : Str
deriving Repr

/-- whether a single line can anchor a `re.search(r'^\s*#\s+', ..., re.M)`
hit without using the terminating newline. -/
def lineMatchesRawHeading (l : Str) : Bool := isRawSectionHeading l

/-- a line of the form `ws* "#"`; with `re.MULTILINE` the `\s+` of
`^\s*#\s+` is then satisfied by the newline, so such a line matches
unless it is the last line of the chunk. -/
def lineIsWsHash (l : Str) : Bool := l.dropWhile pySpace = ['#']

/-- `re.search(r'^\s*#\s+', chunk, flags=re.MULTILINE)`. -/
def chunkHasHeadingLines : List Str → Bool
  | [] => false
  | [l] => lineMatchesRawHeading l
  | l :: rest => lineMatchesRawHeading l || lineIsWsHash l || chunkHasHeadingLines rest

def chunk_has_heading (chunk : Str) : Bool := chunkHasHeadingLines (splitLines chunk)

/-- the inner loop of `_build_section_chunks`: enumerate the chunks of one
section, skipping whitespace-only chunks. -/
def bscChunkJobs (mk : Nat → Str → ChunkJob) : Nat → List Str → List ChunkJob
  | _, [] => []
  | i, c :: rest =>
    if (pyStrip c).isEmpty then bscChunkJobs mk (i + 1) rest
    else mk i c :: bscChunkJobs mk (i + 1) rest

def bscMkJob (sectionId numbered : Str) (prevH nextH : Str) (i : Nat) (c : Str) : ChunkJob :=
  ⟨c, sectionId, numbered, if numbered.isEmpty then [] else [numbered],
   decide (i > 0) || !(chunk_has_heading c), chunk_has_heading c, prevH, nextH⟩

structure BSCAcc where
  jobs : List ChunkJob
  hIdx : Nat

/-- one section of the `_build_section_chunks` loop. -/
def bscSectionStep (cs : Nat) (expected : List Str) (acc : BSCAcc) (sec : RawSection) : BSCAcc :=
  let numbered :=
    if sec.hasHeading then
      (if acc.hIdx < expected.length then expected.getD acc.hIdx [] else sec.headingText)
    else []
  let sectionId :=
    if sec.hasHeading then
      (let sid := extract_section_id numbered
       if sid.isEmpty then "section-".toList ++ natStr (acc.hIdx + 1) else sid)
    else "preamble-".toList ++ natStr (acc.jobs.length + 1)
  let prevH := if acc.hIdx > 0 then expected.getD (acc.hIdx - 1) [] else []
  let nextH :=
    if sec.hasHeading then
      (if acc.hIdx + 1 < expected.length then expected.getD (acc.hIdx + 1) [] else [])
    else (if acc.hIdx < expected.length then expected.getD acc.hIdx [] else [])
  let newIdx := if sec.hasHeading then acc.hIdx + 1 else acc.hIdx
  let newJobs := bscChunkJobs (bscMkJob sectionId numbered prevH nextH) 0
    (split_content sec.content cs)
  ⟨acc.jobs ++ newJobs, newIdx⟩

/-- `agent._build_section_chunks(content_body, expected_headings)` with the
configured `chunk_size`. -/
def build_section_chunks (cs : Nat) (body : Str) (expected : List Str) : List ChunkJob :=
  ((split_raw_sections body).foldl (bscSectionStep cs expected) ⟨[], 0⟩).jobs

/-- the planner's chunk sequence before the whitespace-only filter. -/
def pre_filter_chunks (cs : Nat) (body : Str) : List Str :=
  ((split_raw_sections body).map (fun sec => split_content sec.content cs)).flatten

/-! ### C1 / C8 : losslessness of the planner and split boundaries -/

def rgInv (p : List (List Str) × List Str) (done : List Str) : Prop :=
  p.1.flatten ++ p.2 = done ∧ ∀ g ∈ p.1, g ≠ []

theorem rgStep_inv (p : List (List Str) × List Str) (line : Str) (done : List Str)
    (h : rgInv p done) : rgInv (rgStep p line) (done ++ [line]) := by
  obtain ⟨h1, h2⟩ := h
  unfold rgStep
  split
  · by_cases hc : p.2.isEmpty
    · rw [List.isEmpty_iff] at hc
      simp only [hc, List.isEmpty_nil, if_true]
      refine ⟨?_, h2⟩
      rw [← h1, hc]
      simp
    · have : p.2.isEmpty = false := by
        cases hh : p.2.isEmpty
        · rfl
        · exact absurd hh hc
      simp only [this, if_false, Bool.false_eq_true]
      refine ⟨?_, ?_⟩
      · rw [← h1]
        simp [List.append_assoc]
      · intro g hg
        simp only [List.mem_append, List.mem_singleton] at hg
        rcases hg with hg | hg
        · exact h2 g hg
        · subst hg
          intro hh
          rw [hh] at this
          cases this
  · refine ⟨?_, h2⟩
    rw [← h1]
    simp [List.append_assoc]

theorem rgFold_inv (lines : List Str) (p : List (List Str) × List Str) (done : List Str)
    (h : rgInv p done) : rgInv (lines.foldl rgStep p) (done ++ lines) := by
  induction lines generalizing p done with
  | nil => simpa using h
  | cons l ls ih =>
    have := ih (rgStep p l) (done ++ [l]) (rgStep_inv p l done h)
    simpa using this

theorem rawGroups_flatten (lines : List Str) :
    (rawGroups lines).flatten = lines ∧ ∀ g ∈ rawGroups lines, g ≠ [] := by
  have h := rgFold_inv lines ([], []) [] ⟨by simp, by simp⟩
  obtain ⟨h1, h2⟩ := h
  unfold rawGroups
  simp only []
  split
  · rename_i hcur
    rw [List.isEmpty_iff] at hcur
    rw [hcur] at h1
    simp at h1
    exact ⟨by simpa using h1, h2⟩
  · rename_i hcur
    rw [List.isEmpty_iff] at hcur
    refine ⟨by simpa using h1, ?_⟩
    intro g hg
    simp only [List.mem_append, List.mem_singleton] at hg
    rcases hg with hg | hg
    · exact h2 g hg
    · subst hg; exact hcur

theorem toRawSection_content (g : List Str) : (toRawSection g).content = joinLines g := rfl

/-- joining the pre-filter chunk sequence with newlines reproduces the body. -/
theorem pre_filter_chunks_lossless (cs : Nat) (body : Str) :
    joinSep nl (pre_filter_chunks cs body) = body := by
  obtain ⟨hflat, hne⟩ := rawGroups_flatten (splitLines body)
  have hgs : ∀ p ∈ (rawGroups (splitLines body)).map (fun g => split_content (joinLines g) cs),
      p ≠ [] := by
    intro p hp
    simp only [List.mem_map] at hp
    obtain ⟨g, _, hg⟩ := hp
    rw [← hg]
    exact split_content_ne_nil _ _
  have h1 := joinSep_map_joinLines
    ((rawGroups (splitLines body)).map (fun g => split_content (joinLines g) cs)) hgs
  have h2 := joinSep_map_joinLines (rawGroups (splitLines body)) hne
  have hmaps : ((rawGroups (splitLines body)).map
        (fun g => split_content (joinLines g) cs)).map joinLines
      = (rawGroups (splitLines body)).map joinLines := by
    rw [List.map_map]
    apply List.map_congr_left
    intro g _
    show joinLines (split_content (joinLines g) cs) = joinLines g
    exact split_content_lossless (joinLines g) cs
  have hmain : joinLines (pre_filter_chunks cs body) = joinLines (splitLines body) := by
    unfold pre_filter_chunks split_raw_sections
    rw [List.map_map]
    have hcomp : ((fun sec => split_content sec.content cs) ∘ toRawSection)
        = fun g => split_content (joinLines g) cs := rfl
    rw [hcomp]
    show joinLines ((rawGroups (splitLines body)).map
        (fun g => split_content (joinLines g) cs)).flatten = joinLines (splitLines body)
    rw [← h1, hmaps, h2, hflat]
  calc joinSep nl (pre_filter_chunks cs body)
      = joinLines (pre_filter_chunks cs body) := rfl
    _ = joinLines (splitLines body) := hmain
    _ = body := joinLines_splitLines body

theorem bscChunkJobs_contents (mk : Nat → Str → ChunkJob)
    (hmk : ∀ i c, (mk i c).content = c) :
    ∀ (i : Nat) (l : List Str), (bscChunkJobs mk i l).map ChunkJob.content
      = l.filter (fun c => !(pyStrip c).isEmpty) := by
  intro i l
  induction l generalizing i with
  | nil => rfl
  | cons c rest ih =>
    by_cases hc : (pyStrip c).isEmpty
    · simp [bscChunkJobs, hc, List.filter_cons, ih]
    · have hc' : (pyStrip c).isEmpty = false := by
        cases h : (pyStrip c).isEmpty
        · rfl
        · exact absurd h hc
      simp [bscChunkJobs, hc', List.filter_cons, ih, hmk]

theorem bscSectionStep_contents (cs : Nat) (e : List Str) (acc : BSCAcc) (sec : RawSection) :
    ((bscSectionStep cs e acc sec).jobs).map ChunkJob.content
      = acc.jobs.map ChunkJob.content
        ++ (split_content sec.content cs).filter (fun c => !(pyStrip c).isEmpty) := by
  have hjobs : (bscSectionStep cs e acc sec).jobs
      = acc.jobs ++ bscChunkJobs
          (bscMkJob
            (if sec.hasHeading then
              (let sid := extract_section_id (if sec.hasHeading then
                  (if acc.hIdx < e.length then e.getD acc.hIdx [] else sec.headingText) else []);
               if sid.isEmpty then "section-".toList ++ natStr (acc.hIdx + 1) else sid)
            else "preamble-".toList ++ natStr (acc.jobs.length + 1))
            (if sec.hasHeading then
              (if acc.hIdx < e.length then e.getD acc.hIdx [] else sec.headingText) else [])
            (if acc.hIdx > 0 then e.getD (acc.hIdx - 1) [] else [])
            (if sec.hasHeading then
              (if acc.hIdx + 1 < e.length then e.getD (acc.hIdx + 1) [] else [])
            else (if acc.hIdx < e.length then e.getD acc.hIdx [] else [])))
          0 (split_content sec.content cs) := rfl
  rw [hjobs, List.map_append, bscChunkJobs_contents]
  intro i c
  rfl

theorem build_section_chunks_fold (cs : Nat) (e : List Str) :
    ∀ (secs : List RawSection) (acc : BSCAcc),
      ((secs.foldl (bscSectionStep cs e) acc).jobs).map ChunkJob.content
        = acc.jobs.map ChunkJob.content
          ++ ((secs.map (fun sec => split_content sec.content cs)).flatten).filter
              (fun c => !(pyStrip c).isEmpty) := by
  intro secs
  induction secs with
  | nil => intro acc; simp
  | cons s rest ih =>
    intro acc
    simp only [List.foldl_cons, List.map_cons, List.flatten_cons, List.filter_append]
    rw [ih (bscSectionStep cs e acc s), bscSectionStep_contents]
    simp [List.append_assoc]

/-- C1 (amended): the planner is lossless *up to dropped whitespace-only
chunks*: the pre-filter chunk sequence joins back to the body exactly, and
the produced jobs carry, in order, exactly the chunks whose content is not
whitespace-only. -/
theorem C1_amended (cs : Nat) (body : Str) (expected : List Str) :
    joinSep nl (pre_filter_chunks cs body) = body ∧
    (build_section_chunks cs body expected).map ChunkJob.content
      = (pre_filter_chunks cs body).filter (fun c => !(pyStrip c).isEmpty) := by
  refine ⟨pre_filter_chunks_lossless cs body, ?_⟩
  unfold build_section_chunks
  rw [build_section_chunks_fold]
  rfl

/-- C1 (counterexample): for the body `"\n\n# A\nx"` the Chunk Planner
(section strategy, empty expected-heading list, default chunk size) drops
the whitespace-only preamble chunk, so the single produced job's content
differs from the body: no removal of inter-chunk join artifacts can restore
the two dropped newlines. -/
theorem C1_counterexample :
    (build_section_chunks 8000 ("\n\n# A\nx".toList) []).map ChunkJob.content
        = ["# A\nx".toList] ∧
    joinSep nl ((build_section_chunks 8000 ("\n\n# A\nx".toList) []).map ChunkJob.content)
        ≠ "\n\n# A\nx".toList := by
  decide

/-- C8 (code bug): `split_content` toggles the fence flag before the split
decision, so it can place a boundary immediately before a *closing* fence,
leaving a chunk with an odd number of fence-toggle lines — a split inside a
fenced code block, which the spec forbids. -/
theorem C8_splits_inside_fence :
    split_content ("```\nAAAAAAAAAA\n```".toList) 10
        = ["```\nAAAAAAAAAA".toList, "```".toList] ∧
    ((splitLines ("```\nAAAAAAAAAA".toList)).filter isFence).length % 2 = 1 := by
  decide


/-! ### heading-marker parsing and `_normalize_numbered_heading_levels` -/

/-- parse `^\s*#{1,6}\s+(.+)$` on a single line: returns the marker depth
and group 1.  When everything after `#{1,6}\s` is whitespace, `\s+`
backtracks so `.+` captures exactly the final whitespace character. -/
def parseHeadingMarker (l : Str) : Option (Nat × Str) :=
  let r := l.dropWhile pySpace
  let hs := r.takeWhile (· = '#')
  let rest := r.dropWhile (· = '#')
  if hs.length < 1 || hs.length > 6 then none
  else
    match rest with
    | c :: _ =>
      if pySpace c then
        let t := rest.dropWhile pySpace
        if !t.isEmpty then some (hs.length, t)
        else if decide (rest.length ≥ 2) then some (hs.length, [rest.getLastD ' '])
        else none
      else none
    | [] => none

/-- `re.match(r'^\s*#{1,6}\s+.+$', line)` as a boolean. -/
def isHeadingLine (l : Str) : Bool := (parseHeadingMarker l).isSome

/-- the body of the `_normalize_numbered_heading_levels` loop for one
non-fence line outside code. -/
def normLine (l : Str) : Str :=
  match parseHeadingMarker l with
  | none => l
  | some (_, g1) =>
    match extract_numbered_heading_candidate g1 with
    | none => l
    | some (title, level) => List.replicate level '#' ++ [' '] ++ title

def normalizeLinesGo : Bool → List Str → List Str
  | _, [] => []
  | inCode, l :: rest =>
    if isFence l then l :: normalizeLinesGo (!inCode) rest
    else if inCode then l :: normalizeLinesGo inCode rest
    else normLine l :: normalizeLinesGo inCode rest

/-- `agent._normalize_numbered_heading_levels`. -/
def normalize_numbered_heading_levels (md : Str) : Str :=
  joinLines (normalizeLinesGo false (splitLines md))

/-- lines of a text annotated with the in-fenced-code flag they are seen
with (the flag a fence line itself carries is the state before its toggle,
matching how the source handles fence lines before testing them). -/
def linesWithCodeFlag : Bool → List Str → List (Str × Bool)
  | _, [] => []
  | inCode, l :: rest =>
    if isFence l then (l, inCode) :: linesWithCodeFlag (!inCode) rest
    else (l, inCode) :: linesWithCodeFlag inCode rest

/-! ### structure of `sidParse` results -/

def digitHead (s : Str) : Bool :=
  match s with
  | c :: _ => c.isDigit
  | [] => false

def startsDotDigit (s : Str) : Bool :=
  match s with
  | '.' :: c :: _ => c.isDigit
  | _ => false

theorem takeWhile_append_of_all {α : Type} (p : α → Bool) (a b : List α)
    (h : ∀ c ∈ a, p c) : (a ++ b).takeWhile p = a ++ b.takeWhile p := by
  induction a with
  | nil => simp
  | cons x xs ih =>
    have hx : p x := h x (by simp)
    simp only [List.cons_append, List.takeWhile_cons, hx, if_true]
    rw [ih (fun c hc => h c (by simp [hc]))]

theorem dropWhile_append_of_all {α : Type} (p : α → Bool) (a b : List α)
    (h : ∀ c ∈ a, p c) : (a ++ b).dropWhile p = b.dropWhile p := by
  induction a with
  | nil => simp
  | cons x xs ih =>
    have hx : p x := h x (by simp)
    simp only [List.cons_append, List.dropWhile_cons, hx, if_true]
    exact ih (fun c hc => h c (by simp [hc]))

theorem dropWhile_cons_false {α : Type} (p : α → Bool) (x : α) (xs : List α)
    (hx : p x = false) : (x :: xs).dropWhile p = x :: xs := by
  rw [List.dropWhile_cons, hx]
  simp

theorem takeWhile_digit_nil_of_blocked (t1 : Str)
    (hhead : t1 = [] ∨ ∃ r, t1 = '.' :: r) (x : Str) (hx1 : ¬digitHead x = true) :
    (t1 ++ x).takeWhile Char.isDigit = [] ∧ (t1 ++ x).dropWhile Char.isDigit = t1 ++ x := by
  rcases hhead with h0 | ⟨r, hr⟩
  · subst h0
    rw [List.nil_append]
    cases x with
    | nil => simp
    | cons c cs =>
      have hc : c.isDigit = false := by
        by_contra hdd
        simp only [Bool.not_eq_false] at hdd
        exact hx1 (by simp [digitHead, hdd])
      constructor
      · simp [List.takeWhile_cons, hc]
      · exact dropWhile_cons_false _ c cs hc
  · subst hr
    rw [List.cons_append]
    constructor
    · simp [List.takeWhile_cons]
    · apply dropWhile_cons_false
      decide

theorem sidLoopF_other_aux (f : Nat) (c : Char) (r : Str) (hc : c ≠ '.') :
    sidLoopF (f + 1) (c :: r) = ([], c :: r) := by
  rw [sidLoopF]
  simp [hc]

theorem sidLoopF_fuel : ∀ (f1 f2 : Nat) (l : Str), l.length ≤ f1 → l.length ≤ f2 →
    sidLoopF f1 l = sidLoopF f2 l := by
  intro f1
  induction f1 with
  | zero =>
    intro f2 l h1 _
    have : l = [] := by
      cases l with
      | nil => rfl
      | cons a b => simp at h1
    subst this
    cases f2 <;> rfl
  | succ f1 ih =>
    intro f2 l h1 h2
    cases l with
    | nil => cases f2 <;> rfl
    | cons c rest =>
      obtain ⟨f2p, hf2⟩ : ∃ f2p, f2 = f2p + 1 := by
        cases f2 with
        | zero => simp at h2
        | succ n => exact ⟨n, rfl⟩
      subst hf2
      by_cases hc : c = '.'
      · subst hc
        rw [sidLoopF, sidLoopF]
        try simp only []
        by_cases hds : (rest.takeWhile Char.isDigit).isEmpty = true
        · rw [if_pos hds, if_pos hds]
        · rw [if_neg hds, if_neg hds]
          have hlen := length_dropWhile_le Char.isDigit rest
          have hrec := ih f2p (rest.dropWhile Char.isDigit)
            (by simp at h1; omega) (by simp at h2; omega)
          rw [hrec]
      · rw [sidLoopF_other_aux f1 c rest hc, sidLoopF_other_aux f2p c rest hc]

theorem sidLoop_dot_neg (rest : Str) (h : (rest.takeWhile Char.isDigit).isEmpty = true) :
    sidLoop ('.' :: rest) = ([], '.' :: rest) := by
  unfold sidLoop
  rw [show ('.' :: rest).length = rest.length + 1 from rfl, sidLoopF]
  simp [h]

theorem sidLoop_dot_pos (rest : Str) (h : ¬(rest.takeWhile Char.isDigit).isEmpty = true) :
    sidLoop ('.' :: rest) =
      ('.' :: (rest.takeWhile Char.isDigit ++ (sidLoop (rest.dropWhile Char.isDigit)).1),
       (sidLoop (rest.dropWhile Char.isDigit)).2) := by
  unfold sidLoop
  rw [show ('.' :: rest).length = rest.length + 1 from rfl, sidLoopF]
  simp only [h, Bool.false_eq_true, if_false, if_neg]
  have hrec : sidLoopF rest.length (rest.dropWhile Char.isDigit)
      = sidLoopF (rest.dropWhile Char.isDigit).length (rest.dropWhile Char.isDigit) := by
    apply sidLoopF_fuel
    · exact length_dropWhile_le Char.isDigit rest
    · exact Nat.le_refl _
  rw [hrec]
  rfl

theorem sidLoop_nil : sidLoop [] = ([], []) := rfl

theorem sidLoop_other (c : Char) (r : Str) (hc : c ≠ '.') : sidLoop (c :: r) = ([], c :: r) := by
  unfold sidLoop
  rw [show (c :: r).length = r.length + 1 from rfl]
  exact sidLoopF_other_aux r.length c r hc

/-- `sidLoop` on input whose head can extend neither a digit run nor a
`.digit` block: nothing is consumed. -/
theorem sidLoop_triv (x : Str) (hx2 : ¬startsDotDigit x = true) :
    sidLoop x = ([], x) := by
  cases x with
  | nil => exact sidLoop_nil
  | cons c rest =>
    by_cases hc : c = '.'
    · subst hc
      apply sidLoop_dot_neg
      cases rest with
      | nil => simp
      | cons d r =>
        have hd : d.isDigit = false := by
          by_contra hdd
          simp only [Bool.not_eq_false] at hdd
          exact hx2 (by simp [startsDotDigit, hdd])
        simp [List.takeWhile_cons, hd]
    · exact sidLoop_other c rest hc

theorem lastQ_append_right {α : Type} (a b : List α) (hb : b ≠ []) :
    (a ++ b).getLast? = b.getLast? := by
  induction a with
  | nil => simp
  | cons x xs ih =>
    rw [List.cons_append]
    rw [List.getLast?_cons]
    rw [ih]
    cases hhb : b.getLast? with
    | none =>
      rw [List.getLast?_eq_none_iff] at hhb
      exact absurd hhb hb
    | some d =>
      cases hxs : (xs ++ b) with
      | nil =>
        have : b = [] := by
          cases xs <;> simp_all
        exact absurd this hb
      | cons y ys => simp [List.getLastD]
  -- fallback-free version below may be needed

theorem lastQ_digit_of_all (l : List Char) (hl : l ≠ []) (hall : ∀ c ∈ l, c.isDigit) :
    ∃ d, l.getLast? = some d ∧ d.isDigit := by
  induction l with
  | nil => exact absurd rfl hl
  | cons x xs ih =>
    cases xs with
    | nil => exact ⟨x, by simp, hall x (by simp)⟩
    | cons y ys =>
      obtain ⟨d, hd1, hd2⟩ := ih (by simp) (fun c hc => hall c (by simp [hc]))
      refine ⟨d, ?_, hd2⟩
      rw [List.getLast?_cons_cons]
      exact hd1

theorem sidLoop_spec (s : Str) :
    (sidLoop s).1 ++ (sidLoop s).2 = s ∧
    ((sidLoop s).1 = [] ∨ ∃ r, (sidLoop s).1 = '.' :: r) ∧
    (∀ c ∈ (sidLoop s).1, c.isDigit ∨ c = '.') ∧
    ((sidLoop s).1 ≠ [] → ∃ d, (sidLoop s).1.getLast? = some d ∧ d.isDigit) := by
  suffices H : ∀ (n : Nat) (s : Str), s.length ≤ n →
      (sidLoop s).1 ++ (sidLoop s).2 = s ∧
      ((sidLoop s).1 = [] ∨ ∃ r, (sidLoop s).1 = '.' :: r) ∧
      (∀ c ∈ (sidLoop s).1, c.isDigit ∨ c = '.') ∧
      ((sidLoop s).1 ≠ [] → ∃ d, (sidLoop s).1.getLast? = some d ∧ d.isDigit) by
    exact H s.length s (Nat.le_refl _)
  intro n
  induction n with
  | zero =>
    intro s hlen
    have hs : s = [] := by
      cases s with
      | nil => rfl
      | cons a b => simp at hlen
    subst hs
    rw [sidLoop_nil]
    simp
  | succ n ih =>
    intro s hlen
    cases s with
    | nil =>
      rw [sidLoop_nil]
      simp
    | cons c rest =>
      by_cases hcdot : c = '.'
      · subst hcdot
        by_cases hds : (rest.takeWhile Char.isDigit).isEmpty = true
        · rw [sidLoop_dot_neg rest hds]
          simp
        · rw [sidLoop_dot_pos rest hds]
          have hlen2 : (rest.dropWhile Char.isDigit).length ≤ n := by
            have := length_dropWhile_le Char.isDigit rest
            simp only [List.length_cons] at hlen
            omega
          obtain ⟨ih1, ih2, ih3, ih4⟩ := ih (rest.dropWhile Char.isDigit) hlen2
          have hds2 : ∀ ch ∈ rest.takeWhile Char.isDigit, ch.isDigit :=
            fun ch hc => List.mem_takeWhile_imp hc
          have hne : rest.takeWhile Char.isDigit ≠ [] := by
            intro hh
            apply hds
            rw [List.isEmpty_iff]
            exact hh
          refine ⟨?_, ?_, ?_, ?_⟩
          · simp only []
            rw [List.cons_append, List.append_assoc, ih1]
            rw [List.takeWhile_append_dropWhile]
          · right; exact ⟨_, rfl⟩
          · intro ch hc
            simp only [List.mem_cons, List.mem_append] at hc
            rcases hc with hc | hc | hc
            · right; exact hc
            · left; exact hds2 ch hc
            · exact ih3 ch hc
          · intro _
            by_cases htl : (sidLoop (rest.dropWhile Char.isDigit)).1 = []
            · rw [htl, List.append_nil]
              obtain ⟨d, hd1, hd2⟩ := lastQ_digit_of_all _ hne hds2
              refine ⟨d, ?_, hd2⟩
              have hsh : ('.' :: rest.takeWhile Char.isDigit)
                  = ['.'] ++ rest.takeWhile Char.isDigit := rfl
              rw [hsh, lastQ_append_right _ _ hne]
              exact hd1
            · obtain ⟨d, hd1, hd2⟩ := ih4 htl
              refine ⟨d, ?_, hd2⟩
              have hsh : ('.' :: (rest.takeWhile Char.isDigit
                    ++ (sidLoop (rest.dropWhile Char.isDigit)).1))
                  = ('.' :: rest.takeWhile Char.isDigit)
                    ++ (sidLoop (rest.dropWhile Char.isDigit)).1 := rfl
              rw [hsh, lastQ_append_right _ _ htl]
              exact hd1
      · rw [sidLoop_other c rest hcdot]
        simp

/-- the consumed path of `sidLoop` is stable: re-running on it followed by
anything that cannot extend it consumes exactly the same path. -/
theorem sidLoop_stable (s : Str) :
    ∀ x, ¬digitHead x = true → ¬startsDotDigit x = true →
      sidLoop ((sidLoop s).1 ++ x) = ((sidLoop s).1, x) := by
  suffices H : ∀ (n : Nat) (s : Str), s.length ≤ n →
      ∀ x, ¬digitHead x = true → ¬startsDotDigit x = true →
        sidLoop ((sidLoop s).1 ++ x) = ((sidLoop s).1, x) by
    exact H s.length s (Nat.le_refl _)
  intro n
  induction n with
  | zero =>
    intro s hlen x hx1 hx2
    have hs : s = [] := by
      cases s with
      | nil => rfl
      | cons a b => simp at hlen
    subst hs
    rw [sidLoop_nil]
    simpa using sidLoop_triv x hx2
  | succ n ih =>
    intro s hlen x hx1 hx2
    cases s with
    | nil =>
      rw [sidLoop_nil]
      simpa using sidLoop_triv x hx2
    | cons c rest =>
      by_cases hcdot : c = '.'
      · subst hcdot
        by_cases hds : (rest.takeWhile Char.isDigit).isEmpty = true
        · rw [sidLoop_dot_neg rest hds]
          simpa using sidLoop_triv x hx2
        · rw [sidLoop_dot_pos rest hds]
          try simp only []
          have hlen2 : (rest.dropWhile Char.isDigit).length ≤ n := by
            have := length_dropWhile_le Char.isDigit rest
            simp only [List.length_cons] at hlen
            omega
          have hds2 : ∀ ch ∈ rest.takeWhile Char.isDigit, ch.isDigit :=
            fun ch hc => List.mem_takeWhile_imp hc
          have hne : rest.takeWhile Char.isDigit ≠ [] := by
            intro hh
            apply hds
            rw [List.isEmpty_iff]
            exact hh
          obtain ⟨_, hhead, _, _⟩ := sidLoop_spec (rest.dropWhile Char.isDigit)
          have htail : List.takeWhile Char.isDigit
              ((sidLoop (rest.dropWhile Char.isDigit)).1 ++ x) = [] :=
            (takeWhile_digit_nil_of_blocked _ hhead x hx1).1
          have harg : ('.' :: (rest.takeWhile Char.isDigit
                ++ (sidLoop (rest.dropWhile Char.isDigit)).1) ++ x)
              = '.' :: (rest.takeWhile Char.isDigit
                ++ ((sidLoop (rest.dropWhile Char.isDigit)).1 ++ x)) := by
            simp [List.append_assoc]
          rw [harg]
          have htk : List.takeWhile Char.isDigit
              (rest.takeWhile Char.isDigit ++ ((sidLoop (rest.dropWhile Char.isDigit)).1 ++ x))
              = rest.takeWhile Char.isDigit := by
            rw [takeWhile_append_of_all _ _ _ hds2, htail, List.append_nil]
          have hdp : List.dropWhile Char.isDigit
              (rest.takeWhile Char.isDigit ++ ((sidLoop (rest.dropWhile Char.isDigit)).1 ++ x))
              = (sidLoop (rest.dropWhile Char.isDigit)).1 ++ x := by
            rw [dropWhile_append_of_all _ _ _ hds2]
            exact (takeWhile_digit_nil_of_blocked _ hhead x hx1).2
          rw [sidLoop_dot_pos]
          · rw [htk, hdp, ih (rest.dropWhile Char.isDigit) hlen2 x hx1 hx2]
          · rw [htk]
            simpa using hne
      · rw [sidLoop_other c rest hcdot]
        simpa using sidLoop_triv x hx2

theorem dropWhile_head_not {α : Type} (p : α → Bool) (l : List α) (c : α) (t : List α)
    (h : l.dropWhile p = c :: t) : p c = false := by
  induction l with
  | nil => cases h
  | cons x xs ih =>
    rw [List.dropWhile_cons] at h
    by_cases hx : p x
    · rw [if_pos hx] at h
      exact ih h
    · rw [if_neg hx] at h
      injection h with h1 _
      subst h1
      cases hpx : p x
      · rfl
      · exact absurd hpx hx

theorem pyStripL_cons_of_not_space (c : Char) (s : Str) (h : pySpace c = false) :
    pyStripL (c :: s) = c :: s := by
  simp [pyStripL, List.dropWhile_cons, h]

theorem pyStripL_head_not_space (l : Str) (c : Char) (t : Str)
    (h : pyStripL l = c :: t) : pySpace c = false :=
  dropWhile_head_not pySpace l c t h

theorem append_take {α : Type} (a b w : List α) (h : a ++ b = w) : ∃ k, a = w.take k :=
  ⟨a.length, by rw [← h, List.take_left]⟩

/-- `pyStripR` is a prefix of its input. -/
theorem pyStripR_take (w : Str) : ∃ k, pyStripR w = w.take k := by
  have hu : w.reverse.takeWhile pySpace ++ w.reverse.dropWhile pySpace = w.reverse :=
    List.takeWhile_append_dropWhile _ _
  have h2 := congrArg List.reverse hu
  rw [List.reverse_append, List.reverse_reverse] at h2
  unfold pyStripR
  exact append_take _ _ _ h2

theorem pyStripR_last_not_space (w : Str) (c : Char)
    (h : (pyStripR w).getLast? = some c) : pySpace c = false := by
  unfold pyStripR at h
  rw [List.getLast?_reverse] at h
  cases hd : w.reverse.dropWhile pySpace with
  | nil => rw [hd] at h; cases h
  | cons x xs =>
    rw [hd] at h
    have hx : x = c := by
      have : some x = some c := h
      injection this with hh
    exact hx ▸ dropWhile_head_not pySpace w.reverse x xs hd

theorem pyStripR_of_last_not_space (w : Str) (c : Char)
    (h : w.getLast? = some c) (hc : pySpace c = false) : pyStripR w = w := by
  unfold pyStripR
  cases hrev : w.reverse with
  | nil =>
    have : w = [] := by simpa using congrArg List.reverse hrev
    subst this
    cases h
  | cons x xs =>
    have hx : x = c := by
      have hh : w.reverse.head? = some x := by rw [hrev]; rfl
      rw [List.head?_reverse, h] at hh
      injection hh with hh2
      exact hh2.symm
    subst hx
    rw [dropWhile_cons_false pySpace x xs hc, ← hrev, List.reverse_reverse]

theorem pyStripR_append_of_last_not_space (u v : Str) (c : Char)
    (h : v.getLast? = some c) (hc : pySpace c = false) : pyStripR (u ++ v) = u ++ v := by
  apply pyStripR_of_last_not_space _ c _ hc
  have hv : v ≠ [] := by
    intro he; rw [he] at h; cases h
  rw [lastQ_append_right u v hv]
  exact h

theorem pyStripR_head (c : Char) (l t : Str) (h : pyStripR (c :: l) = t) (ht : t ≠ []) :
    ∃ t', t = c :: t' := by
  obtain ⟨k, hk⟩ := pyStripR_take (c :: l)
  rw [h] at hk
  cases k with
  | zero => simp at hk; exact absurd hk ht
  | succ k' =>
    rw [List.take_succ_cons] at hk
    exact ⟨_, hk⟩

/-- general split of `pyStripR` over an append whose left part ends in a
non-space character. -/
theorem pyStripR_append_cases (u v : Str) (cu : Char)
    (hu : u.getLast? = some cu) (hcu : pySpace cu = false) :
    (pyStripR v = [] ∧ pyStripR (u ++ v) = u) ∨
    (pyStripR v ≠ [] ∧ pyStripR (u ++ v) = u ++ pyStripR v) := by
  have hur : u.reverse.dropWhile pySpace = u.reverse := by
    cases hurr : u.reverse with
    | nil => rfl
    | cons x xs =>
      have hx : pySpace x = false := by
        have hh : u.reverse.head? = some x := by rw [hurr]; rfl
        rw [List.head?_reverse, hu] at hh
        injection hh with hh2
        rw [← hh2]
        exact hcu
      exact dropWhile_cons_false pySpace x xs hx
  by_cases hv : v.reverse.dropWhile pySpace = []
  · left
    have h1 : pyStripR v = [] := by
      unfold pyStripR
      rw [hv]
      rfl
    refine ⟨h1, ?_⟩
    unfold pyStripR
    rw [List.reverse_append]
    have hall : ∀ c ∈ v.reverse, pySpace c := List.dropWhile_eq_nil_iff.mp hv
    rw [dropWhile_append_of_all pySpace v.reverse u.reverse hall, hur, List.reverse_reverse]
  · right
    constructor
    · intro he
      apply hv
      unfold pyStripR at he
      have := congrArg List.reverse he
      simpa using this
    · unfold pyStripR
      rw [List.reverse_append]
      have hsplit : v.reverse.takeWhile pySpace ++ v.reverse.dropWhile pySpace = v.reverse :=
        List.takeWhile_append_dropWhile _ _
      have hrw : (v.reverse ++ u.reverse).dropWhile pySpace
          = v.reverse.dropWhile pySpace ++ u.reverse := by
        conv_lhs => rw [← hsplit]
        rw [List.append_assoc]
        rw [dropWhile_append_of_all pySpace _ _ (fun c hc => List.mem_takeWhile_imp hc)]
        cases hd : v.reverse.dropWhile pySpace with
        | nil => exact absurd hd hv
        | cons x xs =>
          have hx := dropWhile_head_not pySpace v.reverse x xs hd
          rw [List.cons_append]
          exact dropWhile_cons_false pySpace x _ hx
      rw [hrw, List.reverse_append, List.reverse_reverse]

theorem digit_not_space (c : Char) (h : c.isDigit = true) : pySpace c = false := by
  unfold Char.isDigit at h
  simp only [Bool.and_eq_true, decide_eq_true_eq] at h
  unfold pySpace
  have h0 : ('0' : Char).val = 48 := rfl
  have h9 : ('9' : Char).val = 57 := rfl
  have hle : 48 ≤ c.val ∧ c.val ≤ 57 := by
    constructor
    · have := h.1
      simp only [Char.le_def, h0] at this
      exact this
    · have := h.2
      simp only [Char.le_def, h9] at this
      exact this
  simp only [Bool.or_eq_false_iff, decide_eq_false_iff_not]
  refine ⟨⟨⟨⟨⟨⟨?_, ?_⟩, ?_⟩, ?_⟩, ?_⟩, ?_⟩, ?_⟩ <;>
    (intro he; subst he; revert hle; decide)

theorem digit_ne (c d : Char) (hc : c.isDigit = true) (hd : d.isDigit = false) : c ≠ d := by
  intro h
  subst h
  rw [hc] at hd
  cases hd

theorem splitOnChar_ne_nil (sep : Char) (s : Str) : splitOnChar sep s ≠ [] := by
  cases s with
  | nil => simp [splitOnChar]
  | cons c r =>
    simp only [splitOnChar]
    split
    · simp
    · cases h : splitOnChar sep r <;> simp

/-! ### `sidParse`: split and stability -/

theorem sidParse_pos (s : Str) (hds : ¬(s.takeWhile Char.isDigit).isEmpty = true) :
    sidParse s = some (s.takeWhile Char.isDigit ++ (sidLoop (s.dropWhile Char.isDigit)).1,
      (sidLoop (s.dropWhile Char.isDigit)).2) := by
  unfold sidParse
  simp [hds]

theorem sidParse_eq_some (s sid r : Str) (h : sidParse s = some (sid, r)) :
    ¬(s.takeWhile Char.isDigit).isEmpty = true ∧
    sid = s.takeWhile Char.isDigit ++ (sidLoop (s.dropWhile Char.isDigit)).1 ∧
    r = (sidLoop (s.dropWhile Char.isDigit)).2 := by
  by_cases hds : (s.takeWhile Char.isDigit).isEmpty = true
  · unfold sidParse at h
    simp [hds] at h
  · rw [sidParse_pos s hds] at h
    injection h with h1
    injection h1 with h2 h3
    exact ⟨hds, h2.symm, h3.symm⟩

theorem sidParse_split (s sid r : Str) (h : sidParse s = some (sid, r)) :
    s = sid ++ r ∧ sid ≠ [] ∧ digitHead sid = true ∧
    (∀ c ∈ sid, c.isDigit ∨ c = '.') ∧
    (∃ d, sid.getLast? = some d ∧ d.isDigit) := by
  obtain ⟨hds, h2, h3⟩ := sidParse_eq_some s sid r h
  obtain ⟨l1, l2, l3, l4⟩ := sidLoop_spec (s.dropWhile Char.isDigit)
  have hne : s.takeWhile Char.isDigit ≠ [] := by
    intro hh
    apply hds
    rw [List.isEmpty_iff]
    exact hh
  have hall : ∀ c ∈ s.takeWhile Char.isDigit, c.isDigit :=
    fun c hc => List.mem_takeWhile_imp hc
  refine ⟨?_, ?_, ?_, ?_, ?_⟩
  · rw [h2, h3, List.append_assoc, l1]
    rw [List.takeWhile_append_dropWhile]
  · rw [h2]
    intro hh
    rw [List.append_eq_nil] at hh
    exact hne hh.1
  · rw [h2]
    cases hd : s.takeWhile Char.isDigit with
    | nil => exact absurd hd hne
    | cons c cs =>
      have : c.isDigit := hall c (by rw [hd]; simp)
      simp [digitHead, this]
  · rw [h2]
    intro c hc
    rw [List.mem_append] at hc
    rcases hc with hc | hc
    · left; exact hall c hc
    · exact l3 c hc
  · rw [h2]
    by_cases htl : (sidLoop (s.dropWhile Char.isDigit)).1 = []
    · rw [htl, List.append_nil]
      exact lastQ_digit_of_all _ hne hall
    · obtain ⟨d, hd1, hd2⟩ := l4 htl
      refine ⟨d, ?_, hd2⟩
      rw [lastQ_append_right _ _ htl]
      exact hd1

/-- re-parsing a parsed numeric path followed by non-extending text
recovers exactly the same path. -/
theorem sidParse_stable (s sid r : Str) (h : sidParse s = some (sid, r)) (x : Str)
    (hx1 : ¬digitHead x = true) (hx2 : ¬startsDotDigit x = true) :
    sidParse (sid ++ x) = some (sid, x) := by
  obtain ⟨hds, h2, _⟩ := sidParse_eq_some s sid r h
  obtain ⟨_, hhead, _, _⟩ := sidLoop_spec (s.dropWhile Char.isDigit)
  have hall : ∀ c ∈ s.takeWhile Char.isDigit, c.isDigit :=
    fun c hc => List.mem_takeWhile_imp hc
  have hne : s.takeWhile Char.isDigit ≠ [] := by
    intro hh
    apply hds
    rw [List.isEmpty_iff]
    exact hh
  obtain ⟨hb1, hb2⟩ := takeWhile_digit_nil_of_blocked
    (sidLoop (s.dropWhile Char.isDigit)).1 hhead x hx1
  have harr : sid ++ x
      = s.takeWhile Char.isDigit ++ ((sidLoop (s.dropWhile Char.isDigit)).1 ++ x) := by
    rw [h2, List.append_assoc]
  have htk : (sid ++ x).takeWhile Char.isDigit = s.takeWhile Char.isDigit := by
    rw [harr, takeWhile_append_of_all _ _ _ hall, hb1, List.append_nil]
  have hdp : (sid ++ x).dropWhile Char.isDigit
      = (sidLoop (s.dropWhile Char.isDigit)).1 ++ x := by
    rw [harr, dropWhile_append_of_all _ _ _ hall, hb2]
  have hds2 : ¬((sid ++ x).takeWhile Char.isDigit).isEmpty = true := by
    rw [htk]
    simpa using hne
  rw [sidParse_pos _ hds2, htk, hdp, sidLoop_stable (s.dropWhile Char.isDigit) x hx1 hx2]
  rw [h2]

/-! ### evaluation of the candidate extractor on canonical heading texts -/

theorem swith_cons_ne (p : Char) (ps : Str) (c : Char) (s : Str) (h : p ≠ c) :
    swith (p :: ps) (c :: s) = false := by
  simp [swith, h]

theorem swith_nil_right (p : Char) (ps : Str) : swith (p :: ps) [] = false := rfl

theorem digit_not_border (c : Char) (h : c.isDigit = true) : tableBorderChar c = false := by
  unfold tableBorderChar
  have h1 : c ≠ '+' := digit_ne c '+' h (by decide)
  have h2 : c ≠ ':' := digit_ne c ':' h (by decide)
  have h3 : c ≠ '=' := digit_ne c '=' h (by decide)
  have h4 : c ≠ '-' := digit_ne c '-' h (by decide)
  have h5 : c ≠ '|' := digit_ne c '|' h (by decide)
  have h6 : c ≠ ' ' := digit_ne c ' ' h (by decide)
  simp [h1, h2, h3, h4, h5, h6]

theorem badStart_false_of_digit (c : Char) (s : Str) (h : c.isDigit = true) :
    headingCandidateBadStart (c :: s) = false := by
  unfold headingCandidateBadStart
  simp only [List.any_cons, List.any_nil, Bool.or_eq_false_iff]
  refine ⟨?_, ?_, ?_, ?_, ?_, ?_, ?_, ?_, ?_⟩
  · exact swith_cons_ne '|' [] c s (Ne.symm (digit_ne c '|' h (by decide)))
  · exact swith_cons_ne '-' [] c s (Ne.symm (digit_ne c '-' h (by decide)))
  · exact swith_cons_ne '*' [] c s (Ne.symm (digit_ne c '*' h (by decide)))
  · exact swith_cons_ne '+' [] c s (Ne.symm (digit_ne c '+' h (by decide)))
  · exact swith_cons_ne '>' [] c s (Ne.symm (digit_ne c '>' h (by decide)))
  · exact swith_cons_ne '[' [] c s (Ne.symm (digit_ne c '[' h (by decide)))
  · exact swith_cons_ne '!' ['['] c s (Ne.symm (digit_ne c '!' h (by decide)))
  · exact swith_cons_ne (Char.ofNat 96) [Char.ofNat 96, Char.ofNat 96] c s
      (Ne.symm (digit_ne c (Char.ofNat 96) h (by decide)))
  · trivial

theorem tableDelim_false_of_digit (c : Char) (s : Str) (hdig : c.isDigit = true)
    (hps : pyStrip (c :: s) = c :: s) :
    looks_like_table_delimiter_line (c :: s) = false := by
  unfold looks_like_table_delimiter_line
  rw [hps]
  simp only [List.isEmpty_cons, Bool.false_eq_true, if_false]
  have hborder : (c :: s).all tableBorderChar = false := by
    simp [List.all_cons, digit_not_border c hdig]
  rw [hborder, Bool.and_false]
  simp only [Bool.false_eq_true, if_false]
  have hsw : swith "|".toList (c :: s) = false :=
    swith_cons_ne '|' [] c s (Ne.symm (digit_ne c '|' hdig (by decide)))
  rw [hsw, Bool.false_and]
  simp

theorem space_not_digit : (' ' : Char).isDigit = false := by decide

/-- evaluating `candidateOfStripped` on `sid ++ ' ' :: B` for a parsed
numeric path `sid`: the result is `none` or carries level
`heading_level_from_section_id sid`. -/
theorem candidateOfStripped_canonical (s0 sid r0 : Str)
    (hOrig : sidParse s0 = some (sid, r0)) (B : Str) (hB : B ≠ [])
    (hBlast : ∃ d, B.getLast? = some d ∧ pySpace d = false) :
    candidateOfStripped (sid ++ ' ' :: B) = none ∨
    ∃ tb, candidateOfStripped (sid ++ ' ' :: B)
        = some (sid ++ [' '] ++ tb, heading_level_from_section_id sid) := by
  obtain ⟨_, hne, hdh, hchars, hlast⟩ := sidParse_split s0 sid r0 hOrig
  obtain ⟨c, cs, hcons⟩ : ∃ c cs, sid = c :: cs := by
    cases sid with
    | nil => exact absurd rfl hne
    | cons c cs => exact ⟨c, cs, rfl⟩
  have hcdig : c.isDigit = true := by
    rw [hcons] at hdh
    simpa [digitHead] using hdh
  obtain ⟨d, hd1, hd2⟩ := hBlast
  have hshape : sid ++ ' ' :: B = c :: (cs ++ ' ' :: B) := by
    rw [hcons]; rfl
  have hps : pyStrip (sid ++ ' ' :: B) = sid ++ ' ' :: B := by
    unfold pyStrip
    rw [hshape, pyStripL_cons_of_not_space c _ (digit_not_space c hcdig), ← hshape]
    apply pyStripR_of_last_not_space _ d _ hd2
    rw [lastQ_append_right _ _ (List.cons_ne_nil ' ' B)]
    rw [show (' ' :: B) = [' '] ++ B from rfl, lastQ_append_right [' '] B hB]
    exact hd1
  have hsp : sidParse (sid ++ ' ' :: B) = some (sid, ' ' :: B) := by
    apply sidParse_stable s0 sid r0 hOrig
    · simp [digitHead, space_not_digit]
    · simp [startsDotDigit]
  unfold candidateOfStripped
  rw [hshape]
  simp only [List.isEmpty_cons, Bool.false_eq_true, if_false]
  rw [badStart_false_of_digit c _ hcdig]
  simp only [Bool.false_eq_true, if_false]
  rw [tableDelim_false_of_digit c _ hcdig (hshape ▸ hps)]
  simp only [Bool.false_eq_true, if_false]
  rw [← hshape, hsp]
  simp only []
  cases htm : headingTailMatch (' ' :: B) with
  | none => left; simp only [htm]
  | some dg =>
    obtain ⟨delim, g3⟩ := dg
    simp only [htm]
    split
    · left; rfl
    · split
      · left; rfl
      · split
        · left; rfl
        · split
          · left; rfl
          · split
            · left; rfl
            · right; exact ⟨pyStrip g3, rfl⟩

/-- `candidateOfStripped` on the bare numeric path: no title follows, so no
candidate is produced. -/
theorem candidateOfStripped_sid (s0 sid r0 : Str)
    (hOrig : sidParse s0 = some (sid, r0)) :
    candidateOfStripped sid = none := by
  obtain ⟨_, hne, hdh, _, _⟩ := sidParse_split s0 sid r0 hOrig
  obtain ⟨c, cs, hcons⟩ : ∃ c cs, sid = c :: cs := by
    cases sid with
    | nil => exact absurd rfl hne
    | cons c cs => exact ⟨c, cs, rfl⟩
  have hcdig : c.isDigit = true := by
    rw [hcons] at hdh
    simpa [digitHead] using hdh
  have hsp : sidParse sid = some (sid, []) := by
    have hst := sidParse_stable s0 sid r0 hOrig []
      (by simp [digitHead]) (by simp [startsDotDigit])
    simpa using hst
  unfold candidateOfStripped
  rw [hcons]
  simp only [List.isEmpty_cons, Bool.false_eq_true, if_false]
  rw [badStart_false_of_digit c _ hcdig]
  simp only [Bool.false_eq_true, if_false]
  split
  · rfl
  · rw [← hcons, hsp]
    try simp only []
    rfl

theorem attrCut_append_nolb (a b : Str) (ha : ∀ ch ∈ a, ch ≠ lbrace) :
    attrCut (a ++ b) = (attrCut b).map (fun p => a ++ p) := by
  induction a with
  | nil =>
    simp only [List.nil_append]
    cases attrCut b <;> simp
  | cons x xs ih =>
    have hx : x ≠ lbrace := ha x (by simp)
    rw [List.cons_append, attrCut]
    have hcond : (x = lbrace && (xs ++ b).head? = some '#' &&
        decide ((xs ++ b).length ≥ 2) && (xs ++ b).getLast? = some rbrace &&
        !((xs ++ b).dropLast.contains rbrace)) = false := by
      have : decide (x = lbrace) = false := by
        simp [hx]
      simp [this]
    rw [hcond]
    simp only [Bool.false_eq_true, if_false]
    rw [ih (fun ch hch => ha ch (by simp [hch]))]
    cases attrCut b <;> simp

theorem sid_chars_not_lbrace (sid : Str) (hchars : ∀ c ∈ sid, c.isDigit = true ∨ c = '.') :
    ∀ ch ∈ sid ++ [' '], ch ≠ lbrace := by
  intro ch hch
  rw [List.mem_append] at hch
  rcases hch with hch | hch
  · rcases hchars ch hch with hd | hd
    · exact digit_ne ch lbrace hd (by decide)
    · rw [hd]; decide
  · simp only [List.mem_singleton] at hch
    rw [hch]; decide

theorem pyStrip_canonical (sid : Str) (c : Char) (cs : Str) (hcons : sid = c :: cs)
    (hcdig : c.isDigit = true) (B : Str) (hB : B ≠ [])
    (d : Char) (hd1 : B.getLast? = some d) (hd2 : pySpace d = false) :
    pyStrip (sid ++ ' ' :: B) = sid ++ ' ' :: B := by
  have hshape : sid ++ ' ' :: B = c :: (cs ++ ' ' :: B) := by
    rw [hcons]; rfl
  unfold pyStrip
  rw [hshape, pyStripL_cons_of_not_space c _ (digit_not_space c hcdig), ← hshape]
  apply pyStripR_of_last_not_space _ d _ hd2
  rw [lastQ_append_right _ _ (List.cons_ne_nil ' ' B)]
  rw [show (' ' :: B) = [' '] ++ B from rfl, lastQ_append_right [' '] B hB]
  exact hd1

/-- shape of any successful numbered-heading candidate. -/
theorem candidate_shape (l t : Str) (lvl : Nat)
    (h : extract_numbered_heading_candidate l = some (t, lvl)) :
    ∃ sid g3 r0, sidParse (strip_heading_attrs (pyStrip l)) = some (sid, r0) ∧
      t = sid ++ [' '] ++ pyStrip g3 ∧ pyStrip g3 ≠ [] ∧
      lvl = heading_level_from_section_id sid := by
  unfold extract_numbered_heading_candidate candidateOfStripped at h
  split at h
  · simp at h
  · split at h
    · simp at h
    · split at h
      · simp at h
      · split at h
        · simp at h
        · rename_i sid r heq
          split at h
          · simp at h
          · rename_i dg delim g3 heq2
            simp only [] at h
            split at h
            · simp at h
            · rename_i hg3ne
              split at h
              · simp at h
              · split at h
                · simp at h
                · split at h
                  · simp at h
                  · split at h
                    · simp at h
                    · simp only [Option.some.injEq, Prod.mk.injEq] at h
                      refine ⟨sid, g3, r, heq, h.1.symm, ?_, h.2.symm⟩
                      intro hne
                      apply hg3ne
                      rw [hne]
                      rfl

/-- re-extracting a candidate from a rendered canonical heading text
recovers the same level. -/
theorem candidate_level_stable (s0 sid r0 g3 : Str)
    (hOrig : sidParse s0 = some (sid, r0))
    (hg3 : pyStrip g3 ≠ [])
    (t2 : Str) (lvl2 : Nat)
    (hc : extract_numbered_heading_candidate (sid ++ [' '] ++ pyStrip g3) = some (t2, lvl2)) :
    lvl2 = heading_level_from_section_id sid := by
  obtain ⟨_, hne, hdh, hchars, hlastd⟩ := sidParse_split s0 sid r0 hOrig
  obtain ⟨c, cs, hcons⟩ : ∃ c cs, sid = c :: cs := by
    cases sid with
    | nil => exact absurd rfl hne
    | cons c cs => exact ⟨c, cs, rfl⟩
  have hcdig : c.isDigit = true := by
    rw [hcons] at hdh
    simpa [digitHead] using hdh
  obtain ⟨dl, hdl1, hdl2⟩ := hlastd
  set body := pyStrip g3 with hbody
  have hblast : ∃ d, body.getLast? = some d ∧ pySpace d = false := by
    cases hlq : body.getLast? with
    | none =>
      rw [List.getLast?_eq_none_iff] at hlq
      exact absurd hlq hg3
    | some d =>
      refine ⟨d, rfl, ?_⟩
      exact pyStripR_last_not_space (pyStripL g3) d hlq
  obtain ⟨d, hd1, hd2⟩ := hblast
  have hform : sid ++ [' '] ++ body = sid ++ ' ' :: body := by simp
  have hps : pyStrip (sid ++ ' ' :: body) = sid ++ ' ' :: body :=
    pyStrip_canonical sid c cs hcons hcdig body hg3 d hd1 hd2
  have hLid : pyStripL (sid ++ ' ' :: body) = sid ++ ' ' :: body := by
    have hsh : sid ++ ' ' :: body = c :: (cs ++ ' ' :: body) := by rw [hcons]; rfl
    rw [hsh]
    exact pyStripL_cons_of_not_space c _ (digit_not_space c hcdig)
  have hRid : pyStripR (sid ++ ' ' :: body) = sid ++ ' ' :: body := by
    have := hps
    unfold pyStrip at this
    rw [hLid] at this
    exact this
  rw [hform] at hc
  unfold extract_numbered_heading_candidate at hc
  rw [hps] at hc
  unfold strip_heading_attrs at hc
  rw [hRid] at hc
  have hsplit : sid ++ ' ' :: body = (sid ++ [' ']) ++ body := by simp
  rw [hsplit, attrCut_append_nolb (sid ++ [' ']) body (sid_chars_not_lbrace sid hchars)] at hc
  cases hAC : attrCut body with
  | none =>
    rw [hAC] at hc
    have hmn : Option.map (fun p => (sid ++ [' ']) ++ p) (none : Option Str) = none := rfl
    rw [hmn] at hc
    simp only [] at hc
    rw [← hsplit, hps] at hc
    rcases candidateOfStripped_canonical s0 sid r0 hOrig body hg3 ⟨d, hd1, hd2⟩ with hcase | ⟨tb, hcase⟩
    · rw [hcase] at hc
      simp at hc
    · rw [hcase] at hc
      simp only [Option.some.injEq, Prod.mk.injEq] at hc
      exact hc.2.symm
  | some pre =>
    rw [hAC] at hc
    have hms : Option.map (fun p => (sid ++ [' ']) ++ p) (some pre)
        = some ((sid ++ [' ']) ++ pre) := rfl
    rw [hms] at hc
    simp only [] at hc
    have hpre : pyStrip ((sid ++ [' ']) ++ pre) = pyStripR (sid ++ ' ' :: pre) := by
      unfold pyStrip
      have hsh2 : (sid ++ [' ']) ++ pre = c :: (cs ++ ' ' :: pre) := by
        rw [hcons]; simp
      rw [hsh2, pyStripL_cons_of_not_space c _ (digit_not_space c hcdig), ← hsh2]
      have : (sid ++ [' ']) ++ pre = sid ++ ' ' :: pre := by simp
      rw [this]
    rw [hpre] at hc
    rcases pyStripR_append_cases sid (' ' :: pre) dl hdl1 (digit_not_space dl hdl2)
      with ⟨hz, hres⟩ | ⟨hz, hres⟩
    · rw [hres] at hc
      rw [candidateOfStripped_sid s0 sid r0 hOrig] at hc
      simp at hc
    · rw [hres] at hc
      obtain ⟨w, hw⟩ := pyStripR_head ' ' pre _ rfl hz
      have hwne : w ≠ [] := by
        intro hwe
        have : pyStripR (' ' :: pre) = [' '] := by rw [hw, hwe]
        have hl := pyStripR_last_not_space (' ' :: pre) ' ' (by rw [this]; rfl)
        simp [pySpace] at hl
      have hwlast : ∃ d2, w.getLast? = some d2 ∧ pySpace d2 = false := by
        cases hlq : w.getLast? with
        | none =>
          rw [List.getLast?_eq_none_iff] at hlq
          exact absurd hlq hwne
        | some d2 =>
          refine ⟨d2, rfl, ?_⟩
          apply pyStripR_last_not_space (' ' :: pre) d2
          rw [hw]
          rw [show (' ' :: w) = [' '] ++ w from rfl, lastQ_append_right [' '] w hwne]
          exact hlq
      rw [hw] at hc
      rcases candidateOfStripped_canonical s0 sid r0 hOrig w hwne hwlast with hcase | ⟨tb, hcase⟩
      · rw [hcase] at hc
        simp at hc
      · rw [hcase] at hc
        simp only [Option.some.injEq, Prod.mk.injEq] at hc
        exact hc.2.symm

/-! ### the rendered heading line, fences, and the normalization walk -/

theorem parseHeadingMarker_rendered (lvl : Nat) (h1 : 1 ≤ lvl) (h6 : lvl ≤ 6)
    (t : Str) (c : Char) (cs : Str) (ht : t = c :: cs) (hcs : pySpace c = false) :
    parseHeadingMarker (List.replicate lvl '#' ++ [' '] ++ t) = some (lvl, t) := by
  have hrep : ∀ ch ∈ List.replicate lvl '#', ch = '#' := by
    intro ch hc
    exact List.eq_of_mem_replicate hc
  have hform : List.replicate lvl '#' ++ [' '] ++ t = List.replicate lvl '#' ++ ' ' :: t := by
    simp
  obtain ⟨k, hk⟩ : ∃ k, lvl = k + 1 := ⟨lvl - 1, by omega⟩
  have hhead : List.replicate lvl '#' ++ ' ' :: t = '#' :: (List.replicate k '#' ++ ' ' :: t) := by
    rw [hk, List.replicate_succ, List.cons_append]
  have hdw : (List.replicate lvl '#' ++ ' ' :: t).dropWhile pySpace
      = List.replicate lvl '#' ++ ' ' :: t := by
    rw [hhead]
    apply dropWhile_cons_false
    decide
  have htw : (List.replicate lvl '#' ++ ' ' :: t).takeWhile (· = '#')
      = List.replicate lvl '#' := by
    rw [takeWhile_append_of_all _ _ _ (fun ch hc => by simp [hrep ch hc])]
    simp [List.takeWhile_cons]
  have hdw2 : (List.replicate lvl '#' ++ ' ' :: t).dropWhile (· = '#') = ' ' :: t := by
    rw [dropWhile_append_of_all _ _ _ (fun ch hc => by simp [hrep ch hc])]
    apply dropWhile_cons_false
    decide
  have hdt : (' ' :: t).dropWhile pySpace = t := by
    rw [List.dropWhile_cons]
    have hsp : pySpace ' ' = true := by decide
    rw [hsp]
    simp only [if_true]
    rw [ht]
    exact dropWhile_cons_false _ c cs hcs
  rw [hform]
  unfold parseHeadingMarker
  simp only []
  rw [hdw, htw, hdw2]
  have hlen : (List.replicate lvl '#').length = lvl := List.length_replicate _ _
  rw [hlen]
  have hb : (decide (lvl < 1) || decide (lvl > 6)) = false := by
    simp only [Bool.or_eq_false_iff, decide_eq_false_iff_not]
    omega
  rw [hb]
  simp only [Bool.false_eq_true, if_false]
  have hsp : pySpace ' ' = true := by decide
  rw [hsp]
  simp only [if_true]
  rw [hdt]
  have hne : t.isEmpty = false := by
    rw [ht]; rfl
  rw [hne]
  simp

theorem isFence_false_of_head (c : Char) (s : Str) (hc : pySpace c = false)
    (hbq : c ≠ Char.ofNat 96) : isFence (c :: s) = false := by
  unfold isFence pyStrip
  rw [pyStripL_cons_of_not_space c s hc]
  cases hR : pyStripR (c :: s) with
  | nil => rfl
  | cons x xs =>
    obtain ⟨t', ht'⟩ := pyStripR_head c s _ hR (by simp)
    have hx : x = c := by
      injection ht' with hh _
    rw [hx]
    exact swith_cons_ne (Char.ofNat 96) [Char.ofNat 96, Char.ofNat 96] c xs (fun he => hbq he.symm)

theorem swith_cons_true (p : Char) (ps s : Str) (h : swith (p :: ps) s = true) :
    ∃ s', s = p :: s' ∧ swith ps s' = true := by
  cases s with
  | nil => cases h
  | cons x xs =>
    simp only [swith, Bool.and_eq_true, decide_eq_true_eq] at h
    exact ⟨xs, by rw [h.1], h.2⟩

theorem parseHeadingMarker_none_of_fence (l : Str) (h : isFence l = true) :
    parseHeadingMarker l = none := by
  unfold isFence at h
  obtain ⟨s1, hs1, _⟩ := swith_cons_true _ _ _ h
  have hLne : pyStripL l ≠ [] := by
    intro he
    unfold pyStrip at hs1
    rw [he] at hs1
    cases hs1
  obtain ⟨c0, r0, hc0⟩ : ∃ c0 r0, pyStripL l = c0 :: r0 := by
    cases hL : pyStripL l with
    | nil => exact absurd hL hLne
    | cons c0 r0 => exact ⟨c0, r0, rfl⟩
  have hc0bq : c0 = Char.ofNat 96 := by
    unfold pyStrip at hs1
    rw [hc0] at hs1
    obtain ⟨t', ht'⟩ := pyStripR_head c0 r0 _ rfl (by rw [hs1]; simp)
    rw [hs1] at ht'
    injection ht' with hh _
    exact hh.symm
  unfold parseHeadingMarker
  have hdwl : l.dropWhile pySpace = c0 :: r0 := hc0
  rw [hdwl]
  simp only []
  have htk : (c0 :: r0).takeWhile (· = '#') = [] := by
    rw [List.takeWhile_cons]
    have : ¬(c0 = '#') := by
      rw [hc0bq]; decide
    simp [this]
  rw [htk]
  simp

theorem normLine_marker_level (x : Str) (m : Nat) (g1 t2 : Str) (lvl2 : Nat)
    (hp : parseHeadingMarker (normLine x) = some (m, g1))
    (hc : extract_numbered_heading_candidate g1 = some (t2, lvl2)) :
    m = lvl2 := by
  unfold normLine at hp
  cases hpx : parseHeadingMarker x with
  | none =>
    rw [hpx] at hp
    simp only [] at hp
    rw [hpx] at hp
    cases hp
  | some pr =>
    obtain ⟨m0, g0⟩ := pr
    rw [hpx] at hp
    simp only [] at hp
    cases hcx : extract_numbered_heading_candidate g0 with
    | none =>
      rw [hcx] at hp
      simp only [] at hp
      rw [hpx] at hp
      injection hp with hp1
      injection hp1 with hpm hpg
      rw [← hpg] at hc
      rw [hcx] at hc
      cases hc
    | some tl =>
      obtain ⟨title, level⟩ := tl
      rw [hcx] at hp
      simp only [] at hp
      obtain ⟨sid, g3, r0, hsp, hshape, hg3, hlvl⟩ := candidate_shape g0 title level hcx
      obtain ⟨_, hne0, hdh0, _, _⟩ := sidParse_split _ sid r0 hsp
      obtain ⟨c, cs0, hcons0⟩ : ∃ c cs0, sid = c :: cs0 := by
        cases sid with
        | nil => exact absurd rfl hne0
        | cons c cs0 => exact ⟨c, cs0, rfl⟩
      have hcdig : c.isDigit = true := by
        rw [hcons0] at hdh0
        simpa [digitHead] using hdh0
      have hlvl1 : 1 ≤ level := by
        rw [hlvl]
        unfold heading_level_from_section_id
        split
        · omega
        · have := splitOnChar_ne_nil '.' sid
          have hlen : 1 ≤ (splitDots sid).length := by
            unfold splitDots
            cases hsd : splitOnChar '.' sid with
            | nil => exact absurd hsd this
            | cons a b => simp
          omega
      have hlvl6 : level ≤ 6 := by
        rw [hlvl]
        unfold heading_level_from_section_id
        split
        · omega
        · exact Nat.min_le_left _ _
      have htitle : title = c :: (cs0 ++ ' ' :: pyStrip g3) := by
        rw [hshape, hcons0]
        simp
      have hparsed := parseHeadingMarker_rendered level hlvl1 hlvl6 title c
        (cs0 ++ ' ' :: pyStrip g3) htitle (digit_not_space c hcdig)
      rw [hparsed] at hp
      injection hp with hp1
      injection hp1 with hpm hpg
      rw [← hpg, hshape] at hc
      have := candidate_level_stable _ sid r0 g3 hsp hg3 t2 lvl2 hc
      rw [this, ← hlvl, hpm]

theorem normLine_fence_false (x : Str) (hx : isFence x = false) :
    isFence (normLine x) = false := by
  unfold normLine
  cases hpx : parseHeadingMarker x with
  | none => exact hx
  | some pr =>
    obtain ⟨m0, g0⟩ := pr
    try simp only []
    cases hcx : extract_numbered_heading_candidate g0 with
    | none => exact hx
    | some tl =>
      obtain ⟨title, level⟩ := tl
      try simp only []
      obtain ⟨sid, g3, r0, hsp, hshape, hg3, hlvl⟩ := candidate_shape g0 title level hcx
      obtain ⟨_, hne0, hdh0, _, _⟩ := sidParse_split _ sid r0 hsp
      have hlvl1 : 1 ≤ level := by
        rw [hlvl]
        unfold heading_level_from_section_id
        split
        · omega
        · have hnil := splitOnChar_ne_nil '.' sid
          have hlen : 1 ≤ (splitDots sid).length := by
            unfold splitDots
            cases hsd : splitOnChar '.' sid with
            | nil => exact absurd hsd hnil
            | cons a b => simp
          omega
      obtain ⟨k, hk⟩ : ∃ k, level = k + 1 := ⟨level - 1, by omega⟩
      have hshape2 : List.replicate level '#' ++ [' '] ++ title
          = '#' :: (List.replicate k '#' ++ [' '] ++ title) := by
        rw [hk, List.replicate_succ]
        simp
      rw [hshape2]
      apply isFence_false_of_head '#' _ (by decide) (by decide)

theorem normGo_cons (inCode : Bool) (x : Str) (rest : List Str) :
    normalizeLinesGo inCode (x :: rest) =
      if isFence x then x :: normalizeLinesGo (!inCode) rest
      else if inCode then x :: normalizeLinesGo inCode rest
      else normLine x :: normalizeLinesGo inCode rest := by
  rw [normalizeLinesGo]

theorem lwcf_cons (inCode : Bool) (x : Str) (rest : List Str) :
    linesWithCodeFlag inCode (x :: rest) =
      if isFence x then (x, inCode) :: linesWithCodeFlag (!inCode) rest
      else (x, inCode) :: linesWithCodeFlag inCode rest := by
  rw [linesWithCodeFlag]

/-- outside fenced code, every normalized line whose text parses as both a
heading marker and a numbered-heading candidate has marker depth equal to
the candidate level. -/
theorem normWalk_level (L : List Str) : ∀ (flag : Bool) (l : Str),
    (l, false) ∈ linesWithCodeFlag flag (normalizeLinesGo flag L) →
    ∀ (m : Nat) (g1 t2 : Str) (lvl2 : Nat), parseHeadingMarker l = some (m, g1) →
      extract_numbered_heading_candidate g1 = some (t2, lvl2) → m = lvl2 := by
  induction L with
  | nil =>
    intro flag l hmem
    simp [normalizeLinesGo, linesWithCodeFlag] at hmem
  | cons x rest ih =>
    intro flag l hmem m g1 t2 lvl2 hp hc
    by_cases hf : isFence x = true
    · rw [normGo_cons, hf] at hmem
      simp only [if_true] at hmem
      rw [lwcf_cons, hf] at hmem
      simp only [if_true] at hmem
      rcases List.mem_cons.mp hmem with hhead | htail
      · have hl : l = x := congrArg Prod.fst hhead
        rw [hl, parseHeadingMarker_none_of_fence x hf] at hp
        cases hp
      · exact ih (!flag) l htail m g1 t2 lvl2 hp hc
    · have hf' : isFence x = false := by
        cases hfx : isFence x
        · rfl
        · exact absurd hfx hf
      cases flag with
      | true =>
        rw [normGo_cons, hf'] at hmem
        simp only [Bool.false_eq_true, if_false, if_true] at hmem
        rw [lwcf_cons, hf'] at hmem
        simp only [Bool.false_eq_true, if_false] at hmem
        rcases List.mem_cons.mp hmem with hhead | htail
        · have : false = true := congrArg Prod.snd hhead
          cases this
        · exact ih true l htail m g1 t2 lvl2 hp hc
      | false =>
        rw [normGo_cons, hf'] at hmem
        simp only [Bool.false_eq_true, if_false] at hmem
        have hnf : isFence (normLine x) = false := normLine_fence_false x hf'
        rw [lwcf_cons, hnf] at hmem
        simp only [Bool.false_eq_true, if_false] at hmem
        rcases List.mem_cons.mp hmem with hhead | htail
        · have hl : l = normLine x := congrArg Prod.fst hhead
          rw [hl] at hp
          exact normLine_marker_level x m g1 t2 lvl2 hp hc
        · exact ih false l htail m g1 t2 lvl2 hp hc

/-- C3 (counterexample): the heading-depth normalization pass caps marker
depth at 6, so the numeric path `1.1.1.1.1.1` (6 segments) is rewritten to
depth 6, not `segments + 1 = 7` as the claim requires for paths of any
length. -/
theorem C3_counterexample :
    normalize_numbered_heading_levels ("## 1.1.1.1.1.1 T".toList)
        = "###### 1.1.1.1.1.1 T".toList ∧
    (splitDots ("1.1.1.1.1.1".toList)).length + 1 = 7 ∧
    ("###### 1.1.1.1.1.1 T".toList.takeWhile (fun c => c = '#')).length = 6 := by
  decide

/-- C3 (amended): after `_normalize_numbered_heading_levels`, every line
outside fenced code that both carries a heading marker and is recognized as
a numbered-heading candidate has marker depth equal to the candidate
level, namely `min 6 (number of numeric-path segments + 1)`; the source
caps the depth at 6 and leaves unrecognized numbered lines untouched. -/
theorem C3_amended (md l : Str) (m : Nat) (g1 t2 : Str) (lvl2 : Nat)
    (hmem : (l, false) ∈ linesWithCodeFlag false (normalizeLinesGo false (splitLines md)))
    (hp : parseHeadingMarker l = some (m, g1))
    (hc : extract_numbered_heading_candidate g1 = some (t2, lvl2)) :
    m = lvl2 ∧ ∃ sid body, t2 = sid ++ [' '] ++ body ∧ sid ≠ [] ∧
      lvl2 = min 6 ((splitDots sid).length + 1) := by
  refine ⟨normWalk_level (splitLines md) false l hmem m g1 t2 lvl2 hp hc, ?_⟩
  obtain ⟨sid, g3, r0, hsp, hshape, hg3, hlvl⟩ := candidate_shape g1 t2 lvl2 hc
  obtain ⟨_, hne, _, _, _⟩ := sidParse_split _ sid r0 hsp
  refine ⟨sid, pyStrip g3, hshape, hne, ?_⟩
  rw [hlvl]
  unfold heading_level_from_section_id
  have hie : sid.isEmpty = false := by
    cases sid with
    | nil => exact absurd rfl hne
    | cons a b => rfl
  rw [hie]
  simp

/-- C3 (witness for the amended theorem): the document `"## 2.1 T"` is
normalized to `"### 2.1 T"`, and the theorem applies to that line. -/
theorem C3_amended_witness :
    (("### 2.1 T".toList, false)
        ∈ linesWithCodeFlag false (normalizeLinesGo false (splitLines ("## 2.1 T".toList)))) ∧
    parseHeadingMarker ("### 2.1 T".toList) = some (3, "2.1 T".toList) ∧
    extract_numbered_heading_candidate ("2.1 T".toList) = some ("2.1 T".toList, 3) ∧
    (3 = 3 ∧ ∃ sid body, "2.1 T".toList = sid ++ [' '] ++ body ∧ sid ≠ [] ∧
      3 = min 6 ((splitDots sid).length + 1)) :=
  ⟨by decide, by decide, by decide,
   C3_amended ("## 2.1 T".toList) ("### 2.1 T".toList) 3 ("2.1 T".toList)
     ("2.1 T".toList) 3 (by decide) (by decide) (by decide)⟩

/-! ### `_remove_fenced_code_blocks`, `_strip_heading_lines_outside_code_blocks` -/

/-- line walk of `_remove_fenced_code_blocks`: fence lines toggle the flag
and are dropped; lines inside code are dropped; the rest are kept. -/
def rfcGo : Bool → List Str → List Str
  | _, [] => []
  | inCode, l :: ls =>
    if isFence l then rfcGo (!inCode) ls
    else if inCode then rfcGo inCode ls
    else l :: rfcGo inCode ls

/-- `_remove_fenced_code_blocks(text)`. -/
def remove_fenced_code_blocks (text : Str) : Str :=
  joinLines (rfcGo false (splitLines text))

/-- line walk of `_strip_heading_lines_outside_code_blocks`: fence lines are
kept and toggle the flag; heading lines outside code are collected (in
stripped form) instead of kept. -/
def shlGo : Bool → List Str → List Str × List Str
  | _, [] => ([], [])
  | inCode, l :: ls =>
    if isFence l then
      let r := shlGo (!inCode) ls
      (l :: r.1, r.2)
    else if !inCode && isHeadingLine l then
      let r := shlGo inCode ls
      (r.1, pyStrip l :: r.2)
    else
      let r := shlGo inCode ls
      (l :: r.1, r.2)

/-- body of `re.sub(r'\n\x7b3,\x7d', '\n\n', s)`: every maximal run of three
or more newlines becomes exactly two.  Fuel is the length of the string. -/
def cnrF : Nat → Str → Str
  | _, [] => []
  | 0, s => s
  | fuel + 1, c :: rest =>
    if c = '\n' then
      let run := rest.takeWhile (fun d => d = '\n')
      if 2 ≤ run.length then
        '\n' :: '\n' :: cnrF fuel (rest.dropWhile (fun d => d = '\n'))
      else '\n' :: cnrF fuel rest
    else c :: cnrF fuel rest

def collapseNewlineRuns (s : Str) : Str := cnrF s.length s

/-- `_strip_heading_lines_outside_code_blocks(text)`. -/
def strip_heading_lines_outside_code_blocks (text : Str) : Str × List Str :=
  let r := shlGo false (splitLines text)
  (pyStrip (collapseNewlineRuns (joinLines r.1)), r.2)

/-! ### `_extract_numbered_headings` -/

/-- body of `re.match(r'^#\x7b2,6\x7d\s+(.+)$', line)`, returning group 1.
As with `parseHeadingMarker`, when everything after the marker is
whitespace, `\s+` backtracks and `.+` captures the final whitespace
character. -/
def matchHeading26 (l : Str) : Option Str :=
  let hs := l.takeWhile (fun c => c = '#')
  let rest := l.dropWhile (fun c => c = '#')
  if hs.length < 2 || hs.length > 6 then none
  else
    match rest with
    | c :: _ =>
      if pySpace c then
        let t := rest.dropWhile pySpace
        if !t.isEmpty then some t
        else if decide (2 ≤ rest.length) then some [rest.getLastD ' ']
        else none
      else none
    | [] => none

/-- `_extract_numbered_headings(markdown)`. -/
def extract_numbered_headings (markdown : Str) : List Str :=
  (splitLines (remove_fenced_code_blocks markdown)).filterMap fun line =>
    match matchHeading26 line with
    | none => none
    | some g =>
      let title := strip_heading_attrs (pyStrip g)
      if title = "目录".toList then none
      else if digitHead title then some title else none

/-! ### `_normalize_text_for_content_guard` and the fidelity guard -/

/-- Python `str.replace(pat, rep)` (left-to-right, non-overlapping).  Fuel
is the length of the string. -/
def replaceAllF (pat rep : Str) : Nat → Str → Str
  | _, [] => []
  | 0, s => s
  | fuel + 1, c :: rest =>
    if swith pat (c :: rest) then
      rep ++ replaceAllF pat rep fuel ((c :: rest).drop pat.length)
    else c :: replaceAllF pat rep fuel rest

/-- body of `re.sub(r'^\s*#\x7b1,6\x7d\s+', '', s)`: strip one leading
heading marker (seven or more hash marks never match: the character after
a shorter hash run is another hash, not whitespace). -/
def stripLeadHeadingMarker (s : Str) : Str :=
  let r := s.dropWhile pySpace
  let hs := r.takeWhile (fun c => c = '#')
  if 1 ≤ hs.length ∧ hs.length ≤ 6 then
    let rest := r.dropWhile (fun c => c = '#')
    match rest with
    | c :: _ => if pySpace c then rest.dropWhile pySpace else s
    | [] => s
  else s

/-- body of `re.sub(r'^\s*[-*+]\s+', '', s)`: strip one leading bullet. -/
def stripLeadBullet (s : Str) : Str :=
  let r := s.dropWhile pySpace
  match r with
  | c :: rest =>
    if c = '-' || c = '*' || c = '+' then
      match rest with
      | d :: _ => if pySpace d then rest.dropWhile pySpace else s
      | [] => s
    else s
  | [] => s

/-- body of `re.sub(r'^\s*\d+\.\s+', '', s)`: strip one leading ordered-list
marker. -/
def stripLeadOrdered (s : Str) : Str :=
  let r := s.dropWhile pySpace
  let ds := r.takeWhile Char.isDigit
  if ds.isEmpty then s
  else
    match r.dropWhile Char.isDigit with
    | '.' :: rest =>
      match rest with
      | d :: _ => if pySpace d then rest.dropWhile pySpace else s
      | [] => s
    | _ => s

/-- body of `re.sub` for the attribute groups (open brace, hash, any
non-close-brace characters, close brace): delete every occurrence; an
unclosed group is left in place. -/
def stripAttrGroupsF : Nat → Str → Str
  | _, [] => []
  | 0, s => s
  | fuel + 1, c :: rest =>
    if c = lbrace then
      match rest with
      | d :: r2 =>
        if d = '#' then
          match r2.dropWhile (fun e => e ≠ rbrace) with
          | _ :: r3 => stripAttrGroupsF fuel r3
          | [] => c :: stripAttrGroupsF fuel rest
        else c :: stripAttrGroupsF fuel rest
      | [] => [c]
    else c :: stripAttrGroupsF fuel rest

/-- match of the image-link pattern (bang, bracketed alt text, parenthesised
url) at the start of `s`: returns (alt, url, rest after the match). -/
def imageLinkAt (s : Str) : Option (Str × Str × Str) :=
  match s with
  | '!' :: '[' :: r1 =>
    let alt := r1.takeWhile (fun c => c ≠ ']')
    match r1.dropWhile (fun c => c ≠ ']') with
    | ']' :: '(' :: r2 =>
      let url := r2.takeWhile (fun c => c ≠ ')')
      if url.isEmpty then none
      else
        match r2.dropWhile (fun c => c ≠ ')') with
        | ')' :: r3 => some (alt, url, r3)
        | _ => none
    | _ => none
  | _ => none

/-- body of the image-link substitution: each match becomes alt, a space
and the url. -/
def subImagesF : Nat → Str → Str
  | _, [] => []
  | 0, s => s
  | fuel + 1, c :: rest =>
    match imageLinkAt (c :: rest) with
    | some (alt, url, r3) => alt ++ (' ' :: url) ++ subImagesF fuel r3
    | none => c :: subImagesF fuel rest

/-- match of the plain-link pattern (bracketed non-empty text, parenthesised
url) at the start of `s`: returns (text, rest after the match). -/
def plainLinkAt (s : Str) : Option (Str × Str) :=
  match s with
  | '[' :: r1 =>
    let txt := r1.takeWhile (fun c => c ≠ ']')
    if txt.isEmpty then none
    else
      match r1.dropWhile (fun c => c ≠ ']') with
      | ']' :: '(' :: r2 =>
        let url := r2.takeWhile (fun c => c ≠ ')')
        if url.isEmpty then none
        else
          match r2.dropWhile (fun c => c ≠ ')') with
          | ')' :: r3 => some (txt, r3)
          | _ => none
      | _ => none
  | _ => none

/-- body of the plain-link substitution: each match becomes its text. -/
def subLinksF : Nat → Str → Str
  | _, [] => []
  | 0, s => s
  | fuel + 1, c :: rest =>
    match plainLinkAt (c :: rest) with
    | some (txt, r3) => txt ++ subLinksF fuel r3
    | none => c :: subLinksF fuel rest

/-- body of `re.sub(r'\s+', ' ', s)`. -/
def collapseWsF : Nat → Str → Str
  | _, [] => []
  | 0, s => s
  | fuel + 1, c :: rest =>
    if pySpace c then ' ' :: collapseWsF fuel (rest.dropWhile pySpace)
    else c :: collapseWsF fuel rest

/-- the markdown punctuation deleted by the guard normalization: backtick,
asterisk, underscore, tilde. -/
def mdPunct (c : Char) : Bool :=
  c = Char.ofNat 96 || c = '*' || c = '_' || c = '~'

/-- `_normalize_text_for_content_guard(line)`. -/
def normalize_text_for_content_guard (line : Str) : Str :=
  let s := pyStrip line
  if s.isEmpty then []
  else
    let s := stripLeadHeadingMarker s
    let s := stripLeadBullet s
    let s := stripLeadOrdered s
    let s := stripAttrGroupsF s.length s
    let s := replaceAllF "```json".toList "```".toList s.length s
    let s := replaceAllF "```bash".toList "```".toList s.length s
    let s := subImagesF s.length s
    let s := subLinksF s.length s
    let s := s.map (fun c => if c = '|' then ' ' else c)
    let s := s.filter (fun c => !mdPunct c)
    pyStrip (collapseWsF s.length s)

/-- a CJK unified ideograph (the first findall alternative's class). -/
def cjkChar (c : Char) : Bool :=
  decide (0x4e00 ≤ c.toNat) && decide (c.toNat ≤ 0x9fff)

/-- tail class of the ASCII-word alternative: letters, digits and the
punctuation the guard keeps inside a token. -/
def tokenTailChar (c : Char) : Bool :=
  c.isAlpha || c.isDigit || c = '_' || c = '.' || c = ':' ||
    c = '/' || c = '+' || c = '-'

/-- the findall of `_extract_content_tokens_for_guard`: leftmost scan; at
each position the three alternatives (two-plus CJK run, ASCII letter plus
word-tail run, two-plus digit run) are tried in order, each greedy. -/
def guardTokensF : Nat → Str → List Str
  | _, [] => []
  | 0, _ => []
  | fuel + 1, c :: rest =>
    if cjkChar c then
      match rest.takeWhile cjkChar with
      | [] => guardTokensF fuel rest
      | run => (c :: run) :: guardTokensF fuel (rest.dropWhile cjkChar)
    else if c.isAlpha then
      match rest.takeWhile tokenTailChar with
      | [] => guardTokensF fuel rest
      | run => (c :: run) :: guardTokensF fuel (rest.dropWhile tokenTailChar)
    else if c.isDigit then
      match rest.takeWhile Char.isDigit with
      | [] => guardTokensF fuel rest
      | run => (c :: run) :: guardTokensF fuel (rest.dropWhile Char.isDigit)
    else guardTokensF fuel rest

/-- order-preserving de-duplication (`dict.fromkeys`). -/
def dedupAcc : List Str → List Str → List Str
  | _, [] => []
  | seen, x :: xs =>
    if x ∈ seen then dedupAcc seen xs else x :: dedupAcc (x :: seen) xs

def dedup (l : List Str) : List Str := dedupAcc [] l

/-- `_extract_content_tokens_for_guard(text)` (each token lower-cased). -/
def extract_content_tokens_for_guard (text : Str) : List Str :=
  (splitLines text).flatMap fun line =>
    let normalized := normalize_text_for_content_guard line
    if normalized.isEmpty then []
    else if looks_like_table_delimiter_line normalized then []
    else (guardTokensF normalized.length normalized).map (List.map Char.toLower)

/-- structured failure reason of the fidelity guard (the source renders it
into a Chinese message; the float percent formatting is not modelled). -/
inductive GuardReason where
  | tokenCoverage (matched unique : Nat) (missing : List Str)
  | charRatio (outLen srcLen : Nat)
deriving Repr, DecidableEq

/-- `self.content_guard_min_tokens` default. -/
def content_guard_min_tokens : Nat := 20

/-- `_check_content_preservation(source_chunk, converted_chunk)`: `none`
means the guard passes.  The float thresholds `0.82` and `0.62` are the
exact rationals 41/50 and 31/50 (`coverage < 0.82` is `50 * matched <
41 * unique`; `ratio < 0.62` is `50 * outLen < 31 * srcLen`). -/
def check_content_preservation (source_chunk converted_chunk : Str) :
    Option GuardReason :=
  let sourceTokens := extract_content_tokens_for_guard source_chunk
  if sourceTokens.isEmpty then none
  else
    let outputTokens := extract_content_tokens_for_guard converted_chunk
    let uniqueSource := dedup sourceTokens
    let matched := (uniqueSource.filter (fun t => outputTokens.contains t)).length
    let sourcePlain := joinSep [' ']
      (((splitLines source_chunk).map normalize_text_for_content_guard).filter
        (fun l => !l.isEmpty))
    let outputPlain := joinSep [' ']
      (((splitLines converted_chunk).map normalize_text_for_content_guard).filter
        (fun l => !l.isEmpty))
    if content_guard_min_tokens ≤ uniqueSource.length ∧
        50 * matched < 41 * uniqueSource.length then
      some (.tokenCoverage matched uniqueSource.length
        ((uniqueSource.filter (fun t => !outputTokens.contains t)).take 6))
    else if 120 ≤ sourcePlain.length ∧
        50 * outputPlain.length < 31 * sourcePlain.length then
      some (.charRatio outputPlain.length sourcePlain.length)
    else none

/-! ### `_extract_error_codes` -/

/-- match of the error-code pattern body (optional whitespace, optional
pipe, whitespace, four-to-six digits, then either a pipe or two or more
whitespace characters) at a line-start position.  Returns the captured
digits, the remainder after the match, and whether the final consumed
character was a newline (the `\s` classes cross line boundaries).  When
the digit run is not followed by a pipe, the regex backtracks so that
the trailing `\s\x7b2,\x7d` consumes exactly the whitespace run. -/
def ecTryMatch (s : Str) : Option (Str × Str × Bool) :=
  let r1 := s.dropWhile pySpace
  let r2 := match r1 with
    | '|' :: t => t
    | _ => r1
  let r3 := r2.dropWhile pySpace
  let ds := r3.takeWhile Char.isDigit
  if 4 ≤ ds.length ∧ ds.length ≤ 6 then
    let r4 := r3.dropWhile Char.isDigit
    let w := r4.takeWhile pySpace
    let r5 := r4.dropWhile pySpace
    match r5 with
    | '|' :: t => some (ds, t, false)
    | _ => if 2 ≤ w.length then some (ds, r5, w.getLastD ' ' = '\n') else none
  else none

/-- the multiline findall of `_extract_error_codes`: matches must start at
a line start; scanning resumes right after each match. -/
def ecScanF : Nat → Bool → Str → List Str
  | _, _, [] => []
  | 0, _, _ => []
  | fuel + 1, atStart, c :: rest =>
    if atStart then
      match ecTryMatch (c :: rest) with
      | some (code, rem, nlEnd) => code :: ecScanF fuel nlEnd rem
      | none => ecScanF fuel (c = '\n') rest
    else ecScanF fuel (c = '\n') rest

/-- `_extract_error_codes(text)` as an ordered duplicate-free list (the
source builds a `set`; its trailing `isdigit` filter is vacuous). -/
def extract_error_codes (text : Str) : List Str :=
  dedup (ecScanF text.length true text)

/-- Python code-point-lexicographic string order (for `sorted`). -/
def strLt : Str → Str → Bool
  | [], [] => false
  | [], _ :: _ => true
  | _ :: _, [] => false
  | a :: as, b :: bs => if a = b then strLt as bs else decide (a < b)

def insertSorted (x : Str) : List Str → List Str
  | [] => [x]
  | y :: ys => if strLt x y then x :: y :: ys else y :: insertSorted x ys

def sortStrs : List Str → List Str
  | [] => []
  | x :: xs => insertSorted x (sortStrs xs)

/-! ### fenced-block extraction -/

/-- first-occurrence split: `some (before, after)` when
`s = before ++ pat ++ after` at the first occurrence of `pat` in `s`. -/
def splitAtSubF (pat : Str) : Nat → Str → Option (Str × Str)
  | _, [] => if pat.isEmpty then some ([], []) else none
  | 0, _ => none
  | fuel + 1, c :: rest =>
    if swith pat (c :: rest) then some ([], (c :: rest).drop pat.length)
    else
      match splitAtSubF pat fuel rest with
      | some (pre, post) => some (c :: pre, post)
      | none => none

/-- the `\s*\n(.*?)\n` + fence part of the fenced-block patterns.  `P` is
the text right after the opening marker.  `\s*\n` consumes up to the last
newline of the leading whitespace run for which a closing newline-fence
still occurs later (the regex backtracks towards earlier newlines); the
lazy group then reaches to the first closing occurrence.  Returns the raw
group and the remainder after the closing fence. -/
def jbMatch (P : Str) : Option (Str × Str) :=
  let W := P.takeWhile pySpace
  let cands := ((List.range W.length).filter (fun i => P.getD i ' ' = '\n')).reverse
  cands.findSome? fun i => splitAtSubF ("\n```".toList) P.length (P.drop (i + 1))

/-- the finditer of `_extract_json_blocks`. -/
def ejbF : Nat → Str → List Str
  | _, [] => []
  | 0, _ => []
  | fuel + 1, c :: rest =>
    if swith ("```json".toList) (c :: rest) then
      match jbMatch ((c :: rest).drop 7) with
      | some (content, post) => pyStrip content :: ejbF fuel post
      | none => ejbF fuel rest
    else ejbF fuel rest

/-- `_extract_json_blocks(text)`: every match of the json-fence pattern
(re.S), each group stripped. -/
def extract_json_blocks (text : Str) : List Str := ejbF text.length text

structure FencedBlock where
  lang : Str
  content : Str
  start : Nat
  stop : Nat
deriving Repr, DecidableEq

/-- match of the generic fenced-block pattern at the start of `s` (which
begins with three backticks): the language group is the maximal run of
non-newline non-backtick characters; after it the pattern requires a
newline (a backtick there never matches, even after backtracking, because
the given-back characters are not whitespace).  Returns (language group,
raw content, remainder, consumed length). -/
def fbMatch (s : Str) : Option (Str × Str × Str × Nat) :=
  let P0 := s.drop 3
  let lang := P0.takeWhile (fun c => c ≠ '\n' && c ≠ Char.ofNat 96)
  let P := P0.drop lang.length
  match P with
  | '\n' :: _ =>
    match jbMatch P with
    | some (content, post) => some (lang, content, post, s.length - post.length)
    | none => none
  | _ => none

/-- the finditer of `_extract_fenced_code_blocks`, tracking offsets. -/
def efcbF : Nat → Nat → Str → List FencedBlock
  | _, _, [] => []
  | 0, _, _ => []
  | fuel + 1, pos, c :: rest =>
    if swith ("```".toList) (c :: rest) then
      match fbMatch (c :: rest) with
      | some (lang, content, post, consumed) =>
        ⟨(pyStrip lang).map Char.toLower, pyStrip content, pos, pos + consumed⟩
          :: efcbF fuel (pos + consumed) post
      | none => efcbF fuel (pos + 1) rest
    else efcbF fuel (pos + 1) rest

/-- `_extract_fenced_code_blocks(text)` (lang lower-cased and stripped,
content stripped, match offsets). -/
def extract_fenced_code_blocks (text : Str) : List FencedBlock :=
  efcbF text.length 0 text

/-- `_extract_json_candidate_code_blocks(text)`. -/
def extract_json_candidate_code_blocks (text : Str) : List FencedBlock :=
  (extract_fenced_code_blocks text).filter fun block =>
    let content := pyStrip block.content
    if content.isEmpty then false
    else if block.lang = "json".toList then true
    else block.lang.isEmpty && (swith [lbrace] content || swith ['['] content)

/-! ### the fidelity-guard boundary (claim C5) -/

/-- the distinct source tokens of the guard. -/
def guardUnique (source : Str) : List Str :=
  dedup (extract_content_tokens_for_guard source)

/-- the matched-token count of the guard. -/
def guardMatched (source converted : Str) : Nat :=
  ((guardUnique source).filter
    (fun t => (extract_content_tokens_for_guard converted).contains t)).length

/-- the distinct source tokens absent from the candidate. -/
def guardMissing (source converted : Str) : List Str :=
  (guardUnique source).filter
    (fun t => !(extract_content_tokens_for_guard converted).contains t)

/-- length of the normalized plain text used by the char-ratio branch. -/
def guardPlainLen (text : Str) : Nat :=
  (joinSep [' ']
    (((splitLines text).map normalize_text_for_content_guard).filter
      (fun l => !l.isEmpty))).length

theorem check_content_preservation_eq (s c : Str) :
    check_content_preservation s c =
      (if (extract_content_tokens_for_guard s).isEmpty then none
       else if 20 ≤ (guardUnique s).length ∧
           50 * guardMatched s c < 41 * (guardUnique s).length then
         some (GuardReason.tokenCoverage (guardMatched s c) (guardUnique s).length
           ((guardMissing s c).take 6))
       else if 120 ≤ guardPlainLen s ∧ 50 * guardPlainLen c < 31 * guardPlainLen s then
         some (GuardReason.charRatio (guardPlainLen c) (guardPlainLen s))
       else none) := rfl

theorem length_filter_split {α : Type} (p : α → Bool) (l : List α) :
    (l.filter p).length + (l.filter (fun x => !p x)).length = l.length := by
  induction l with
  | nil => rfl
  | cons x xs ih =>
    cases h : p x
    · simp [List.filter_cons, h]
      omega
    · simp [List.filter_cons, h]
      omega

/-- a source of twenty distinct two-letter tokens, each line repeated three
times (so the normalized source is 179 characters long). -/
def c5src : Str :=
  ("aa ab ac ad ae af ag ah ai aj ak al am an ao ap aq ar as at\n" ++
   "aa ab ac ad ae af ag ah ai aj ak al am an ao ap aq ar as at\n" ++
   "aa ab ac ad ae af ag ah ai aj ak al am an ao ap aq ar as at").toList

/-- a candidate retaining each of the twenty tokens exactly once. -/
def c5out : Str :=
  "aa ab ac ad ae af ag ah ai aj ak al am an ao ap aq ar as at".toList

set_option maxRecDepth 40000 in
/-- C5 (counterexample): on `c5src`/`c5out` the candidate retains every one
of the twenty distinct source tokens (coverage 100 percent, at or above the
0.82 floor), yet the guard fails — through its char-ratio branch — refuting
the claim's clause that coverage at or above the floor makes the guard
pass. -/
theorem C5_counterexample :
    41 * (guardUnique c5src).length ≤ 50 * guardMatched c5src c5out ∧
    20 ≤ (guardUnique c5src).length ∧
    check_content_preservation c5src c5out
      = some (GuardReason.charRatio 59 179) := by decide

/-- C5 (amended): the guard fails with a token-coverage reason naming up to
six sample missing tokens whenever the source has at least 20 distinct
guard tokens and the candidate's token coverage is below the 0.82 floor
(exactly: 50·matched < 41·distinct); when coverage is at or above the floor
the guard passes only provided the char-ratio branch also does not fire
(normalized source under 120 characters, or 50·outLen ≥ 31·srcLen — the
0.62 floor); the original claim omitted the char-ratio proviso. -/
theorem C5_amended (source converted : Str) :
    (20 ≤ (guardUnique source).length →
      50 * guardMatched source converted < 41 * (guardUnique source).length →
      check_content_preservation source converted
          = some (GuardReason.tokenCoverage (guardMatched source converted)
              (guardUnique source).length ((guardMissing source converted).take 6)) ∧
        (guardMissing source converted).take 6 ≠ [] ∧
        ∀ t ∈ (guardMissing source converted).take 6,
          t ∈ guardUnique source ∧ t ∉ extract_content_tokens_for_guard converted) ∧
    (41 * (guardUnique source).length ≤ 50 * guardMatched source converted →
      (guardPlainLen source < 120 ∨
        31 * guardPlainLen source ≤ 50 * guardPlainLen converted) →
      check_content_preservation source converted = none) := by
  constructor
  · intro h20 hlt
    have htok : (extract_content_tokens_for_guard source).isEmpty = false := by
      cases h : (extract_content_tokens_for_guard source).isEmpty
      · rfl
      · exfalso
        have he : extract_content_tokens_for_guard source = [] := List.isEmpty_iff.mp h
        have : guardUnique source = [] := by
          rw [guardUnique, he]; rfl
        rw [this] at h20
        simp at h20
    rw [check_content_preservation_eq, htok]
    rw [if_neg (by simp), if_pos ⟨h20, hlt⟩]
    refine ⟨rfl, ?_, ?_⟩
    · have hmu : guardMatched source converted < (guardUnique source).length := by omega
      have hsplit := length_filter_split
        (fun t => (extract_content_tokens_for_guard converted).contains t)
        (guardUnique source)
      have hmisslen : 0 < (guardMissing source converted).length := by
        rw [guardMissing]
        rw [guardMatched] at hmu
        omega
      have hne : guardMissing source converted ≠ [] := by
        intro hnil; rw [hnil] at hmisslen; simp at hmisslen
      obtain ⟨x, xs, hx⟩ := List.exists_cons_of_ne_nil hne
      rw [hx]
      simp [List.take]
    · intro t ht
      have htm : t ∈ guardMissing source converted := List.mem_of_mem_take ht
      rw [guardMissing, List.mem_filter] at htm
      refine ⟨htm.1, ?_⟩
      have hc := htm.2
      simp only [Bool.not_eq_true'] at hc
      simp at hc
      exact hc
  · intro hge hro
    rw [check_content_preservation_eq]
    cases h : (extract_content_tokens_for_guard source).isEmpty
    · rw [if_neg (by simp)]
      rw [if_neg (by rintro ⟨h20, hlt⟩; omega)]
      rw [if_neg (by rintro ⟨h120, hlt⟩; rcases hro with h | h <;> omega)]
    · rw [if_pos (by simp)]

set_option maxRecDepth 40000 in
/-- C5 (amended, witness): the amended theorem applied to concrete pairs:
a candidate retaining 1 of 20 tokens fails with the first six missing
tokens reported, and the identity candidate (full coverage, ratio 1)
passes. -/
theorem C5_amended_witness :
    (20 ≤ (guardUnique c5out).length ∧
     50 * guardMatched c5out ("aa".toList) < 41 * (guardUnique c5out).length ∧
     (check_content_preservation c5out ("aa".toList)
        = some (GuardReason.tokenCoverage (guardMatched c5out ("aa".toList))
            (guardUnique c5out).length ((guardMissing c5out ("aa".toList)).take 6)) ∧
      (guardMissing c5out ("aa".toList)).take 6 ≠ [] ∧
      ∀ t ∈ (guardMissing c5out ("aa".toList)).take 6,
        t ∈ guardUnique c5out ∧ t ∉ extract_content_tokens_for_guard ("aa".toList))) ∧
    (41 * (guardUnique c5out).length ≤ 50 * guardMatched c5out c5out ∧
     check_content_preservation c5out c5out = none) :=
  ⟨⟨by decide, by decide, (C5_amended c5out ("aa".toList)).1 (by decide) (by decide)⟩,
   ⟨by decide, (C5_amended c5out c5out).2 (by decide) (Or.inl (by decide))⟩⟩

/-! ### JSON values, `json.dumps(..., ensure_ascii=False, indent=2)` and
`json.loads`.

JSON numbers with a fraction or exponent, and the `NaN`/`Infinity`
constants, are kept as their source lexeme (`floatLex`); Python would hold
a float and re-serialize it with `repr`, which is not modelled.  String
escapes decoding to lone UTF-16 surrogates are rejected here (Lean `Char`
cannot hold them; Python would keep them). -/

mutual
inductive JVal where
  | null : JVal
  | bool (b : Bool) : JVal
  | int (n : Int) : JVal
  | floatLex (s : Str) : JVal
  | str (s : Str) : JVal
  | arr (xs : JList) : JVal
  | obj (kvs : JObj) : JVal
inductive JList where
  | nil : JList
  | cons (hd : JVal) (tl : JList) : JList
inductive JObj where
  | nil : JObj
  | cons (k : Str) (v : JVal) (tl : JObj) : JObj
end

/-- lower-case hex digit. -/
def hexDigitChar (n : Nat) : Char :=
  if n < 10 then Char.ofNat (48 + n) else Char.ofNat (87 + n)

/-- the escape table of `json.dumps` with `ensure_ascii=False`: only the
quote, the backslash and control characters are escaped. -/
def jstrEscape (c : Char) : Str :=
  if c = '"' then ['\\', '"']
  else if c = '\\' then ['\\', '\\']
  else if c = '\n' then ['\\', 'n']
  else if c = '\t' then ['\\', 't']
  else if c = '\r' then ['\\', 'r']
  else if c = Char.ofNat 8 then ['\\', 'b']
  else if c = Char.ofNat 12 then ['\\', 'f']
  else if decide (c.toNat < 0x20) then
    ['\\', 'u', '0', '0', hexDigitChar (c.toNat / 16), hexDigitChar (c.toNat % 16)]
  else [c]

def jstrDump (s : Str) : Str := '"' :: (s.map jstrEscape).flatten ++ ['"']

def digitChar (n : Nat) : Char := Char.ofNat (48 + n)

/-- decimal digits of a natural number (most significant first); fuel
bounds the recursion depth. -/
def natDigitsF : Nat → Nat → Str
  | 0, _ => []
  | fuel + 1, n =>
    if n < 10 then [digitChar n]
    else natDigitsF fuel (n / 10) ++ [digitChar (n % 10)]

def natStr2 (n : Nat) : Str := natDigitsF (n + 1) n

def intStr (n : Int) : Str :=
  if n < 0 then '-' :: natStr2 n.natAbs else natStr2 n.natAbs

def jindent (d : Nat) : Str := List.replicate (2 * d) ' '

mutual
/-- `json.dumps(v, ensure_ascii=False, indent=2)` at nesting depth `d`. -/
def jdump (d : Nat) : JVal → Str
  | .null => "null".toList
  | .bool true => "true".toList
  | .bool false => "false".toList
  | .int n => intStr n
  | .floatLex s => s
  | .str s => jstrDump s
  | .arr .nil => "[]".toList
  | .arr (.cons x xs) =>
      '[' :: '\n' :: (jindent (d + 1) ++ jdump (d + 1) x ++ jdumpList (d + 1) xs
        ++ '\n' :: (jindent d ++ [']']))
  | .obj .nil => [lbrace, rbrace]
  | .obj (.cons k v kvs) =>
      lbrace :: '\n' :: (jindent (d + 1) ++ jstrDump k ++ ':' :: ' ' ::
        (jdump (d + 1) v ++ jdumpObj (d + 1) kvs ++ '\n' :: (jindent d ++ [rbrace])))
def jdumpList (d : Nat) : JList → Str
  | .nil => []
  | .cons x xs => ',' :: '\n' :: (jindent d ++ jdump d x ++ jdumpList d xs)
def jdumpObj (d : Nat) : JObj → Str
  | .nil => []
  | .cons k v kvs =>
      ',' :: '\n' :: (jindent d ++ jstrDump k ++ ':' :: ' ' :: (jdump d v ++ jdumpObj d kvs))
end

def json_dumps (v : JVal) : Str := jdump 0 v

/-- the whitespace class of the `json` module scanner. -/
def jwsChar (c : Char) : Bool := c = ' ' || c = '\t' || c = '\n' || c = '\r'

def jskip (s : Str) : Str := s.dropWhile jwsChar

def hexVal (c : Char) : Option Nat :=
  if '0' ≤ c ∧ c ≤ '9' then some (c.toNat - 48)
  else if 'a' ≤ c ∧ c ≤ 'f' then some (c.toNat - 87)
  else if 'A' ≤ c ∧ c ≤ 'F' then some (c.toNat - 55)
  else none

def hex4 : Str → Option (Nat × Str)
  | a :: b :: c :: d :: r =>
    match hexVal a, hexVal b, hexVal c, hexVal d with
    | some x, some y, some z, some w => some (((x * 16 + y) * 16 + z) * 16 + w, r)
    | _, _, _, _ => none
  | _ => none

def consOn (c : Char) : Option (Str × Str) → Option (Str × Str)
  | some (cs, r) => some (c :: cs, r)
  | none => none

/-- decoding of a low-surrogate escape following a high one (pure). -/
def surrogatePair (code : Nat) (rr : Str) : Option (Char × Str) :=
  match rr with
  | b1 :: b2 :: r3 =>
    if b1 = '\\' ∧ b2 = 'u' then
      match hex4 r3 with
      | some (code2, r4) =>
        if 0xdc00 ≤ code2 ∧ code2 ≤ 0xdfff then
          some (Char.ofNat (0x10000 + (code - 0xd800) * 0x400 + (code2 - 0xdc00)), r4)
        else none
      | none => none
    else none
  | _ => none

/-- JSON string contents after the opening quote (strict mode: raw control
characters rejected); surrogate-pair escapes are combined, lone-surrogate
escapes rejected (see the section comment). -/
def parseJStr : Nat → Str → Option (Str × Str)
  | 0, _ => none
  | fuel + 1, s =>
    match s with
    | [] => none
    | c :: r =>
      if c = '"' then some ([], r)
      else if c = '\\' then
        match r with
        | [] => none
        | e :: r2 =>
          if e = '"' then consOn '"' (parseJStr fuel r2)
          else if e = '\\' then consOn '\\' (parseJStr fuel r2)
          else if e = '/' then consOn '/' (parseJStr fuel r2)
          else if e = 'b' then consOn (Char.ofNat 8) (parseJStr fuel r2)
          else if e = 'f' then consOn (Char.ofNat 12) (parseJStr fuel r2)
          else if e = 'n' then consOn '\n' (parseJStr fuel r2)
          else if e = 'r' then consOn '\r' (parseJStr fuel r2)
          else if e = 't' then consOn '\t' (parseJStr fuel r2)
          else if e = 'u' then
            match hex4 r2 with
            | some (code, rr) =>
              if 0xd800 ≤ code ∧ code ≤ 0xdbff then
                match surrogatePair code rr with
                | some (ch, r4) => consOn ch (parseJStr fuel r4)
                | none => none
              else if 0xdc00 ≤ code ∧ code ≤ 0xdfff then none
              else consOn (Char.ofNat code) (parseJStr fuel rr)
            | none => none
          else none
      else if decide (c.toNat < 0x20) then none
      else consOn c (parseJStr fuel r)

/-- integer part of the `NUMBER_RE` of the `json` module
(`-?(0|[1-9]\\d*)`, after the sign): a zero is taken alone; otherwise the
maximal digit run. -/
def numIntPart : Str → Option (Str × Str)
  | '0' :: t => some (['0'], t)
  | c :: t =>
    if c.isDigit then some (c :: t.takeWhile Char.isDigit, t.dropWhile Char.isDigit)
    else none
  | [] => none

/-- optional fraction (`(\\.\\d+)?`). -/
def numFracPart (rest : Str) : Str × Str :=
  match rest with
  | '.' :: u =>
    let fd := u.takeWhile Char.isDigit
    if fd.isEmpty then ([], rest) else ('.' :: fd, u.dropWhile Char.isDigit)
  | _ => ([], rest)

/-- optional exponent (`([eE][-+]?\\d+)?`). -/
def numExpPart (r2 : Str) : Str × Str :=
  match r2 with
  | e :: u =>
    if e = 'e' || e = 'E' then
      match u with
      | sgn :: u2 =>
        if sgn = '+' || sgn = '-' then
          let ed := u2.takeWhile Char.isDigit
          if ed.isEmpty then ([], r2) else (e :: sgn :: ed, u2.dropWhile Char.isDigit)
        else
          let ed := u.takeWhile Char.isDigit
          if ed.isEmpty then ([], r2) else (e :: ed, u.dropWhile Char.isDigit)
      | [] => ([], r2)
    else ([], r2)
  | [] => ([], r2)

/-- the optional leading minus sign. -/
def numSign : Str → Bool × Str
  | '-' :: t => (true, t)
  | s => (false, s)

/-- the `NUMBER_RE` of the `json` module: an integral lexeme yields an
`int`, anything else keeps its lexeme. -/
def parseNum (s : Str) : Option (JVal × Str) :=
  let p := numSign s
  match numIntPart p.2 with
  | none => none
  | some (ip, rest) =>
    let fp := numFracPart rest
    let ep := numExpPart fp.2
    if fp.1.isEmpty && ep.1.isEmpty then
      some (.int (if p.1 then -(digitsToNat ip : Int) else (digitsToNat ip : Int)), rest)
    else
      some (.floatLex ((if p.1 then ['-'] else []) ++ ip ++ fp.1 ++ ep.1), ep.2)

/-- replace-in-place-or-append (`dict` assignment). -/
def jobjUpsert (k : Str) (v : JVal) : JObj → JObj
  | .nil => .cons k v .nil
  | .cons k' v' t => if k' = k then .cons k v t else .cons k' v' (jobjUpsert k v t)

/-- `dict(pairs)`: later duplicates replace the value at the first
occurrence's position. -/
def dictifyGo : JObj → JObj → JObj
  | acc, .nil => acc
  | acc, .cons k v t => dictifyGo (jobjUpsert k v acc) t

mutual
/-- scan one JSON value (leading whitespace allowed). -/
def parseVal : Nat → Str → Option (JVal × Str)
  | 0, _ => none
  | fuel + 1, s0 =>
    let s := jskip s0
    match s with
    | [] => none
    | c :: r =>
      if c = '"' then
        match parseJStr r.length r with
        | some (cs, rest) => some (.str cs, rest)
        | none => none
      else if c = '[' then
        let r1 := jskip r
        match r1 with
        | ']' :: rest => some (.arr .nil, rest)
        | _ =>
          match parseVal fuel r1 with
          | some (v, rest) =>
            match parseItems fuel rest with
            | some (tl, r2) => some (.arr (.cons v tl), r2)
            | none => none
          | none => none
      else if c = lbrace then
        let r1 := jskip r
        match r1 with
        | d :: r2 =>
          if d = rbrace then some (.obj .nil, r2)
          else if d = '"' then
            match parseJStr r2.length r2 with
            | some (k, r3) =>
              match jskip r3 with
              | ':' :: r5 =>
                match parseVal fuel (jskip r5) with
                | some (v, r6) =>
                  match parseMembers fuel r6 with
                  | some (tl, r7) => some (.obj (dictifyGo .nil (.cons k v tl)), r7)
                  | none => none
                | none => none
              | _ => none
            | none => none
          else none
        | [] => none
      else if swith "true".toList s then some (.bool true, s.drop 4)
      else if swith "false".toList s then some (.bool false, s.drop 5)
      else if swith "null".toList s then some (.null, s.drop 4)
      else if swith "NaN".toList s then some (.floatLex "NaN".toList, s.drop 3)
      else if swith "Infinity".toList s then some (.floatLex "Infinity".toList, s.drop 8)
      else if swith "-Infinity".toList s then
        some (.floatLex "-Infinity".toList, s.drop 9)
      else parseNum s
/-- the items after the first inside an array (from right after a value). -/
def parseItems : Nat → Str → Option (JList × Str)
  | 0, _ => none
  | fuel + 1, s =>
    match jskip s with
    | ',' :: r =>
      match parseVal fuel (jskip r) with
      | some (v, rest) =>
        match parseItems fuel rest with
        | some (tl, r2) => some (.cons v tl, r2)
        | none => none
      | none => none
    | ']' :: r => some (.nil, r)
    | _ => none
/-- the members after the first inside an object (from right after a value). -/
def parseMembers : Nat → Str → Option (JObj × Str)
  | 0, _ => none
  | fuel + 1, s =>
    match jskip s with
    | ',' :: r =>
      match jskip r with
      | '"' :: r2 =>
        match parseJStr r2.length r2 with
        | some (k, r3) =>
          match jskip r3 with
          | ':' :: r5 =>
            match parseVal fuel (jskip r5) with
            | some (v, r6) =>
              match parseMembers fuel r6 with
              | some (tl, r7) => some (.cons k v tl, r7)
              | none => none
            | none => none
          | _ => none
        | none => none
      | _ => none
    | c :: r => if c = rbrace then some (.nil, r) else none
    | [] => none

end

/-- `json.loads(s)` (`None` for any `JSONDecodeError`). -/
def json_loads (s : Str) : Option JVal :=
  match parseVal (s.length + 1) s with
  | some (v, rest) => if (jskip rest).isEmpty then some v else none
  | none => none

/-! ### the JSON repair toolkit (`_strip_json_comments` … `_smart_fill_json_like_text`) -/

/-- body of the block-comment sub: slash-star up to the first star-slash is
deleted; an unterminated opener stays. -/
def stripBlockCommentsF : Nat → Str → Str
  | _, [] => []
  | 0, s => s
  | fuel + 1, c :: rest =>
    if swith "/*".toList (c :: rest) then
      match splitAtSubF "*/".toList rest.length (rest.drop 1) with
      | some (_, post) => stripBlockCommentsF fuel post
      | none => c :: stripBlockCommentsF fuel rest
    else c :: stripBlockCommentsF fuel rest

/-- try to match the line-comment pattern at a line-start position
(whitespace — which may cross line breaks — then a double slash, then the
rest of that line): returns the remainder after the match. -/
def dslashTryMatch (s : Str) : Option Str :=
  let w := s.takeWhile pySpace
  let r := s.drop w.length
  if swith "//".toList r then some ((r.drop 2).dropWhile (fun c => c ≠ '\n'))
  else none

def stripLineCommentsF : Nat → Bool → Str → Str
  | _, _, [] => []
  | 0, _, s => s
  | fuel + 1, atStart, c :: rest =>
    if atStart then
      match dslashTryMatch (c :: rest) with
      | some rem => stripLineCommentsF fuel false rem
      | none => c :: stripLineCommentsF fuel (c = '\n') rest
    else c :: stripLineCommentsF fuel (c = '\n') rest

/-- `_strip_json_comments(text)`. -/
def strip_json_comments (text : Str) : Str :=
  let s := stripBlockCommentsF text.length text
  stripLineCommentsF s.length true s

def identStartChar (c : Char) : Bool := c.isAlpha || c = '_'

def identTailChar (c : Char) : Bool :=
  c.isAlpha || c.isDigit || c = '_' || c = '.' || c = '-'

/-- the part after the opener of the unquoted-key patterns: whitespace,
identifier, whitespace, colon; returns the pieces and the rest after the
colon. -/
def qkTryAfter (s : Str) : Option (Str × Str × Str × Str) :=
  let w1 := s.takeWhile pySpace
  let r1 := s.drop w1.length
  match r1 with
  | c :: t =>
    if identStartChar c then
      let run := t.takeWhile identTailChar
      let r2 := t.drop run.length
      let w2 := r2.takeWhile pySpace
      let r3 := r2.drop w2.length
      match r3 with
      | ':' :: r4 => some (w1, c :: run, w2, r4)
      | _ => none
    else none
  | [] => none

/-- first sub of `_quote_unquoted_json_keys` (after an opening brace,
bracket or comma). -/
def qkeys1F : Nat → Str → Str
  | _, [] => []
  | 0, s => s
  | fuel + 1, c :: rest =>
    if c = lbrace || c = '[' || c = ',' then
      match qkTryAfter rest with
      | some (w1, ident, w2, r4) =>
        c :: (w1 ++ '"' :: (ident ++ '"' :: (w2 ++ ':' :: qkeys1F fuel r4)))
      | none => c :: qkeys1F fuel rest
    else c :: qkeys1F fuel rest

/-- second sub of `_quote_unquoted_json_keys` (multiline, line-start
anchored; the whitespace group may cross line breaks). -/
def qkeys2F : Nat → Bool → Str → Str
  | _, _, [] => []
  | 0, _, s => s
  | fuel + 1, atStart, c :: rest =>
    if atStart then
      match qkTryAfter (c :: rest) with
      | some (w1, ident, w2, r4) =>
        w1 ++ '"' :: (ident ++ '"' :: (w2 ++ ':' :: qkeys2F fuel false r4))
      | none => c :: qkeys2F fuel (c = '\n') rest
    else c :: qkeys2F fuel (c = '\n') rest

/-- `_quote_unquoted_json_keys(text)`. -/
def quote_unquoted_json_keys (text : Str) : Str :=
  let s := qkeys1F text.length text
  qkeys2F s.length true s

def apos : Char := Char.ofNat 39

/-- body of a single-quoted string (after the opening quote): plain chunk,
then either the closing quote or a backslash escape (whose dot does not
match a newline); returns the raw group and the rest after the closing
quote. -/
def sqBody : Nat → Str → Option (Str × Str)
  | 0, _ => none
  | fuel + 1, s =>
    let chunk := s.takeWhile (fun c => c ≠ apos && c ≠ '\\')
    match s.drop chunk.length with
    | c :: t =>
      if c = apos then some (chunk, t)
      else
        match t with
        | d :: t2 =>
          if d = '\n' then none
          else
            match sqBody fuel t2 with
            | some (more, rem) => some (chunk ++ c :: d :: more, rem)
            | none => none
        | [] => none
    | [] => none

def sqEscapeQuote (g : Str) : Str :=
  g.flatMap (fun c => if c = '"' then ['\\', '"'] else [c])

/-- `_replace_single_quoted_strings(text)`. -/
def replaceSingleQuotedF : Nat → Str → Str
  | _, [] => []
  | 0, s => s
  | fuel + 1, c :: rest =>
    if c = apos then
      match sqBody rest.length rest with
      | some (g, rem) => '"' :: (sqEscapeQuote g ++ '"' :: replaceSingleQuotedF fuel rem)
      | none => c :: replaceSingleQuotedF fuel rest
    else c :: replaceSingleQuotedF fuel rest

def replace_single_quoted_strings (text : Str) : Str :=
  replaceSingleQuotedF text.length text

def isWordChar (c : Char) : Bool := c.isAlpha || c.isDigit || c = '_'

/-- body of a double-quoted literal (after the opening quote); returns the
rest after the closing quote (the escape dot does not match a newline). -/
def dqBody : Nat → Str → Option Str
  | 0, _ => none
  | fuel + 1, s =>
    let chunk := s.takeWhile (fun c => c ≠ '"' && c ≠ '\\')
    match s.drop chunk.length with
    | c :: t =>
      if c = '"' then some t
      else
        match t with
        | d :: t2 => if d = '\n' then none else dqBody fuel t2
        | [] => none
    | [] => none

/-- the number alternative of the missing-comma pattern
(`-?\d+(\.\d+)?([eE][+-]?\d+)?`, leading zeros allowed). -/
def numLitAt (s : Str) : Option (Str × Str) :=
  let p : Str × Str := match s with
    | '-' :: t => (['-'], t)
    | _ => ([], s)
  let ds := p.2.takeWhile Char.isDigit
  if ds.isEmpty then none
  else
    let r1 := p.2.drop ds.length
    let fp : Str × Str := match r1 with
      | '.' :: u =>
        let fd := u.takeWhile Char.isDigit
        if fd.isEmpty then ([], r1) else ('.' :: fd, u.drop fd.length)
      | _ => ([], r1)
    let r2 := fp.2
    let ep : Str × Str := match r2 with
      | e :: u =>
        if e = 'e' || e = 'E' then
          match u with
          | sgn :: u2 =>
            if sgn = '+' || sgn = '-' then
              let ed := u2.takeWhile Char.isDigit
              if ed.isEmpty then ([], r2) else (e :: sgn :: ed, u2.drop ed.length)
            else
              let ed := u.takeWhile Char.isDigit
              if ed.isEmpty then ([], r2) else (e :: ed, u.drop ed.length)
          | [] => ([], r2)
        else ([], r2)
      | [] => ([], r2)
    some (p.1 ++ ds ++ fp.1 ++ ep.1, ep.2)

/-- the lookahead of the missing-comma pattern: a full string literal,
whitespace, then a colon. -/
def cmLookahead (s : Str) : Bool :=
  match s with
  | '"' :: t =>
    match dqBody t.length t with
    | some rem =>
      match rem.dropWhile pySpace with
      | ':' :: _ => true
      | _ => false
    | none => false
  | _ => false

/-- one attempt of the missing-comma pattern: group 1 (a string, number,
bare constant with word boundaries, or closing bracket), consumed
whitespace, and the resume point (the lookahead is not consumed). -/
def cmTryMatch (prevWord : Bool) (s : Str) : Option (Str × Str × Str) :=
  let g1 : Option (Str × Str) :=
    match s with
    | '"' :: t =>
      match dqBody t.length t with
      | some rem => some (s.take (s.length - rem.length), rem)
      | none => none
    | _ =>
      match numLitAt s with
      | some (lex, rem) => some (lex, rem)
      | none =>
        if !prevWord && swith "true".toList s
            && !(((s.drop 4).headD ' ').isAlpha || ((s.drop 4).headD ' ').isDigit
                  || (s.drop 4).headD ' ' = '_') then
          some ("true".toList, s.drop 4)
        else if !prevWord && swith "false".toList s
            && !(((s.drop 5).headD ' ').isAlpha || ((s.drop 5).headD ' ').isDigit
                  || (s.drop 5).headD ' ' = '_') then
          some ("false".toList, s.drop 5)
        else if !prevWord && swith "null".toList s
            && !(((s.drop 4).headD ' ').isAlpha || ((s.drop 4).headD ' ').isDigit
                  || (s.drop 4).headD ' ' = '_') then
          some ("null".toList, s.drop 4)
        else
          match s with
          | c :: t => if c = rbrace || c = ']' then some ([c], t) else none
          | [] => none
  match g1 with
  | some (lex, rem) =>
    let w := rem.takeWhile pySpace
    let r2 := rem.drop w.length
    if cmLookahead r2 then some (lex, w, r2) else none
  | none => none

/-- first sub of `_insert_missing_json_commas`. -/
def insertCommasF : Nat → Bool → Str → Str
  | _, _, [] => []
  | 0, _, s => s
  | fuel + 1, prevWord, c :: rest =>
    match cmTryMatch prevWord (c :: rest) with
    | some (lex, w, r2) =>
      let lastc := if w.isEmpty then lex.getLastD ' ' else w.getLastD ' '
      lex ++ ',' :: ' ' :: insertCommasF fuel (isWordChar lastc) r2
    | none => c :: insertCommasF fuel (isWordChar c) rest

/-- the bracket-pair subs of `_insert_missing_json_commas` (a closer,
whitespace, an opener of the same kind get a comma and newline between). -/
def bracketCommaF (close open_ : Char) : Nat → Str → Str
  | _, [] => []
  | 0, s => s
  | fuel + 1, c :: rest =>
    if c = close then
      let w := rest.takeWhile pySpace
      match rest.drop w.length with
      | d :: t =>
        if d = open_ then close :: ',' :: '\n' :: open_ :: bracketCommaF close open_ fuel t
        else c :: bracketCommaF close open_ fuel rest
      | [] => c :: bracketCommaF close open_ fuel rest
    else c :: bracketCommaF close open_ fuel rest

/-- `_insert_missing_json_commas(text)`. -/
def insert_missing_json_commas (text : Str) : Str :=
  let s := insertCommasF text.length false text
  let s := bracketCommaF rbrace lbrace s.length s
  bracketCommaF ']' '[' s.length s

structure BJB where
  result : Str
  stack : List Char
  inString : Bool
  escaped : Bool
  changed : Bool

/-- one character of `_balance_json_brackets` (the stack top is the list
head). -/
def bjbStep (st : BJB) (c : Char) : BJB :=
  if st.inString then
    { st with
      result := st.result ++ [c],
      escaped := if st.escaped then false else c = '\\',
      inString := if st.escaped then true else if c = '\\' then true else !(c = '"') }
  else if c = '"' then
    { st with result := st.result ++ [c], inString := true }
  else if c = lbrace || c = '[' then
    { st with result := st.result ++ [c], stack := c :: st.stack }
  else if c = rbrace || c = ']' then
    let opener := if c = rbrace then lbrace else '['
    match st.stack with
    | t :: ts =>
      if t = opener then { st with result := st.result ++ [c], stack := ts }
      else { st with changed := true }
    | [] => { st with changed := true }
  else { st with result := st.result ++ [c] }

/-- `_balance_json_brackets(text)`. -/
def balance_json_brackets (text : Str) : Str × Bool :=
  let st := text.foldl bjbStep ⟨[], [], false, false, false⟩
  let res := if st.inString then st.result ++ ['"'] else st.result
  (res ++ st.stack.map (fun o => if o = lbrace then rbrace else ']'),
   st.changed || st.inString || !st.stack.isEmpty)

def rstripChars (p : Char → Bool) (s : Str) : Str := (s.reverse.dropWhile p).reverse

def stripCharEnds (p : Char → Bool) (s : Str) : Str :=
  rstripChars p (s.dropWhile p)

/-- case-insensitive prefix test (the pattern is given lower-case). -/
def swithCI : Str → Str → Bool
  | [], _ => true
  | _ :: _, [] => false
  | p :: ps, c :: cs => p = c.toLower && swithCI ps cs

/-- match of the mailto-artifact pattern after an opening bracket; the lazy
group is the bracket contents minus the minimal trailing
whitespace/comma/whitespace suffix (but never empty).  Returns the group
and the rest after the closing parenthesis. -/
def mailtoTry (rest : Str) : Option (Str × Str) :=
  let inner := rest.takeWhile (fun c => c ≠ ']')
  if inner.isEmpty then none
  else
    match rest.drop inner.length with
    | ']' :: a2 =>
      match a2 with
      | '(' :: a3 =>
        let a4 := a3.dropWhile pySpace
        if swithCI "mailto:".toList a4 then
          let a5 := a4.drop 7
          let body := a5.takeWhile (fun c => c ≠ ')')
          if body.isEmpty then none
          else
            match a5.drop body.length with
            | ')' :: a6 =>
              let g0 := rstripChars pySpace inner
              let g1 :=
                if g0.getLastD ' ' = ',' || g0.getLastD ' ' = '，' then g0.dropLast
                else g0
              let g2 := rstripChars pySpace g1
              some (if g2.isEmpty then [inner.headD ' '] else g2, a6)
            | _ => none
        else none
      | _ => none
    | _ => none

/-- `_strip_mailto_artifacts_in_json(text)`'s sub walk; each match is
replaced by the double-quoted cleaned value. -/
def stripMailtoF : Nat → Str → Str
  | _, [] => []
  | 0, s => s
  | fuel + 1, c :: rest =>
    if c = '[' then
      match mailtoTry rest with
      | some (g, a6) =>
        let v := rstripChars (fun d => d = '，' || d = ',')
          (stripCharEnds (fun d => d = apos) (stripCharEnds (fun d => d = '"') (pyStrip g)))
        '"' :: (v ++ '"' :: stripMailtoF fuel a6)
      | none => c :: stripMailtoF fuel rest
    else c :: stripMailtoF fuel rest

def strip_mailto_artifacts_in_json (text : Str) : Str := stripMailtoF text.length text

def escAllowed (c : Char) : Bool :=
  c = '"' || c = '\\' || c = '/' || c = 'b' || c = 'f' || c = 'n' || c = 'r' ||
    c = 't' || c = 'u'

/-- `_remove_invalid_json_escapes(text)`: a backslash before a character
outside the legal escape set is dropped. -/
def removeInvalidEscapesF : Nat → Str → Str
  | _, [] => []
  | 0, s => s
  | fuel + 1, c :: rest =>
    if c = '\\' then
      match rest with
      | d :: t =>
        if escAllowed d then c :: removeInvalidEscapesF fuel rest
        else d :: removeInvalidEscapesF fuel t
      | [] => [c]
    else c :: removeInvalidEscapesF fuel rest

def remove_invalid_json_escapes (text : Str) : Str := removeInvalidEscapesF text.length text

/-- `_collapse_double_escaped_quotes_in_strings(text)`: inside a JSON
string, a backslash-backslash-quote triple becomes backslash-quote. -/
def cdqF : Nat → Bool → Bool → Str → Str
  | _, _, _, [] => []
  | 0, _, _, s => s
  | fuel + 1, false, _, c :: rest => c :: cdqF fuel (c = '"') false rest
  | fuel + 1, true, _, '\\' :: '\\' :: '"' :: t => '\\' :: '"' :: cdqF fuel true false t
  | fuel + 1, true, esc, c :: rest =>
    c :: cdqF fuel (if esc then true else if c = '\\' then true else !(c = '"'))
      (if esc then false else c = '\\') rest

def collapse_double_escaped_quotes_in_strings (text : Str) : Str :=
  cdqF text.length false false text

/-- the trailing-comma sub (comma, whitespace, then a closer keeps only the
closer). -/
def dropTrailingCommasF : Nat → Str → Str
  | _, [] => []
  | 0, s => s
  | fuel + 1, c :: rest =>
    if c = ',' then
      let w := rest.takeWhile pySpace
      match rest.drop w.length with
      | d :: t =>
        if d = rbrace || d = ']' then d :: dropTrailingCommasF fuel t
        else c :: dropTrailingCommasF fuel rest
      | [] => c :: dropTrailingCommasF fuel rest
    else c :: dropTrailingCommasF fuel rest

def qmlChar (c : Char) : Bool :=
  c.isAlpha || c.isDigit || c = '_' || c = '.' || c = '/' || c = ':' ||
    c = '+' || c = '-'

/-- `re.fullmatch(r'-?\d+(?:\.\d+)?', value)`. -/
def isPlainNumber (v : Str) : Bool :=
  let r := match v with
    | '-' :: t => t
    | _ => v
  let ds := r.takeWhile Char.isDigit
  if ds.isEmpty then false
  else
    match r.drop ds.length with
    | [] => true
    | '.' :: u => !(u.takeWhile Char.isDigit).isEmpty && (u.dropWhile Char.isDigit).isEmpty
    | _ => false

/-- the repl of `quote_masked_literals`: constants and plain numbers stay,
anything else is double-quoted. -/
def qmlRender (value : Str) : Str :=
  let lower := value.map Char.toLower
  if lower = "true".toList || lower = "false".toList || lower = "null".toList then value
  else if isPlainNumber value then value
  else '"' :: (value ++ ['"'])

/-- first masked-literal sub of `_sanitize_json_like_text` (colon,
whitespace, a token containing a letter, whitespace, then a comma or
closer). -/
def qmlAF : Nat → Str → Str
  | _, [] => []
  | 0, s => s
  | fuel + 1, c :: rest =>
    if c = ':' then
      let w1 := rest.takeWhile pySpace
      let r1 := rest.drop w1.length
      let run := r1.takeWhile qmlChar
      if run.isEmpty || !(run.any Char.isAlpha) then c :: qmlAF fuel rest
      else
        let r2 := r1.drop run.length
        let w2 := r2.takeWhile pySpace
        match r2.drop w2.length with
        | d :: t =>
          if d = ',' || d = rbrace || d = ']' then
            c :: (w1 ++ qmlRender run ++ w2 ++ d :: qmlAF fuel t)
          else c :: qmlAF fuel rest
        | [] => c :: qmlAF fuel rest
    else c :: qmlAF fuel rest

/-- the lookahead of the second masked-literal sub: after a newline —
whitespace, an optionally quoted identifier, whitespace, a colon. -/
def qmlBLookahead (s : Str) : Bool :=
  let r1 := s.dropWhile pySpace
  let r2 := match r1 with
    | c :: t => if c = '"' || c = apos then t else r1
    | [] => r1
  match r2 with
  | c :: t =>
    if identStartChar c then
      let r3 := t.dropWhile identTailChar
      let r4 := match r3 with
        | d :: u => if d = '"' || d = apos then u else r3
        | [] => r3
      match r4.dropWhile pySpace with
      | ':' :: _ => true
      | _ => false
    else false
  | [] => false

/-- second masked-literal sub of `_sanitize_json_like_text` (the value is
followed by a line break and a further key; the whitespace group ends just
before the last newline of the run). -/
def qmlBF : Nat → Str → Str
  | _, [] => []
  | 0, s => s
  | fuel + 1, c :: rest =>
    if c = ':' then
      let w1 := rest.takeWhile pySpace
      let r1 := rest.drop w1.length
      let run := r1.takeWhile qmlChar
      if run.isEmpty || !(run.any Char.isAlpha) then c :: qmlBF fuel rest
      else
        let r2 := r1.drop run.length
        let wAll := r2.takeWhile pySpace
        let r3 := r2.drop wAll.length
        if (wAll.filter (fun d => d = '\n')).isEmpty then c :: qmlBF fuel rest
        else
          let afterRev := wAll.reverse.takeWhile (fun d => d ≠ '\n')
          let afterNl := afterRev.reverse
          let g3 := wAll.take (wAll.length - afterNl.length - 1)
          if qmlBLookahead (afterNl ++ r3) then
            c :: (w1 ++ qmlRender run ++ g3 ++ '\n' :: qmlBF fuel (afterNl ++ r3))
          else c :: qmlBF fuel rest
    else c :: qmlBF fuel rest

/-- `_sanitize_json_like_text(text)`. -/
def sanitize_json_like_text (text : Str) : Str :=
  let s := pyStrip ((text.map (fun c => if c = Char.ofNat 0xa0 then ' ' else c)).filter
    (fun c => c ≠ Char.ofNat 0xfeff))
  let s := s.map (fun c =>
    if c = Char.ofNat 0x201c || c = Char.ofNat 0x201d then '"'
    else if c = Char.ofNat 0x2018 || c = Char.ofNat 0x2019 then apos
    else if c = '：' then ':'
    else if c = '，' then ',' else c)
  let s := strip_mailto_artifacts_in_json s
  let s := replaceAllF ['\\', '['] ['['] s.length s
  let s := replaceAllF ['\\', ']'] [']'] s.length s
  let s := collapse_double_escaped_quotes_in_strings s
  let s := remove_invalid_json_escapes s
  let s := dropTrailingCommasF s.length s
  let s := qmlAF s.length s
  qmlBF s.length s

/-- `_smart_fill_json_like_text(text)`. -/
def smart_fill_json_like_text (text : Str) : Str × List Str :=
  let s0 := text
  let noComments := strip_json_comments s0
  let p1 : Str × List Str :=
    if noComments ≠ s0 then (noComments, ["移除注释".toList]) else (s0, [])
  let quotedKeys := quote_unquoted_json_keys p1.1
  let p2 : Str × List Str :=
    if quotedKeys ≠ p1.1 then (quotedKeys, p1.2 ++ ["补全未加引号的 key".toList])
    else (p1.1, p1.2)
  let singleQuoted := replace_single_quoted_strings p2.1
  let p3 : Str × List Str :=
    if singleQuoted ≠ p2.1 then (singleQuoted, p2.2 ++ ["将单引号字符串改为双引号".toList])
    else (p2.1, p2.2)
  let withCommas := insert_missing_json_commas p3.1
  let p4 : Str × List Str :=
    if withCommas ≠ p3.1 then (withCommas, p3.2 ++ ["补全疑似缺失的逗号".toList])
    else (p3.1, p3.2)
  let s4 := dropTrailingCommasF p4.1.length p4.1
  let bal := balance_json_brackets s4
  let p5 : Str × List Str :=
    if bal.2 then (bal.1, p4.2 ++ ["补全括号/方括号".toList]) else (s4, p4.2)
  (pyStrip p5.1, p5.2)

/-! ### `_normalize_json_block_with_diagnostics` -/

structure JsonDiag where
  ok : Bool
  normalized : Str
  strategy : Str
  actions : List Str
  is_repaired : Bool
  error : Str
deriving Repr, DecidableEq

/-- placeholder for the Python `JSONDecodeError` message text, which is not
modelled (it never influences control flow, only logging and the
annotation text of downgraded blocks). -/
def jsonErrorUnmodelled : Str := "JSONDecodeError".toList

/-- `_normalize_json_block_with_diagnostics(block_text)`.  The three
candidate stages are pairwise distinct, so the seen-set dedup never drops
one; the first stage whose candidate parses wins. -/
def normalize_json_block_with_diagnostics (block_text : Str) : JsonDiag :=
  let raw := pyStrip block_text
  let sanitized := sanitize_json_like_text raw
  let sf := smart_fill_json_like_text sanitized
  match json_loads raw with
  | some v => ⟨true, json_dumps v, "raw".toList, [], false, []⟩
  | none =>
    match json_loads (pyStrip sanitized) with
    | some v => ⟨true, json_dumps v, "sanitize".toList, ["基础清洗".toList], true, []⟩
    | none =>
      match json_loads (pyStrip sf.1) with
      | some v => ⟨true, json_dumps v, "smart_fill".toList, sf.2, true, []⟩
      | none => ⟨false, raw, "fallback".toList, sf.2, false, jsonErrorUnmodelled⟩

/-- `_normalize_json_block(block_text)`. -/
def normalize_json_block (block_text : Str) : Str × Bool :=
  let d := normalize_json_block_with_diagnostics block_text
  (d.normalized, d.ok)

/-! ### round-trip of `json_loads` after `json_dumps` -/

/-- a continuation after a dumped number must not extend its lexeme. -/
def numSafe (s : Str) : Bool :=
  match s with
  | [] => true
  | c :: _ => !(c.isDigit || c = '.' || c = 'e' || c = 'E')

def jobjKeys : JObj → List Str
  | .nil => []
  | .cons k _ t => k :: jobjKeys t

mutual
/-- well-formed values for the round-trip statement: no float lexemes (the
Python float `repr` is not modelled) and object keys pairwise distinct. -/
def wfV : JVal → Bool
  | .null => true
  | .bool _ => true
  | .int _ => true
  | .floatLex _ => false
  | .str _ => true
  | .arr xs => wfL xs
  | .obj kvs => wfO kvs
def wfL : JList → Bool
  | .nil => true
  | .cons x xs => wfV x && wfL xs
def wfO : JObj → Bool
  | .nil => true
  | .cons k v t => wfV v && !(jobjKeys t).contains k && wfO t
end

def jappend : JObj → JObj → JObj
  | .nil, b => b
  | .cons k v t, b => .cons k v (jappend t b)

theorem jappend_nil : ∀ (a : JObj), jappend a JObj.nil = a
  | .nil => rfl
  | .cons k v t => by rw [jappend, jappend_nil t]

theorem jobjUpsert_fresh (k : Str) (v : JVal) :
    ∀ (acc : JObj), (jobjKeys acc).contains k = false →
      jobjUpsert k v acc = jappend acc (.cons k v .nil)
  | .nil, _ => rfl
  | .cons k' v' t, h => by
    rw [jobjKeys] at h
    simp only [List.contains_cons, Bool.or_eq_false_iff] at h
    rw [jobjUpsert, jappend, if_neg ?_, jobjUpsert_fresh k v t h.2]
    intro he
    rw [he] at h
    simp at h

theorem jobjKeys_jappend : ∀ (a : JObj) (b : JObj),
    jobjKeys (jappend a b) = jobjKeys a ++ jobjKeys b
  | .nil, b => rfl
  | .cons k v t, b => by
    rw [jappend, jobjKeys, jobjKeys, jobjKeys_jappend t b, List.cons_append]

theorem jappend_assoc_single : ∀ (a : JObj) (k : Str) (v : JVal) (b : JObj),
    jappend (jappend a (.cons k v .nil)) b = jappend a (.cons k v b)
  | .nil, _, _, _ => rfl
  | .cons k' v' t, k, v, b => by
    rw [jappend, jappend, jappend, jappend_assoc_single t k v b]

theorem dictifyGo_fresh : ∀ (kvs : JObj) (acc : JObj),
    wfO kvs = true →
    (∀ k, (jobjKeys kvs).contains k = true → (jobjKeys acc).contains k = false) →
    dictifyGo acc kvs = jappend acc kvs
  | .nil, acc, _, _ => by rw [dictifyGo, jappend_nil]
  | .cons k v t, acc, hwf, hf => by
    rw [wfO] at hwf
    simp only [Bool.and_eq_true, Bool.not_eq_true'] at hwf
    rw [dictifyGo, jobjUpsert_fresh k v acc (hf k ?_), dictifyGo_fresh t _ hwf.2 ?_]
    · rw [jappend_assoc_single]
    · intro k2 hk2
      rw [jobjKeys_jappend]
      have h1 : (jobjKeys acc).contains k2 = false := by
        refine hf k2 ?_
        simp only [jobjKeys, List.contains_cons, Bool.or_eq_true]
        right; exact hk2
      have h2 : k2 ≠ k := by
        intro he
        have hk : (jobjKeys t).contains k = false := hwf.1.2
        rw [he] at hk2
        rw [hk2] at hk
        cases hk
      have h3 : k2 ∉ jobjKeys acc := by simpa using h1
      simp [jobjKeys, List.mem_append, h3, h2]
    · simp [jobjKeys, List.contains_cons]

theorem digitChar_isDigit (m : Nat) (h : m < 10) : (digitChar m).isDigit = true := by
  interval_cases m <;> decide

theorem digitChar_ne_zero (m : Nat) (h1 : 1 ≤ m) (h : m < 10) : digitChar m ≠ '0' := by
  interval_cases m <;> decide

theorem digitChar_val (m : Nat) (h : m < 10) : (digitChar m).toNat - 48 = m := by
  interval_cases m <;> decide

theorem digitsToNat_append_single (a : Str) (d : Char) :
    digitsToNat (a ++ [d]) = 10 * digitsToNat a + (d.toNat - 48) := by
  rw [digitsToNat, digitsToNat, List.foldl_append]
  simp [Nat.mul_comm]

theorem headD_append_of_ne_nil {α : Type} (a b : List α) (x : α) (h : a ≠ []) :
    (a ++ b).headD x = a.headD x := by
  cases a with
  | nil => exact absurd rfl h
  | cons c t => rfl

theorem natDigitsF_spec : ∀ (f n : Nat), n < f →
    natDigitsF f n ≠ [] ∧
    (∀ c ∈ natDigitsF f n, c.isDigit = true) ∧
    digitsToNat (natDigitsF f n) = n ∧
    (1 ≤ n → (natDigitsF f n).headD ' ' ≠ '0') := by
  intro f
  induction f with
  | zero => intro n h; omega
  | succ f ih =>
    intro n h
    by_cases h10 : n < 10
    · rw [natDigitsF, if_pos h10]
      refine ⟨by simp, ?_, ?_, ?_⟩
      · intro c hc
        simp only [List.mem_singleton] at hc
        rw [hc]; exact digitChar_isDigit n h10
      · rw [digitsToNat]
        simp [digitChar_val n h10]
      · intro h1
        simpa using digitChar_ne_zero n h1 h10
    · rw [natDigitsF, if_neg h10]
      have hdiv : n / 10 < f := by omega
      obtain ⟨hne, hdig, hval, hhead⟩ := ih (n / 10) hdiv
      refine ⟨by simp, ?_, ?_, ?_⟩
      · intro c hc
        rw [List.mem_append] at hc
        rcases hc with hc | hc
        · exact hdig c hc
        · simp only [List.mem_singleton] at hc
          rw [hc]; exact digitChar_isDigit (n % 10) (Nat.mod_lt _ (by omega))
      · rw [digitsToNat_append_single, hval, digitChar_val (n % 10) (Nat.mod_lt _ (by omega))]
        omega
      · intro _
        rw [headD_append_of_ne_nil _ _ _ hne]
        exact hhead (by omega)

theorem natStr2_spec (n : Nat) :
    natStr2 n ≠ [] ∧
    (∀ c ∈ natStr2 n, c.isDigit = true) ∧
    digitsToNat (natStr2 n) = n ∧
    (1 ≤ n → (natStr2 n).headD ' ' ≠ '0') :=
  natDigitsF_spec (n + 1) n (Nat.lt_succ_self n)

theorem takeWhile_digit_split (ds rest : Str) (hds : ∀ c ∈ ds, c.isDigit = true)
    (hr : numSafe rest = true) :
    (ds ++ rest).takeWhile Char.isDigit = ds ∧
    (ds ++ rest).dropWhile Char.isDigit = rest := by
  have hhead : ∀ (c : Char) (t : Str), rest = c :: t → c.isDigit = false := by
    intro c t he
    rw [he, numSafe] at hr
    simp only [Bool.not_eq_true', Bool.or_eq_false_iff] at hr
    exact hr.1.1.1
  constructor
  · rw [takeWhile_append_of_all _ _ _ hds]
    cases h : rest with
    | nil => simp
    | cons c t =>
      rw [List.takeWhile_cons, hhead c t h]
      simp
  · rw [dropWhile_append_of_all _ _ _ hds]
    cases h : rest with
    | nil => simp
    | cons c t => exact dropWhile_cons_false _ c t (hhead c t h)

theorem numSafe_head_false (rest : Str) (hr : numSafe rest = true) (c : Char) (t : Str)
    (he : rest = c :: t) :
    c.isDigit = false ∧ c ≠ '.' ∧ c ≠ 'e' ∧ c ≠ 'E' := by
  rw [he, numSafe] at hr
  simp only [Bool.not_eq_true', Bool.or_eq_false_iff, decide_eq_false_iff_not] at hr
  exact ⟨hr.1.1.1, hr.1.1.2, hr.1.2, hr.2⟩

theorem numFracPart_safe (rest : Str) (hr : numSafe rest = true) :
    numFracPart rest = ([], rest) := by
  cases h : rest with
  | nil => rfl
  | cons c t =>
    have hc := numSafe_head_false rest hr c t h
    subst h
    rw [numFracPart.eq_def]
    split
    · rename_i u heq
      rw [List.cons.injEq] at heq
      exact absurd heq.1 hc.2.1
    · rfl

theorem numExpPart_safe (r2 : Str) (hr : numSafe r2 = true) :
    numExpPart r2 = ([], r2) := by
  cases h : r2 with
  | nil => rfl
  | cons c t =>
    have hc := numSafe_head_false r2 hr c t h
    subst h
    rw [numExpPart.eq_def]
    try simp only []
    rw [if_neg ?_]
    simp only [Bool.or_eq_true, decide_eq_true_eq]
    rintro (h1 | h1)
    · exact hc.2.2.1 h1
    · exact hc.2.2.2 h1

theorem numSign_not_dash (c : Char) (t : Str) (hc : c ≠ '-') :
    numSign (c :: t) = (false, c :: t) := by
  rw [numSign.eq_def]
  split
  · rename_i t' heq
    rw [List.cons.injEq] at heq
    exact absurd heq.1 hc
  · rfl

theorem numIntPart_digits (ds rest : Str) (hne : ds ≠ [])
    (hds : ∀ c ∈ ds, c.isDigit = true)
    (hhd : ds.headD ' ' ≠ '0' ∨ ds = ['0'])
    (hr : numSafe rest = true) :
    numIntPart (ds ++ rest) = some (ds, rest) := by
  obtain ⟨c, t, hct⟩ := List.exists_cons_of_ne_nil hne
  subst hct
  rcases hhd with hhd | hhd
  · have hc : c.isDigit = true := hds c (by simp)
    have hcz : c ≠ '0' := by simpa using hhd
    have hsplit := takeWhile_digit_split t rest (fun d hd => hds d (by simp [hd])) hr
    rw [List.cons_append, numIntPart.eq_def]
    split
    · rename_i t' heq
      rw [List.cons.injEq] at heq
      exact absurd heq.1 hcz
    · rename_i c' t' heq
      rw [List.cons.injEq] at heq
      rw [← heq.1, ← heq.2, if_pos hc, hsplit.1, hsplit.2]
    · rename_i heq
      cases heq
  · rw [List.cons.injEq] at hhd
    obtain ⟨hc0, ht⟩ := hhd
    subst hc0; subst ht
    rfl

theorem parseNum_digits_pos (ds rest : Str) (hne : ds ≠ [])
    (hds : ∀ c ∈ ds, c.isDigit = true)
    (hhd : ds.headD ' ' ≠ '0' ∨ ds = ['0'])
    (hr : numSafe rest = true) :
    parseNum (ds ++ rest) = some (.int (digitsToNat ds), rest) := by
  obtain ⟨c, t, hct⟩ := List.exists_cons_of_ne_nil hne
  have hc : c.isDigit = true := hds c (by rw [hct]; simp)
  have hcm : c ≠ '-' := by
    intro he; rw [he] at hc; cases hc
  rw [parseNum]
  simp only []
  rw [hct, List.cons_append, numSign_not_dash c (t ++ rest) hcm, ← List.cons_append, ← hct]
  simp only []
  rw [numIntPart_digits ds rest hne hds hhd hr]
  simp only []
  rw [numFracPart_safe rest hr]
  simp only []
  rw [numExpPart_safe rest hr]
  simp only [List.isEmpty_nil, Bool.and_self, if_true, if_pos]
  rfl

theorem parseNum_intStr (n : Int) (rest : Str) (hr : numSafe rest = true) :
    parseNum (intStr n ++ rest) = some (.int n, rest) := by
  obtain ⟨hne, hdig, hval, hhd⟩ := natStr2_spec n.natAbs
  by_cases hn : n < 0
  · have h1 : 1 ≤ n.natAbs := by omega
    rw [intStr, if_pos hn, List.cons_append, parseNum]
    try simp only []
    rw [show numSign ('-' :: (natStr2 n.natAbs ++ rest)) = (true, natStr2 n.natAbs ++ rest)
      from rfl]
    try simp only []
    rw [numIntPart_digits _ _ hne hdig (Or.inl (hhd h1)) hr]
    try simp only []
    rw [numFracPart_safe rest hr]
    try simp only []
    rw [numExpPart_safe rest hr]
    simp only [List.isEmpty_nil, Bool.and_self, if_true, if_pos]
    rw [hval]
    rw [show ((n.natAbs : Nat) : Int) = -n from by omega, neg_neg]
  · by_cases h0 : n.natAbs = 0
    · have hn0 : n = 0 := by omega
      subst hn0
      rw [intStr, if_neg hn]
      simp only [Int.natAbs_zero]
      rw [show natStr2 0 = ['0'] from rfl]
      rw [show (['0'] : Str) ++ rest = [] ++ (['0'] ++ rest) from by simp]
      rw [show ([] : Str) ++ (['0'] ++ rest) = ['0'] ++ rest from by simp]
      rw [parseNum_digits_pos ['0'] rest (by simp) (by intro c hc; simp at hc; rw [hc]; decide)
        (Or.inr rfl) hr]
      rfl
    · rw [intStr, if_neg hn]
      rw [parseNum_digits_pos _ rest hne hdig (Or.inl (hhd (by omega))) hr, hval]
      have h2 : ((n.natAbs : Nat) : Int) = n := by omega
      rw [h2]

theorem hexVal_hexDigitChar (x : Nat) (h : x < 16) : hexVal (hexDigitChar x) = some x := by
  interval_cases x <;> decide

/-- a plain (unescaped) character steps the string parser by one. -/
theorem parseJStr_plain (f : Nat) (c : Char) (X : Str) (h1 : c ≠ '"') (h2 : c ≠ '\\')
    (h3 : ¬c.toNat < 0x20) :
    parseJStr (f + 1) (c :: X) = consOn c (parseJStr f X) := by
  show (if c = '"' then some ([], X)
    else if c = '\\' then
      match X with
      | [] => none
      | e :: r2 =>
        if e = '"' then consOn '"' (parseJStr f r2)
        else if e = '\\' then consOn '\\' (parseJStr f r2)
        else if e = '/' then consOn '/' (parseJStr f r2)
        else if e = 'b' then consOn (Char.ofNat 8) (parseJStr f r2)
        else if e = 'f' then consOn (Char.ofNat 12) (parseJStr f r2)
        else if e = 'n' then consOn '\n' (parseJStr f r2)
        else if e = 'r' then consOn '\r' (parseJStr f r2)
        else if e = 't' then consOn '\t' (parseJStr f r2)
        else if e = 'u' then
          match hex4 r2 with
          | some (code, rr) =>
            if 0xd800 ≤ code ∧ code ≤ 0xdbff then
              match surrogatePair code rr with
              | some (ch, r4) => consOn ch (parseJStr f r4)
              | none => none
            else if 0xdc00 ≤ code ∧ code ≤ 0xdfff then none
            else consOn (Char.ofNat code) (parseJStr f rr)
          | none => none
        else none
    else if decide (c.toNat < 0x20) then none
    else consOn c (parseJStr f X)) = consOn c (parseJStr f X)
  rw [if_neg h1, if_neg h2, if_neg (by simpa using h3)]

theorem parseJStr_dump : ∀ (s : Str) (fuel : Nat) (rest : Str), s.length < fuel →
    parseJStr fuel ((s.map jstrEscape).flatten ++ '"' :: rest) = some (s, rest)
  | [], fuel, rest, h => by
    obtain ⟨f, rfl⟩ : ∃ f, fuel = f + 1 := ⟨fuel - 1, by omega⟩
    rfl
  | c :: cs, fuel, rest, h => by
    obtain ⟨f, rfl⟩ : ∃ f, fuel = f + 1 := ⟨fuel - 1, by omega⟩
    have ih := parseJStr_dump cs f rest (by
      rw [List.length_cons] at h
      omega)
    simp only [List.map_cons, List.flatten_cons, List.append_assoc]
    by_cases h1 : c = '"'
    · subst h1
      rw [show jstrEscape '"' = ['\\', '"'] from rfl, List.cons_append, List.cons_append,
        List.nil_append]
      rw [show ∀ X, parseJStr (f + 1) ('\\' :: '"' :: X) = consOn '"' (parseJStr f X)
        from fun X => rfl, ih]
      rfl
    · by_cases h2 : c = '\\'
      · subst h2
        rw [show jstrEscape '\\' = ['\\', '\\'] from rfl, List.cons_append, List.cons_append,
          List.nil_append]
        rw [show ∀ X, parseJStr (f + 1) ('\\' :: '\\' :: X) = consOn '\\' (parseJStr f X)
          from fun X => rfl, ih]
        rfl
      · by_cases h3 : c = '\n'
        · subst h3
          rw [show jstrEscape '\n' = ['\\', 'n'] from rfl, List.cons_append, List.cons_append,
            List.nil_append]
          rw [show ∀ X, parseJStr (f + 1) ('\\' :: 'n' :: X) = consOn '\n' (parseJStr f X)
            from fun X => rfl, ih]
          rfl
        · by_cases h4 : c = '\t'
          · subst h4
            rw [show jstrEscape '\t' = ['\\', 't'] from rfl, List.cons_append,
              List.cons_append, List.nil_append]
            rw [show ∀ X, parseJStr (f + 1) ('\\' :: 't' :: X) = consOn '\t' (parseJStr f X)
              from fun X => rfl, ih]
            rfl
          · by_cases h5 : c = '\r'
            · subst h5
              rw [show jstrEscape '\r' = ['\\', 'r'] from rfl, List.cons_append,
                List.cons_append, List.nil_append]
              rw [show ∀ X, parseJStr (f + 1) ('\\' :: 'r' :: X) = consOn '\r' (parseJStr f X)
                from fun X => rfl, ih]
              rfl
            · by_cases h6 : c = Char.ofNat 8
              · subst h6
                rw [show jstrEscape (Char.ofNat 8) = ['\\', 'b'] from rfl, List.cons_append,
                  List.cons_append, List.nil_append]
                rw [show ∀ X, parseJStr (f + 1) ('\\' :: 'b' :: X)
                    = consOn (Char.ofNat 8) (parseJStr f X) from fun X => rfl, ih]
                rfl
              · by_cases h7 : c = Char.ofNat 12
                · subst h7
                  rw [show jstrEscape (Char.ofNat 12) = ['\\', 'f'] from rfl,
                    List.cons_append, List.cons_append, List.nil_append]
                  rw [show ∀ X, parseJStr (f + 1) ('\\' :: 'f' :: X)
                      = consOn (Char.ofNat 12) (parseJStr f X) from fun X => rfl, ih]
                  rfl
                · by_cases h8 : c.toNat < 0x20
                  · rw [show jstrEscape c
                        = ['\\', 'u', '0', '0', hexDigitChar (c.toNat / 16),
                           hexDigitChar (c.toNat % 16)] from by
                      rw [jstrEscape, if_neg h1, if_neg h2, if_neg h3, if_neg h4, if_neg h5,
                        if_neg h6, if_neg h7, if_pos (by simpa using h8)]]
                    simp only [List.cons_append, List.nil_append]
                    rw [show ∀ X, parseJStr (f + 1) ('\\' :: 'u' :: X)
                        = (match hex4 X with
                           | some (code, rr) =>
                             if 0xd800 ≤ code ∧ code ≤ 0xdbff then
                               match surrogatePair code rr with
                               | some (ch, r4) => consOn ch (parseJStr f r4)
                               | none => none
                             else if 0xdc00 ≤ code ∧ code ≤ 0xdfff then none
                             else consOn (Char.ofNat code) (parseJStr f rr)
                           | none => none) from fun X => rfl]
                    rw [show ∀ Y, hex4 ('0' :: '0' :: hexDigitChar (c.toNat / 16)
                          :: hexDigitChar (c.toNat % 16) :: Y)
                        = (match hexVal '0', hexVal '0', hexVal (hexDigitChar (c.toNat / 16)),
                             hexVal (hexDigitChar (c.toNat % 16)) with
                           | some x, some y, some z, some w =>
                             some (((x * 16 + y) * 16 + z) * 16 + w, Y)
                           | _, _, _, _ => none) from fun Y => rfl]
                    rw [show hexVal '0' = some 0 from rfl,
                      hexVal_hexDigitChar (c.toNat / 16) (by omega),
                      hexVal_hexDigitChar (c.toNat % 16) (by omega)]
                    try simp only []
                    rw [show ((0 * 16 + 0) * 16 + c.toNat / 16) * 16 + c.toNat % 16 = c.toNat
                      from by omega]
                    rw [if_neg (by omega), if_neg (by omega), Char.ofNat_toNat, ih]
                    rfl
                  · rw [show jstrEscape c = [c] from by
                      rw [jstrEscape, if_neg h1, if_neg h2, if_neg h3, if_neg h4, if_neg h5,
                        if_neg h6, if_neg h7, if_neg (by simpa using h8)]]
                    rw [List.cons_append, List.nil_append, parseJStr_plain f c _ h1 h2 h8, ih]
                    rfl

theorem digit_not_jws (c : Char) (h : c.isDigit = true) : jwsChar c = false := by
  rw [jwsChar]
  have h1 := digit_ne c ' ' h (by decide)
  have h2 := digit_ne c '\t' h (by decide)
  have h3 := digit_ne c '\n' h (by decide)
  have h4 := digit_ne c '\r' h (by decide)
  simp [h1, h2, h3, h4]

/-- every dump starts with a non-whitespace character that is not a
closing bracket. -/
theorem jdump_starter (d : Nat) (v : JVal) (hv : wfV v = true) :
    ∃ c t, jdump d v = c :: t ∧ jwsChar c = false ∧ c ≠ ']' ∧ c ≠ rbrace := by
  cases v with
  | null => exact ⟨'n', _, rfl, by decide, by decide, by decide⟩
  | bool b =>
    cases b with
    | false => exact ⟨'f', _, rfl, by decide, by decide, by decide⟩
    | true => exact ⟨'t', _, rfl, by decide, by decide, by decide⟩
  | int n =>
    by_cases hn : n < 0
    · refine ⟨'-', natStr2 n.natAbs, ?_, by decide, by decide, by decide⟩
      rw [jdump, intStr, if_pos hn]
    · obtain ⟨hne, hdig, -, -⟩ := natStr2_spec n.natAbs
      obtain ⟨c, t, hct⟩ := List.exists_cons_of_ne_nil hne
      have hc : c.isDigit = true := hdig c (by rw [hct]; simp)
      refine ⟨c, t, ?_, digit_not_jws c hc, digit_ne c ']' hc (by decide),
        digit_ne c rbrace hc (by decide)⟩
      rw [jdump, intStr, if_neg hn, hct]
  | floatLex s => rw [wfV] at hv; cases hv
  | str s => exact ⟨'"', _, rfl, by decide, by decide, by decide⟩
  | arr xs =>
    cases xs with
    | nil => exact ⟨'[', _, rfl, by decide, by decide, by decide⟩
    | cons x t => exact ⟨'[', _, rfl, by decide, by decide, by decide⟩
  | obj kvs =>
    cases kvs with
    | nil => exact ⟨lbrace, _, rfl, by decide, by decide, by decide⟩
    | cons k v t => exact ⟨lbrace, _, rfl, by decide, by decide, by decide⟩

theorem jskip_cons_not_ws (c : Char) (r : Str) (h : jwsChar c = false) :
    jskip (c :: r) = c :: r := by
  rw [jskip]
  exact dropWhile_cons_false _ c r h

theorem jindent_ws (d : Nat) : ∀ c ∈ jindent d, jwsChar c = true := by
  intro c hc
  rw [jindent] at hc
  rw [List.eq_of_mem_replicate hc]
  decide

theorem jskip_ws_lead (w t : Str) (hw : ∀ c ∈ w, jwsChar c = true) :
    jskip (w ++ t) = jskip t := by
  rw [jskip, jskip]
  exact dropWhile_append_of_all _ w t hw

theorem jskip_dump (d : Nat) (v : JVal) (hv : wfV v = true) (rest : Str) :
    jskip (jdump d v ++ rest) = jdump d v ++ rest := by
  obtain ⟨c, t, hct, hws, -, -⟩ := jdump_starter d v hv
  rw [hct, List.cons_append]
  exact jskip_cons_not_ws _ _ hws

theorem swith_head_ne (p : Str) (c : Char) (s : Str)
    (h : p.headD c ≠ c) : swith p (c :: s) = false := by
  cases p with
  | nil => simp at h
  | cons p0 ps => exact swith_cons_ne p0 ps c s h

theorem parseVal_num (f : Nat) (n : Int) (rest : Str) (hr : numSafe rest = true) :
    parseVal (f + 1) (intStr n ++ rest) = some (.int n, rest) := by
  obtain ⟨hne, hdig, hval, hhd⟩ := natStr2_spec n.natAbs
  obtain ⟨c2, t2, hct2⟩ := List.exists_cons_of_ne_nil hne
  have hd2 : c2.isDigit = true := hdig c2 (by rw [hct2]; simp)
  by_cases hn : n < 0
  · rw [intStr, if_pos hn, List.cons_append, parseVal]
    try simp only []
    rw [jskip_cons_not_ws '-' _ (by decide)]
    try simp only []
    rw [if_neg (by decide), if_neg (by decide), if_neg (by decide),
      if_neg (by rw [swith_head_ne _ '-' _ (by decide)]; simp),
      if_neg (by rw [swith_head_ne _ '-' _ (by decide)]; simp),
      if_neg (by rw [swith_head_ne _ '-' _ (by decide)]; simp),
      if_neg (by rw [swith_head_ne _ '-' _ (by decide)]; simp),
      if_neg (by rw [swith_head_ne _ '-' _ (by decide)]; simp),
      if_neg ?_]
    · have h := parseNum_intStr n rest hr
      rw [intStr, if_pos hn] at h
      simp only [List.cons_append] at h ⊢
      exact h
    · show ¬swith "-Infinity".toList ('-' :: (natStr2 n.natAbs ++ rest)) = true
      rw [show ("-Infinity".toList) = '-' :: "Infinity".toList from rfl]
      rw [show swith ('-' :: "Infinity".toList) ('-' :: (natStr2 n.natAbs ++ rest))
          = (('-' : Char) = '-' && swith "Infinity".toList (natStr2 n.natAbs ++ rest))
          from rfl]
      rw [hct2, List.cons_append, swith_head_ne _ c2 _ (by
        rw [show ("Infinity".toList).headD c2 = 'I' from rfl]
        exact Ne.symm (digit_ne c2 'I' hd2 (by decide)))]
      simp
  · rw [intStr, if_neg hn, hct2, List.cons_append, parseVal]
    try simp only []
    rw [jskip_cons_not_ws c2 _ (digit_not_jws c2 hd2)]
    try simp only []
    rw [if_neg (Ne.symm (digit_ne c2 '"' hd2 (by decide))).symm,
      if_neg (Ne.symm (digit_ne c2 '[' hd2 (by decide))).symm,
      if_neg (Ne.symm (digit_ne c2 lbrace hd2 (by decide))).symm,
      if_neg (by rw [swith_head_ne _ c2 _ (by
        rw [show ("true".toList).headD c2 = 't' from rfl]
        exact Ne.symm (digit_ne c2 't' hd2 (by decide)))]; simp),
      if_neg (by rw [swith_head_ne _ c2 _ (by
        rw [show ("false".toList).headD c2 = 'f' from rfl]
        exact Ne.symm (digit_ne c2 'f' hd2 (by decide)))]; simp),
      if_neg (by rw [swith_head_ne _ c2 _ (by
        rw [show ("null".toList).headD c2 = 'n' from rfl]
        exact Ne.symm (digit_ne c2 'n' hd2 (by decide)))]; simp),
      if_neg (by rw [swith_head_ne _ c2 _ (by
        rw [show ("NaN".toList).headD c2 = 'N' from rfl]
        exact Ne.symm (digit_ne c2 'N' hd2 (by decide)))]; simp),
      if_neg (by rw [swith_head_ne _ c2 _ (by
        rw [show ("Infinity".toList).headD c2 = 'I' from rfl]
        exact Ne.symm (digit_ne c2 'I' hd2 (by decide)))]; simp),
      if_neg (by rw [swith_head_ne _ c2 _ (by
        rw [show ("-Infinity".toList).headD c2 = '-' from rfl]
        exact Ne.symm (digit_ne c2 '-' hd2 (by decide)))]; simp)]
    have h := parseNum_intStr n rest hr
    rw [intStr, if_neg hn, hct2] at h
    simp only [List.cons_append] at h ⊢
    exact h

theorem jstrEscape_ne_nil (c : Char) : jstrEscape c ≠ [] := by
  rw [jstrEscape]
  repeat' split
  all_goals simp

theorem jstrBody_len (s : Str) : s.length ≤ ((s.map jstrEscape).flatten).length := by
  induction s with
  | nil => simp
  | cons c cs ih =>
    simp only [List.map_cons, List.flatten_cons, List.length_append, List.length_cons]
    have h1 : 1 ≤ (jstrEscape c).length := by
      have := jstrEscape_ne_nil c
      cases h : jstrEscape c with
      | nil => exact absurd h this
      | cons a b => simp
    omega

theorem numSafe_dumpListTail (d : Nat) (xs : JList) (Z : Str) :
    numSafe (jdumpList d xs ++ '\n' :: Z) = true := by
  cases xs with
  | nil => rfl
  | cons x t => rfl

theorem numSafe_dumpObjTail (d : Nat) (kvs : JObj) (Z : Str) :
    numSafe (jdumpObj d kvs ++ '\n' :: Z) = true := by
  cases kvs with
  | nil => rfl
  | cons k v t => rfl

mutual

/-- parsing a dumped value recovers it (specification of `json.loads` after
`json.dumps`), for well-formed values and non-extending continuations. -/
theorem roundV : ∀ (v : JVal) (d : Nat) (rest : Str) (fuel : Nat),
    wfV v = true → numSafe rest = true →
    (jdump d v ++ rest).length < fuel →
    parseVal fuel (jdump d v ++ rest) = some (v, rest)
  | .null, d, rest, fuel, hv, hr, hf => by
    obtain ⟨f, rfl⟩ : ∃ f, fuel = f + 1 := ⟨fuel - 1, by omega⟩
    rfl
  | .bool true, d, rest, fuel, hv, hr, hf => by
    obtain ⟨f, rfl⟩ : ∃ f, fuel = f + 1 := ⟨fuel - 1, by omega⟩
    rfl
  | .bool false, d, rest, fuel, hv, hr, hf => by
    obtain ⟨f, rfl⟩ : ∃ f, fuel = f + 1 := ⟨fuel - 1, by omega⟩
    rfl
  | .int n, d, rest, fuel, hv, hr, hf => by
    obtain ⟨f, rfl⟩ : ∃ f, fuel = f + 1 := ⟨fuel - 1, by omega⟩
    exact parseVal_num f n rest hr
  | .floatLex s, d, rest, fuel, hv, hr, hf => by
    rw [wfV] at hv; cases hv
  | .str s, d, rest, fuel, hv, hr, hf => by
    obtain ⟨f, rfl⟩ : ∃ f, fuel = f + 1 := ⟨fuel - 1, by omega⟩
    rw [jdump, jstrDump]
    simp only [List.cons_append, List.append_assoc, List.nil_append]
    rw [parseVal]
    try simp only []
    rw [jskip_cons_not_ws '"' _ (by decide)]
    try simp only []
    rw [if_pos (by trivial)]
    rw [parseJStr_dump s _ rest (by
      have := jstrBody_len s
      simp only [List.length_append, List.length_cons]
      omega)]
  | .arr .nil, d, rest, fuel, hv, hr, hf => by
    obtain ⟨f, rfl⟩ : ∃ f, fuel = f + 1 := ⟨fuel - 1, by omega⟩
    rfl
  | .arr (.cons x xs), d, rest, fuel, hv, hr, hf => by
    obtain ⟨f, rfl⟩ : ∃ f, fuel = f + 1 := ⟨fuel - 1, by omega⟩
    have hwf : wfV x = true ∧ wfL xs = true := by
      rw [wfV, wfL] at hv; simpa using hv
    rw [jdump] at hf ⊢
    simp only [List.cons_append, List.append_assoc, List.nil_append] at hf ⊢
    rw [parseVal]
    try simp only []
    rw [jskip_cons_not_ws '[' _ (by decide)]
    try simp only []
    rw [if_neg (by decide), if_pos (by trivial)]
    rw [show jskip ('\n' :: (jindent (d + 1) ++ (jdump (d + 1) x ++ (jdumpList (d + 1) xs
          ++ '\n' :: (jindent d ++ ']' :: rest)))))
        = jdump (d + 1) x ++ (jdumpList (d + 1) xs ++ '\n' :: (jindent d ++ ']' :: rest))
      from by
        rw [show ('\n' :: (jindent (d + 1) ++ (jdump (d + 1) x ++ (jdumpList (d + 1) xs
              ++ '\n' :: (jindent d ++ ']' :: rest)))))
            = ('\n' :: jindent (d + 1)) ++ (jdump (d + 1) x ++ (jdumpList (d + 1) xs
              ++ '\n' :: (jindent d ++ ']' :: rest))) from by simp]
        rw [jskip_ws_lead _ _ (by
          intro c hc
          simp only [List.mem_cons] at hc
          rcases hc with hc | hc
          · rw [hc]; decide
          · exact jindent_ws _ c hc)]
        exact jskip_dump (d + 1) x hwf.1 _]
    obtain ⟨c, t, hct, hws, hnb, -⟩ := jdump_starter (d + 1) x hwf.1
    rw [hct, List.cons_append]
    split
    · rename_i rest' heq
      rw [List.cons.injEq] at heq
      exact absurd heq.1 hnb
    · rw [← List.cons_append, ← hct]
      rw [roundV x (d + 1) _ f hwf.1 (numSafe_dumpListTail _ _ _) (by
        simp only [List.length_append, List.length_cons] at hf ⊢
        omega)]
      try simp only []
      rw [roundL xs d rest f hwf.2 (by
        simp only [List.length_append, List.length_cons] at hf ⊢
        omega)]
  | .obj .nil, d, rest, fuel, hv, hr, hf => by
    obtain ⟨f, rfl⟩ : ∃ f, fuel = f + 1 := ⟨fuel - 1, by omega⟩
    rfl
  | .obj (.cons k v t), d, rest, fuel, hv, hr, hf => by
    obtain ⟨f, rfl⟩ : ∃ f, fuel = f + 1 := ⟨fuel - 1, by omega⟩
    have hwf : wfV v = true ∧ (jobjKeys t).contains k = false ∧ wfO t = true := by
      rw [wfV, wfO] at hv
      simp only [Bool.and_eq_true, Bool.not_eq_true'] at hv
      exact ⟨hv.1.1, hv.1.2, hv.2⟩
    rw [jdump] at hf ⊢
    simp only [List.cons_append, List.append_assoc, List.nil_append] at hf ⊢
    rw [parseVal]
    try simp only []
    rw [jskip_cons_not_ws lbrace _ (by decide)]
    try simp only []
    rw [if_neg (by decide), if_neg (by decide), if_pos (by trivial)]
    rw [show jskip ('\n' :: (jindent (d + 1) ++ (jstrDump k ++ ':' :: ' ' ::
          (jdump (d + 1) v ++ (jdumpObj (d + 1) t ++ '\n' :: (jindent d ++ rbrace :: rest))))))
        = jstrDump k ++ ':' :: ' ' ::
          (jdump (d + 1) v ++ (jdumpObj (d + 1) t ++ '\n' :: (jindent d ++ rbrace :: rest)))
      from by
        rw [show ('\n' :: (jindent (d + 1) ++ (jstrDump k ++ ':' :: ' ' ::
              (jdump (d + 1) v ++ (jdumpObj (d + 1) t
                ++ '\n' :: (jindent d ++ rbrace :: rest))))))
            = ('\n' :: jindent (d + 1)) ++ (jstrDump k ++ ':' :: ' ' ::
              (jdump (d + 1) v ++ (jdumpObj (d + 1) t
                ++ '\n' :: (jindent d ++ rbrace :: rest)))) from by simp]
        rw [jskip_ws_lead _ _ (by
          intro c hc
          simp only [List.mem_cons] at hc
          rcases hc with hc | hc
          · rw [hc]; decide
          · exact jindent_ws _ c hc)]
        rw [jstrDump, List.cons_append]
        exact jskip_cons_not_ws '"' _ (by decide)]
    rw [jstrDump]
    simp only [List.cons_append, List.append_assoc, List.nil_append]
    try simp only []
    rw [if_neg (by decide), if_pos (by trivial)]
    rw [parseJStr_dump k _ _ (by
      have := jstrBody_len k
      simp only [List.length_append, List.length_cons]
      omega)]
    try simp only []
    rw [jskip_cons_not_ws ':' _ (by decide)]
    try simp only []
    rw [show jskip (' ' :: (jdump (d + 1) v ++ (jdumpObj (d + 1) t
          ++ '\n' :: (jindent d ++ rbrace :: rest))))
        = jdump (d + 1) v ++ (jdumpObj (d + 1) t ++ '\n' :: (jindent d ++ rbrace :: rest))
      from by
        rw [show (' ' :: (jdump (d + 1) v ++ (jdumpObj (d + 1) t
              ++ '\n' :: (jindent d ++ rbrace :: rest))))
            = [' '] ++ (jdump (d + 1) v ++ (jdumpObj (d + 1) t
              ++ '\n' :: (jindent d ++ rbrace :: rest))) from rfl]
        rw [jskip_ws_lead _ _ (by intro c hc; simp at hc; rw [hc]; decide)]
        exact jskip_dump (d + 1) v hwf.1 _]
    rw [roundV v (d + 1) _ f hwf.1 (numSafe_dumpObjTail _ _ _) (by
      have hb := jstrBody_len k
      simp only [List.length_append, List.length_cons] at hf ⊢
      omega)]
    try simp only []
    rw [roundO t d rest f hwf.2.2 (by
      have hb := jstrBody_len k
      simp only [List.length_append, List.length_cons] at hf ⊢
      omega)]
    try simp only []
    rw [dictifyGo_fresh (JObj.cons k v t) JObj.nil hv (by
      intro k2 _
      rfl)]
    rw [jappend]

/-- parsing the dumped items after the first element of an array. -/
theorem roundL : ∀ (xs : JList) (d : Nat) (rest : Str) (fuel : Nat),
    wfL xs = true →
    (jdumpList (d + 1) xs ++ '\n' :: (jindent d ++ ']' :: rest)).length < fuel →
    parseItems fuel (jdumpList (d + 1) xs ++ '\n' :: (jindent d ++ ']' :: rest))
      = some (xs, rest)
  | .nil, d, rest, fuel, _, hf => by
    obtain ⟨f, rfl⟩ : ∃ f, fuel = f + 1 := ⟨fuel - 1, by omega⟩
    rw [jdumpList, List.nil_append, parseItems]
    try simp only []
    rw [show jskip ('\n' :: (jindent d ++ ']' :: rest)) = ']' :: rest from by
      rw [show ('\n' :: (jindent d ++ ']' :: rest))
          = ('\n' :: jindent d) ++ (']' :: rest) from by simp]
      rw [jskip_ws_lead _ _ (by
        intro c hc
        simp only [List.mem_cons] at hc
        rcases hc with hc | hc
        · rw [hc]; decide
        · exact jindent_ws _ c hc)]
      exact jskip_cons_not_ws ']' _ (by decide)]
    rfl
  | .cons x xs, d, rest, fuel, hwf, hf => by
    obtain ⟨f, rfl⟩ : ∃ f, fuel = f + 1 := ⟨fuel - 1, by omega⟩
    have hw : wfV x = true ∧ wfL xs = true := by
      rw [wfL] at hwf; simpa using hwf
    rw [jdumpList] at hf ⊢
    simp only [List.cons_append, List.append_assoc, List.nil_append] at hf ⊢
    rw [parseItems]
    try simp only []
    rw [jskip_cons_not_ws ',' _ (by decide)]
    try simp only []
    rw [show jskip ('\n' :: (jindent (d + 1) ++ (jdump (d + 1) x ++ (jdumpList (d + 1) xs
          ++ '\n' :: (jindent d ++ ']' :: rest)))))
        = jdump (d + 1) x ++ (jdumpList (d + 1) xs ++ '\n' :: (jindent d ++ ']' :: rest))
      from by
        rw [show ('\n' :: (jindent (d + 1) ++ (jdump (d + 1) x ++ (jdumpList (d + 1) xs
              ++ '\n' :: (jindent d ++ ']' :: rest)))))
            = ('\n' :: jindent (d + 1)) ++ (jdump (d + 1) x ++ (jdumpList (d + 1) xs
              ++ '\n' :: (jindent d ++ ']' :: rest))) from by simp]
        rw [jskip_ws_lead _ _ (by
          intro c hc
          simp only [List.mem_cons] at hc
          rcases hc with hc | hc
          · rw [hc]; decide
          · exact jindent_ws _ c hc)]
        exact jskip_dump (d + 1) x hw.1 _]
    rw [roundV x (d + 1) _ f hw.1 (numSafe_dumpListTail _ _ _) (by
      simp only [List.length_append, List.length_cons] at hf ⊢
      omega)]
    try simp only []
    rw [roundL xs d rest f hw.2 (by
      simp only [List.length_append, List.length_cons] at hf ⊢
      omega)]

/-- parsing the dumped members after the first member of an object. -/
theorem roundO : ∀ (kvs : JObj) (d : Nat) (rest : Str) (fuel : Nat),
    wfO kvs = true →
    (jdumpObj (d + 1) kvs ++ '\n' :: (jindent d ++ rbrace :: rest)).length < fuel →
    parseMembers fuel (jdumpObj (d + 1) kvs ++ '\n' :: (jindent d ++ rbrace :: rest))
      = some (kvs, rest)
  | .nil, d, rest, fuel, _, hf => by
    obtain ⟨f, rfl⟩ : ∃ f, fuel = f + 1 := ⟨fuel - 1, by omega⟩
    rw [jdumpObj, List.nil_append, parseMembers]
    try simp only []
    rw [show jskip ('\n' :: (jindent d ++ rbrace :: rest)) = rbrace :: rest from by
      rw [show ('\n' :: (jindent d ++ rbrace :: rest))
          = ('\n' :: jindent d) ++ (rbrace :: rest) from by simp]
      rw [jskip_ws_lead _ _ (by
        intro c hc
        simp only [List.mem_cons] at hc
        rcases hc with hc | hc
        · rw [hc]; decide
        · exact jindent_ws _ c hc)]
      exact jskip_cons_not_ws rbrace _ (by decide)]
    rfl
  | .cons k v t, d, rest, fuel, hwf, hf => by
    obtain ⟨f, rfl⟩ : ∃ f, fuel = f + 1 := ⟨fuel - 1, by omega⟩
    have hw : wfV v = true ∧ wfO t = true := by
      rw [wfO] at hwf
      simp only [Bool.and_eq_true] at hwf
      exact ⟨hwf.1.1, hwf.2⟩
    rw [jdumpObj] at hf ⊢
    simp only [List.cons_append, List.append_assoc, List.nil_append] at hf ⊢
    rw [parseMembers]
    try simp only []
    rw [jskip_cons_not_ws ',' _ (by decide)]
    try simp only []
    rw [show jskip ('\n' :: (jindent (d + 1) ++ (jstrDump k ++ ':' :: ' ' ::
          (jdump (d + 1) v ++ (jdumpObj (d + 1) t ++ '\n' :: (jindent d ++ rbrace :: rest))))))
        = jstrDump k ++ ':' :: ' ' ::
          (jdump (d + 1) v ++ (jdumpObj (d + 1) t ++ '\n' :: (jindent d ++ rbrace :: rest)))
      from by
        rw [show ('\n' :: (jindent (d + 1) ++ (jstrDump k ++ ':' :: ' ' ::
              (jdump (d + 1) v ++ (jdumpObj (d + 1) t
                ++ '\n' :: (jindent d ++ rbrace :: rest))))))
            = ('\n' :: jindent (d + 1)) ++ (jstrDump k ++ ':' :: ' ' ::
              (jdump (d + 1) v ++ (jdumpObj (d + 1) t
                ++ '\n' :: (jindent d ++ rbrace :: rest)))) from by simp]
        rw [jskip_ws_lead _ _ (by
          intro c hc
          simp only [List.mem_cons] at hc
          rcases hc with hc | hc
          · rw [hc]; decide
          · exact jindent_ws _ c hc)]
        rw [jstrDump, List.cons_append]
        exact jskip_cons_not_ws '"' _ (by decide)]
    rw [jstrDump]
    simp only [List.cons_append, List.append_assoc, List.nil_append]
    try simp only []
    rw [parseJStr_dump k _ _ (by
      have := jstrBody_len k
      simp only [List.length_append, List.length_cons]
      omega)]
    try simp only []
    rw [jskip_cons_not_ws ':' _ (by decide)]
    try simp only []
    rw [show jskip (' ' :: (jdump (d + 1) v ++ (jdumpObj (d + 1) t
          ++ '\n' :: (jindent d ++ rbrace :: rest))))
        = jdump (d + 1) v ++ (jdumpObj (d + 1) t ++ '\n' :: (jindent d ++ rbrace :: rest))
      from by
        rw [show (' ' :: (jdump (d + 1) v ++ (jdumpObj (d + 1) t
              ++ '\n' :: (jindent d ++ rbrace :: rest))))
            = [' '] ++ (jdump (d + 1) v ++ (jdumpObj (d + 1) t
              ++ '\n' :: (jindent d ++ rbrace :: rest))) from rfl]
        rw [jskip_ws_lead _ _ (by intro c hc; simp at hc; rw [hc]; decide)]
        exact jskip_dump (d + 1) v hw.1 _]
    rw [roundV v (d + 1) _ f hw.1 (numSafe_dumpObjTail _ _ _) (by
      have hb := jstrBody_len k
      simp only [List.length_append, List.length_cons] at hf ⊢
      omega)]
    try simp only []
    rw [roundO t d rest f hw.2 (by
      have hb := jstrBody_len k
      simp only [List.length_append, List.length_cons] at hf ⊢
      omega)]

end

theorem jdump_head_not_space (d : Nat) (v : JVal) (hv : wfV v = true) :
    ∃ c t, jdump d v = c :: t ∧ pySpace c = false := by
  obtain ⟨c, t, hct, -, -, -⟩ := jdump_starter d v hv
  refine ⟨c, t, hct, ?_⟩
  cases v with
  | int n =>
    by_cases hn : n < 0
    · have : jdump d (.int n) = '-' :: natStr2 n.natAbs := by rw [jdump, intStr, if_pos hn]
      rw [this] at hct
      rw [List.cons.injEq] at hct
      rw [← hct.1]; decide
    · obtain ⟨hne, hdig, -, -⟩ := natStr2_spec n.natAbs
      have : jdump d (.int n) = natStr2 n.natAbs := by rw [jdump, intStr, if_neg hn]
      rw [this] at hct
      exact digit_not_space c (hdig c (by rw [hct]; simp))
  | null => rw [show jdump d JVal.null = 'n' :: "ull".toList from rfl, List.cons.injEq] at hct
            rw [← hct.1]; decide
  | bool b =>
    cases b with
    | true => rw [show jdump d (JVal.bool true) = 't' :: "rue".toList from rfl,
                List.cons.injEq] at hct
              rw [← hct.1]; decide
    | false => rw [show jdump d (JVal.bool false) = 'f' :: "alse".toList from rfl,
                 List.cons.injEq] at hct
               rw [← hct.1]; decide
  | floatLex s => rw [wfV] at hv; cases hv
  | str s => rw [jdump, jstrDump, List.cons_append, List.cons.injEq] at hct; rw [← hct.1]; decide
  | arr xs =>
    cases xs with
    | nil => rw [show jdump d (JVal.arr JList.nil) = '[' :: [']'] from rfl,
               List.cons.injEq] at hct
             rw [← hct.1]; decide
    | cons x xs => rw [jdump, List.cons.injEq] at hct; rw [← hct.1]; decide
  | obj kvs =>
    cases kvs with
    | nil => rw [show jdump d (JVal.obj JObj.nil) = lbrace :: [rbrace] from rfl,
               List.cons.injEq] at hct
             rw [← hct.1]; decide
    | cons k v t => rw [jdump, List.cons.injEq] at hct; rw [← hct.1]; decide

theorem jdump_last_not_space (d : Nat) (v : JVal) (hv : wfV v = true) :
    ∃ c, (jdump d v).getLast? = some c ∧ pySpace c = false := by
  cases v with
  | null => exact ⟨'l', rfl, by decide⟩
  | bool b => cases b with
    | true => exact ⟨'e', rfl, by decide⟩
    | false => exact ⟨'e', rfl, by decide⟩
  | int n =>
    obtain ⟨hne, hdig, -, -⟩ := natStr2_spec n.natAbs
    obtain ⟨c, hcl, hcd⟩ := lastQ_digit_of_all (natStr2 n.natAbs) hne hdig
    by_cases hn : n < 0
    · refine ⟨c, ?_, digit_not_space c hcd⟩
      rw [jdump, intStr, if_pos hn,
        show ('-' :: natStr2 n.natAbs) = ['-'] ++ natStr2 n.natAbs from rfl,
        lastQ_append_right _ _ hne]
      exact hcl
    · refine ⟨c, ?_, digit_not_space c hcd⟩
      rw [jdump, intStr, if_neg hn]
      exact hcl
  | floatLex s => rw [wfV] at hv; cases hv
  | str s =>
    refine ⟨'"', ?_, by decide⟩
    rw [jdump, jstrDump, lastQ_append_right _ _ (by simp)]
    rfl
  | arr xs =>
    cases xs with
    | nil => exact ⟨']', rfl, by decide⟩
    | cons x t =>
      refine ⟨']', ?_, by decide⟩
      rw [jdump, show ('[' :: '\n' :: (jindent (d + 1) ++ jdump (d + 1) x
          ++ jdumpList (d + 1) t ++ '\n' :: (jindent d ++ [']'])))
        = ('[' :: '\n' :: (jindent (d + 1) ++ jdump (d + 1) x ++ jdumpList (d + 1) t
          ++ '\n' :: jindent d)) ++ [']'] from by simp,
        lastQ_append_right _ _ (by simp)]
      rfl
  | obj kvs =>
    cases kvs with
    | nil => exact ⟨rbrace, rfl, by decide⟩
    | cons k v t =>
      refine ⟨rbrace, ?_, by decide⟩
      rw [jdump, show (lbrace :: '\n' :: (jindent (d + 1) ++ jstrDump k ++ ':' :: ' ' ::
          (jdump (d + 1) v ++ jdumpObj (d + 1) t ++ '\n' :: (jindent d ++ [rbrace]))))
        = (lbrace :: '\n' :: (jindent (d + 1) ++ jstrDump k ++ ':' :: ' ' ::
          (jdump (d + 1) v ++ jdumpObj (d + 1) t ++ '\n' :: jindent d))) ++ [rbrace]
        from by simp,
        lastQ_append_right _ _ (by simp)]
      rfl

theorem pyStrip_dump (v : JVal) (hv : wfV v = true) :
    pyStrip (json_dumps v) = json_dumps v := by
  obtain ⟨c, t, hct, hcs⟩ := jdump_head_not_space 0 v hv
  obtain ⟨e, hel, hes⟩ := jdump_last_not_space 0 v hv
  rw [json_dumps] at *
  rw [pyStrip, hct, pyStripL_cons_of_not_space c t hcs, ← hct,
    pyStripR_of_last_not_space _ e hel hes]

theorem json_loads_dumps (v : JVal) (hv : wfV v = true) :
    json_loads (json_dumps v) = some v := by
  rw [json_loads, json_dumps]
  have h := roundV v 0 [] ((jdump 0 v).length + 1) hv rfl (by simp)
  rw [List.append_nil] at h
  rw [h]
  rfl

/-- C9: JSON round-trip idempotence — for every well-formed JSON value (no
float lexemes, distinct object keys), normalizing its stable 2-space pretty
print is a byte-identical no-op: the raw candidate — the first pipeline
stage — parses and wins, the result is flagged ok, not repaired, with no
repair actions. -/
theorem C9_roundtrip (v : JVal) (hv : wfV v = true) :
    normalize_json_block (json_dumps v) = (json_dumps v, true) ∧
    normalize_json_block_with_diagnostics (json_dumps v)
      = ⟨true, json_dumps v, "raw".toList, [], false, []⟩ := by
  have h1 : normalize_json_block_with_diagnostics (json_dumps v)
      = ⟨true, json_dumps v, "raw".toList, [], false, []⟩ := by
    rw [normalize_json_block_with_diagnostics]
    rw [pyStrip_dump v hv, json_loads_dumps v hv]
  refine ⟨?_, h1⟩
  rw [normalize_json_block, h1]

/-- a representative error-code payload. -/
def c9v : JVal :=
  .obj (.cons "code".toList (.int 10001)
    (.cons "msg".toList (.str "正常".toList) .nil))

/-- C9 (witness): the round-trip theorem applied to a concrete payload. -/
theorem C9_roundtrip_witness :
    wfV c9v = true ∧
    (normalize_json_block (json_dumps c9v) = (json_dumps c9v, true) ∧
     normalize_json_block_with_diagnostics (json_dumps c9v)
       = ⟨true, json_dumps c9v, "raw".toList, [], false, []⟩) :=
  ⟨by decide, C9_roundtrip c9v (by decide)⟩

/-! ### `_validate_chunk_output` -/

/-- the call metadata consulted by validation. -/
structure LlmMeta where
  truncated : Bool
  finishReason : Str
deriving Repr, DecidableEq

/-- structured validation failure; the source renders each case into a
Chinese message (float percent formatting and JSON error text are not
modelled, so the message text itself is kept structured here). -/
inductive VReason where
  | truncated (finishReason : Str)
  | empty
  | contHeading
  | contNumbered
  | numberedNotAllowed (outputNumbered : List Str)
  | headingNotAllowed (heading : Str)
  | tooManyHeadings
  | levelMismatch (headingText : Str) (expected actual : Nat)
  | missingHeading
  | newJson
  | jsonCountMismatch (src outCandidates : Nat)
  | invalidJson (idx : Nat)
  | extraErrorCodes (extras : List Str)
  | contentGuard (g : GuardReason)
deriving Repr, DecidableEq

/-- substring test (`pat in s`). -/
def strHasSub (pat s : Str) : Bool := (splitAtSubF pat s.length s).isSome

/-- a match of the multiline heading pattern (whitespace — possibly
crossing line breaks — one to six hashes, whitespace, then at least one
more character, with the usual all-whitespace backtracking corner) at a
line-start position. -/
def mlHeadingAt (s : Str) : Bool :=
  let w := s.takeWhile pySpace
  let r := s.drop w.length
  let hs := r.takeWhile (fun c => c = '#')
  if hs.length < 1 || hs.length > 6 then false
  else
    let r2 := r.drop hs.length
    let w2 := r2.takeWhile pySpace
    if w2.isEmpty then false
    else
      let r3 := r2.drop w2.length
      if !r3.isEmpty then true
      else decide (2 ≤ w2.length) && !(w2.getLastD ' ' = '\n')

/-- the multiline findall of the validator's heading check, reduced to the
existence of a match. -/
def hasMlHeadingF : Nat → Bool → Str → Bool
  | _, _, [] => false
  | 0, _, _ => false
  | fuel + 1, atStart, c :: rest =>
    (atStart && mlHeadingAt (c :: rest)) || hasMlHeadingF fuel (c = '\n') rest

def hasMlHeading (t : Str) : Bool := hasMlHeadingF t.length true t

/-- the per-line numbered-heading pattern of the level check (hashes
captured, then a numeric path, whitespace and text, everything after the
path to the line end being group 2's tail). -/
def numberedLevelMatch (line : Str) : Option (Nat × Str) :=
  let w := line.takeWhile pySpace
  let r := line.drop w.length
  let hs := r.takeWhile (fun c => c = '#')
  if hs.length < 1 || hs.length > 6 then none
  else
    match r.drop hs.length with
    | c :: r2tail =>
      if pySpace c then
        let r3 := (c :: r2tail).dropWhile pySpace
        match sidParse r3 with
        | some (sid, r4) =>
          match r4 with
          | d :: _ =>
            if pySpace d then
              let t := r4.dropWhile pySpace
              if !t.isEmpty then some (hs.length, sid ++ r4)
              else if decide (2 ≤ r4.length) then some (hs.length, sid ++ r4)
              else none
            else none
          | [] => none
        | none => none
      else none
    | [] => none

/-- the numbered-heading level loop of the validator: first offending
line. -/
def levelCheckLines : List Str → Option VReason
  | [] => none
  | l :: ls =>
    match numberedLevelMatch l with
    | some (level, g2) =>
      let headingText := strip_heading_attrs (pyStrip g2)
      let expected := heading_level_from_numbered_heading headingText
      if level ≠ expected then some (.levelMismatch headingText expected level)
      else levelCheckLines ls
    | none => levelCheckLines ls

/-- the JSON parse loop of the validator (1-based indices). -/
def jsonBlocksCheck : Nat → List Str → Option VReason
  | _, [] => none
  | idx, b :: bs =>
    if !(normalize_json_block b).2 then some (.invalidJson idx)
    else jsonBlocksCheck (idx + 1) bs

/-- the final content-preservation stage. -/
def validateContentStage (source_chunk output : Str) : Option VReason :=
  (check_content_preservation source_chunk output).map VReason.contentGuard

/-- the error-code and content stages (order: codes first). -/
def validateCodeStage (source_chunk output : Str) : Option VReason :=
  if strHasSub "错误码".toList source_chunk then
    let sourceCodes := extract_error_codes source_chunk
    let outputCodes := extract_error_codes output
    if !sourceCodes.isEmpty && !outputCodes.isEmpty
        && !(outputCodes.all (fun c => sourceCodes.contains c)) then
      some (.extraErrorCodes
        ((sortStrs (outputCodes.filter (fun c => !sourceCodes.contains c))).take 5))
    else validateContentStage source_chunk output
  else validateContentStage source_chunk output

/-- the JSON stages of the validator. -/
def validateJsonStage (source_chunk output : Str) : Option VReason :=
  let sourceJson := extract_json_blocks source_chunk
  let outputJson := extract_json_blocks output
  if sourceJson.isEmpty && !outputJson.isEmpty then some .newJson
  else if !sourceJson.isEmpty
      && decide ((extract_json_candidate_code_blocks output).length < sourceJson.length) then
    some (.jsonCountMismatch sourceJson.length (extract_json_candidate_code_blocks output).length)
  else
    match jsonBlocksCheck 1 outputJson with
    | some r => some r
    | none => validateCodeStage source_chunk output

/-- the numbered-heading stages of the validator. -/
def validateHeadingStage (source_chunk output : Str) (allowed_headings : List Str)
    (continuation_mode : Bool) : Option VReason :=
  let output_no_code := remove_fenced_code_blocks output
  let allowedNorm := dedup ((allowed_headings.filter (fun h => !h.isEmpty)).map
    normalize_heading_text)
  let outputNumbered := extract_numbered_headings output
  let outputNumberedNorm := outputNumbered.map normalize_heading_text
  if !outputNumberedNorm.isEmpty then
    if continuation_mode then some .contNumbered
    else if allowedNorm.isEmpty then some (.numberedNotAllowed outputNumbered)
    else
      match outputNumberedNorm.find? (fun h => !allowedNorm.contains h) with
      | some h => some (.headingNotAllowed h)
      | none =>
        if decide (allowedNorm.length < outputNumberedNorm.length) then some .tooManyHeadings
        else
          match levelCheckLines (splitLines output_no_code) with
          | some r => some r
          | none => validateJsonStage source_chunk output
  else if !continuation_mode && !allowedNorm.isEmpty then some .missingHeading
  else validateJsonStage source_chunk output

/-- `_validate_chunk_output(...)`: `none` means valid. -/
def validate_chunk_output (source_chunk converted_chunk : Str)
    (allowed_headings : List Str) (continuation_mode : Bool) (llm_meta : LlmMeta) :
    Option VReason :=
  if llm_meta.truncated then some (.truncated llm_meta.finishReason)
  else
    let output := pyStrip converted_chunk
    if output.isEmpty then some .empty
    else if continuation_mode && hasMlHeading (remove_fenced_code_blocks output) then
      some .contHeading
    else validateHeadingStage source_chunk output allowed_headings continuation_mode

/-! ### C6 and C7: validator rejection laws -/

theorem validateHeadingStage_none (src out : Str) (al : List Str) (cont : Bool)
    (h : validateHeadingStage src out al cont = none) :
    validateJsonStage src out = none := by
  rw [validateHeadingStage] at h
  try simp only [] at h
  split at h
  · split at h
    · exact Option.noConfusion h
    · split at h
      · exact Option.noConfusion h
      · split at h
        · exact Option.noConfusion h
        · split at h
          · exact Option.noConfusion h
          · split at h
            · exact Option.noConfusion h
            · exact h
  · split at h
    · exact Option.noConfusion h
    · exact h

theorem validate_none_json (src conv : Str) (al : List Str) (cont : Bool) (m : LlmMeta)
    (h : validate_chunk_output src conv al cont m = none) :
    validateJsonStage src (pyStrip conv) = none := by
  rw [validate_chunk_output] at h
  try simp only [] at h
  split at h
  · exact Option.noConfusion h
  · split at h
    · exact Option.noConfusion h
    · split at h
      · exact Option.noConfusion h
      · exact validateHeadingStage_none _ _ _ _ h

theorem validateJsonStage_none (src out : Str)
    (h : validateJsonStage src out = none) :
    validateCodeStage src out = none := by
  rw [validateJsonStage] at h
  try simp only [] at h
  split at h
  · exact Option.noConfusion h
  · split at h
    · exact Option.noConfusion h
    · split at h
      · exact Option.noConfusion h
      · exact h

/-- when all earlier stages are trivially passable (no truncation, no
continuation mode, no allowed headings, no numbered headings in the
output), validation reduces to the JSON stage. -/
theorem validate_passthrough (source converted : Str) (allowed : List Str)
    (cont : Bool) (meta : LlmMeta)
    (hm : meta.truncated = false) (hc : cont = false) (ha : allowed = [])
    (hne : (pyStrip converted).isEmpty = false)
    (hn : extract_numbered_headings (pyStrip converted) = []) :
    validate_chunk_output source converted allowed cont meta
      = validateJsonStage source (pyStrip converted) := by
  rw [validate_chunk_output]
  try simp only []
  rw [hm, hne, hc]
  simp only [Bool.false_eq_true, if_false, Bool.false_and]
  rw [validateHeadingStage]
  try simp only []
  rw [hn, ha]
  simp [dedup, dedupAcc]

theorem validateJsonStage_passthrough (src out : Str)
    (hs : extract_json_blocks src = []) (ho : extract_json_blocks out = []) :
    validateJsonStage src out = validateCodeStage src out := by
  rw [validateJsonStage]
  try simp only []
  rw [hs, ho]
  simp [jsonBlocksCheck]

theorem validateCodeStage_reject (src out : Str)
    (hmark : strHasSub "错误码".toList src = true)
    (hsrcC : extract_error_codes src ≠ [])
    (hbad : (extract_error_codes out).all
      (fun c => (extract_error_codes src).contains c) = false) :
    validateCodeStage src out
      = some (.extraErrorCodes ((sortStrs ((extract_error_codes out).filter
          (fun c => !(extract_error_codes src).contains c))).take 5)) := by
  have hs : (extract_error_codes src).isEmpty = false := by
    cases hx : extract_error_codes src with
    | nil => exact absurd hx hsrcC
    | cons a l => simp
  have ho : (extract_error_codes out).isEmpty = false := by
    cases hx : extract_error_codes out with
    | nil => rw [hx] at hbad; simp at hbad
    | cons a l => simp
  rw [validateCodeStage]
  try simp only []
  rw [hmark, hs, ho, hbad]
  simp

theorem insertSorted_length (x : Str) (l : List Str) :
    (insertSorted x l).length = l.length + 1 := by
  induction l with
  | nil => rfl
  | cons y ys ih =>
    rw [insertSorted]
    split
    · simp
    · simp [ih]

theorem sortStrs_length (l : List Str) : (sortStrs l).length = l.length := by
  induction l with
  | nil => rfl
  | cons x xs ih => rw [sortStrs, insertSorted_length, ih, List.length_cons]

/-- C7: no hallucinated JSON — when the source chunk contains zero fenced
json blocks and the stripped candidate output contains at least one, chunk
validation never accepts the output; and when every earlier validation
stage is passable (not truncated, not a continuation chunk, no allowed or
produced numbered headings), the rejection reason is exactly the
disallowed-new-JSON reason (the source renders it as
「源片段不含 JSON 代码块，禁止新增 JSON 代码块」). -/
theorem C7_no_new_json (source converted : Str) (allowed : List Str)
    (cont : Bool) (meta : LlmMeta)
    (hsrc : extract_json_blocks source = [])
    (hout : extract_json_blocks (pyStrip converted) ≠ []) :
    validate_chunk_output source converted allowed cont meta ≠ none ∧
    (meta.truncated = false → cont = false → allowed = [] →
      extract_numbered_headings (pyStrip converted) = [] →
      validate_chunk_output source converted allowed cont meta
        = some VReason.newJson) := by
  have hoe : (extract_json_blocks (pyStrip converted)).isEmpty = false := by
    cases hx : extract_json_blocks (pyStrip converted) with
    | nil => exact absurd hx hout
    | cons a l => simp
  have hjs : validateJsonStage source (pyStrip converted) = some VReason.newJson := by
    rw [validateJsonStage]
    try simp only []
    rw [hsrc, hoe]
    simp
  constructor
  · intro h
    have hj := validate_none_json _ _ _ _ _ h
    rw [hjs] at hj
    exact Option.noConfusion hj
  · intro hm hc ha hn
    have hne : (pyStrip converted).isEmpty = false := by
      cases hp : pyStrip converted with
      | nil => rw [hp] at hout; exact absurd rfl hout
      | cons a l => simp
    rw [validate_passthrough _ _ _ _ _ hm hc ha hne hn, hjs]

/-- C7 (witness): a json-free source and a candidate inventing a json
block, rejected with the new-JSON reason. -/
theorem C7_no_new_json_witness :
    validate_chunk_output ("no json here").toList
        ("text\n```json\n\x7b\"a\": 1\x7d\n```\n").toList [] false
        ⟨false, "stop".toList⟩
      = some VReason.newJson :=
  (C7_no_new_json ("no json here").toList
    ("text\n```json\n\x7b\"a\": 1\x7d\n```\n").toList [] false
    ⟨false, "stop".toList⟩ (by decide) (by decide)).2 rfl rfl rfl (by decide)

/-- C6: enumeration subset law — when the source chunk contains the
literal marker 「错误码」, its extracted error-code set is non-empty, and
the stripped candidate output carries some code not present in the source
set, chunk validation never accepts the output; the sorted sample of
offending codes (capped at five) is non-empty; and when every earlier
stage is passable, the rejection reason is exactly the extra-error-code
reason carrying that sample (the source renders it as
「检测到输入中不存在的错误码: [...]」). -/
theorem C6_error_code_subset (source converted : Str) (allowed : List Str)
    (cont : Bool) (meta : LlmMeta)
    (hmark : strHasSub "错误码".toList source = true)
    (hsrcC : extract_error_codes source ≠ [])
    (hbad : (extract_error_codes (pyStrip converted)).all
      (fun c => (extract_error_codes source).contains c) = false) :
    validate_chunk_output source converted allowed cont meta ≠ none ∧
    (sortStrs ((extract_error_codes (pyStrip converted)).filter
        (fun c => !(extract_error_codes source).contains c))).take 5 ≠ [] ∧
    (meta.truncated = false → cont = false → allowed = [] →
      extract_numbered_headings (pyStrip converted) = [] →
      extract_json_blocks source = [] →
      extract_json_blocks (pyStrip converted) = [] →
      validate_chunk_output source converted allowed cont meta
        = some (VReason.extraErrorCodes
            ((sortStrs ((extract_error_codes (pyStrip converted)).filter
              (fun c => !(extract_error_codes source).contains c))).take 5))) := by
  refine ⟨?_, ?_, ?_⟩
  · intro h
    have hj := validateJsonStage_none _ _ (validate_none_json _ _ _ _ _ h)
    rw [validateCodeStage_reject _ _ hmark hsrcC hbad] at hj
    exact Option.noConfusion hj
  · obtain ⟨c, hc, hpc⟩ := List.all_eq_false.mp hbad
    have hmem : c ∈ (extract_error_codes (pyStrip converted)).filter
        (fun x => !(extract_error_codes source).contains x) :=
      List.mem_filter.mpr ⟨hc, by simpa using hpc⟩
    have hlen : 0 < (sortStrs ((extract_error_codes (pyStrip converted)).filter
        (fun x => !(extract_error_codes source).contains x))).length := by
      rw [sortStrs_length]
      exact List.length_pos.mpr (List.ne_nil_of_mem hmem)
    intro htake
    have h5 := congrArg List.length htake
    rw [List.length_take, List.length_nil] at h5
    omega
  · intro hm hc0 ha hn hsj hoj
    have hne : (pyStrip converted).isEmpty = false := by
      cases hp : pyStrip converted with
      | nil =>
        rw [hp] at hbad
        have hz : extract_error_codes ([] : Str) = [] := rfl
        rw [hz] at hbad
        simp at hbad
      | cons a l => simp
    rw [validate_passthrough _ _ _ _ _ hm hc0 ha hne hn,
      validateJsonStage_passthrough _ _ hsj hoj,
      validateCodeStage_reject _ _ hmark hsrcC hbad]

/-! ### `_replace_output_json_blocks_with_source_and_report` (C10) -/

/-- `_fence_code_block(content, language)`: four backticks when the content
itself contains a triple backtick. -/
def fence_code_block (content language : Str) : Str :=
  let fence := if strHasSub ("```".toList) content then "````".toList else "```".toList
  let lang := pyStrip language
  if lang.isEmpty then fence ++ "\n".toList ++ content ++ "\n".toList ++ fence
  else fence ++ lang ++ "\n".toList ++ content ++ "\n".toList ++ fence

/-- `_build_json_fallback_block(block_text, reason, source)`. -/
def build_json_fallback_block (block_text reason source : Str) : Str :=
  let r0 := if reason.isEmpty then "无法识别具体原因".toList else reason
  let safe0 := pyStrip (r0.map (fun c => if c = '\n' then ' ' else c))
  let safe := if decide (180 < safe0.length) then safe0.take 177 ++ "...".toList else safe0
  "> 以下json格式可能有问题，请检查。\n> 来源：".toList ++ source
    ++ "；自动修复失败原因：".toList ++ safe ++ "\n\n".toList
    ++ fence_code_block (pyStrip block_text) []

/-- prepend a non-matching char to a match segmentation: it joins the next
match's gap, or the tail when no match remains. -/
def jmCons (c : Char) (m : List (Str × Str × Str) × Str) :
    List (Str × Str × Str) × Str :=
  match m with
  | ([], tl) => ([], c :: tl)
  | ((pre, w, g) :: ms, tl) => ((c :: pre, w, g) :: ms, tl)

/-- segmented finditer of the json-fence pattern: returns the list of
matches as (gap, whole-match, group-1) triples together with the text
after the last match. -/
def jmF : Nat → Str → List (Str × Str × Str) × Str
  | _, [] => ([], [])
  | 0, s => ([], s)
  | fuel + 1, c :: rest =>
    if swith ("```json".toList) (c :: rest) then
      match jbMatch ((c :: rest).drop 7) with
      | some (content, post) =>
        let whole := (c :: rest).take ((c :: rest).length - post.length)
        let m := jmF fuel post
        (([], whole, content) :: m.1, m.2)
      | none => jmCons c (jmF fuel rest)
    else jmCons c (jmF fuel rest)

/-- the rendering loop over source json blocks: rendered list, repaired
count, fallback count, fallback reasons (1-based indices). -/
def renderSourcesGo : Nat → List Str → List Str × Nat × Nat × List Str
  | _, [] => ([], 0, 0, [])
  | idx, b :: bs =>
    let rest := renderSourcesGo (idx + 1) bs
    let d := normalize_json_block_with_diagnostics b
    if d.ok then
      (fence_code_block d.normalized ("json".toList) :: rest.1,
       (if d.is_repaired then rest.2.1 + 1 else rest.2.1), rest.2.2.1, rest.2.2.2)
    else
      (build_json_fallback_block b (if d.error.isEmpty then "无法解析".toList else d.error)
          ("原文".toList) :: rest.1,
       rest.2.1, rest.2.2.1 + 1,
       ("source#".toList ++ natStr idx ++ ": ".toList
         ++ (if d.error.isEmpty then "无法解析".toList else d.error)) :: rest.2.2.2)

/-- how one source json block is rendered by the replacement pass. -/
def renderOne (b : Str) : Str :=
  let d := normalize_json_block_with_diagnostics b
  if d.ok then fence_code_block d.normalized ("json".toList)
  else build_json_fallback_block b (if d.error.isEmpty then "无法解析".toList else d.error)
    ("原文".toList)

structure JsonReplaceReport where
  source_json_blocks : Nat
  repaired_json_blocks : Nat
  fallback_json_blocks : Nat
  fallback_reasons : List Str
deriving Repr, DecidableEq

/-- the splicing loop: each match's gap, then the rendered source block
while any remains, otherwise the match itself. -/
def spliceGo : List Str → List (Str × Str × Str) → Str
  | _, [] => []
  | [], (pre, w, _) :: ms => pre ++ w ++ spliceGo [] ms
  | r :: rs, (pre, _, _) :: ms => pre ++ r ++ spliceGo rs ms

/-- `_replace_output_json_blocks_with_source_and_report(source, converted)`. -/
def replace_output_json_blocks_with_source_and_report
    (source_chunk converted_chunk : Str) : Str × JsonReplaceReport :=
  let source_blocks := extract_json_blocks source_chunk
  if source_blocks.isEmpty then
    (converted_chunk, ⟨source_blocks.length, 0, 0, []⟩)
  else
    let r := renderSourcesGo 1 source_blocks
    let rendered := r.1
    let report : JsonReplaceReport :=
      ⟨source_blocks.length, r.2.1, r.2.2.1, r.2.2.2⟩
    let m := jmF converted_chunk.length converted_chunk
    if m.1.isEmpty then
      let appended := joinSep ("\n\n".toList) rendered
      if (pyStrip converted_chunk).isEmpty then (appended, report)
      else (pyStripR converted_chunk ++ "\n\n".toList ++ appended, report)
    else
      (spliceGo rendered m.1 ++ m.2 ++
        (if decide (m.1.length < rendered.length) then
          "\n\n".toList ++ joinSep ("\n\n".toList) (rendered.drop m.1.length)
        else []), report)

/-- `_replace_output_json_blocks_with_source(source, converted)`. -/
def replace_output_json_blocks_with_source (source_chunk converted_chunk : Str) : Str :=
  (replace_output_json_blocks_with_source_and_report source_chunk converted_chunk).1

/-! ### `_sanitize_output_json_blocks_with_report` -/

structure JsonSanitizeReport where
  output_json_blocks : Nat
  output_json_repaired : Nat
  output_json_fallback : Nat
  fallback_reasons : List Str
deriving Repr, DecidableEq

/-- the per-match loop of the output sanitation pass (1-based indices):
rebuilt text pieces, repaired count, fallback count, fallback reasons. -/
def sanitizeGo : Nat → List (Str × Str × Str) → Str × Nat × Nat × List Str
  | _, [] => ([], 0, 0, [])
  | idx, (pre, _, g) :: ms =>
    let rest := sanitizeGo (idx + 1) ms
    let d := normalize_json_block_with_diagnostics g
    if d.ok then
      (pre ++ fence_code_block d.normalized ("json".toList) ++ rest.1,
       (if d.is_repaired then rest.2.1 + 1 else rest.2.1), rest.2.2.1, rest.2.2.2)
    else
      (pre ++ build_json_fallback_block g
          (if d.error.isEmpty then "无法解析".toList else d.error) ("模型输出".toList)
        ++ rest.1,
       rest.2.1, rest.2.2.1 + 1,
       ("output#".toList ++ natStr idx ++ ": ".toList
         ++ (if d.error.isEmpty then "无法解析".toList else d.error)) :: rest.2.2.2)

/-- `_sanitize_output_json_blocks_with_report(converted_chunk)`. -/
def sanitize_output_json_blocks_with_report (converted_chunk : Str) :
    Str × JsonSanitizeReport :=
  let m := jmF converted_chunk.length converted_chunk
  if m.1.isEmpty then (converted_chunk, ⟨m.1.length, 0, 0, []⟩)
  else
    let s := sanitizeGo 1 m.1
    (s.1 ++ m.2, ⟨m.1.length, s.2.1, s.2.2.1, s.2.2.2⟩)

/-! ### the ```markdown wrapper strip of `_convert_chunk_with_retry` -/

/-- the anchored match of the wrapper-opening pattern (whitespace, the
markdown fence marker, whitespace ending in a line break — the break being
the last newline of the whitespace run): returns the remainder after the
match. -/
def mdOpen (s : Str) : Option Str :=
  let w := s.takeWhile pySpace
  let r := s.drop w.length
  if swith ("```markdown".toList) r then
    let P := r.drop 11
    let W := P.takeWhile pySpace
    match (((List.range W.length).filter (fun i => P.getD i ' ' = '\n')).reverse).head? with
    | some i => some (P.drop (i + 1))
    | none => none
  else none

/-- the wrapper-closing substitution: remove from the first newline that is
followed by a closing fence and only whitespace to the end. -/
def mdCloseF : Nat → Str → Str
  | _, [] => []
  | 0, s => s
  | fuel + 1, c :: rest =>
    if c = '\n' && swith ("```".toList) rest && (rest.drop 3).all pySpace then []
    else c :: mdCloseF fuel rest

/-- the conditional wrapper strip applied to each raw model output. -/
def strip_markdown_wrapper (s : Str) : Str :=
  match mdOpen s with
  | some r => mdCloseF r.length r
  | none => s

/-! ### `_ensure_allowed_heading_in_chunk` -/

/-- index of the first line outside fenced code whose heading group-1
satisfies the predicate (fence lines toggle and are never headings). -/
def findHeadingIdxGo (p : Str → Bool) : Nat → Bool → List Str → Option Nat
  | _, _, [] => none
  | idx, inCode, l :: ls =>
    if swith ("```".toList) (pyStrip l) then findHeadingIdxGo p (idx + 1) (!inCode) ls
    else if inCode then findHeadingIdxGo p (idx + 1) inCode ls
    else
      match parseHeadingMarker l with
      | some (_, g1) =>
        if p g1 then some idx else findHeadingIdxGo p (idx + 1) inCode ls
      | none => findHeadingIdxGo p (idx + 1) inCode ls

/-- `_ensure_allowed_heading_in_chunk(...)`.  The source's single loop
returns at the first heading whose title matches the target and otherwise
falls back to the first heading at all; that is expressed here as two
first-index searches over the same walk. -/
def ensure_allowed_heading_in_chunk (converted_chunk : Str)
    (allowed_headings : List Str) (continuation_mode chunk_has_heading : Bool) :
    Str × Bool :=
  if continuation_mode || allowed_headings.isEmpty then (converted_chunk, false)
  else
    let target_heading := pyStrip (allowed_headings.headD [])
    if target_heading.isEmpty then (converted_chunk, false)
    else
      let target_norm := normalize_heading_text target_heading
      let target_plain_norm :=
        normalize_heading_text ( strip_heading_number_prefix target_heading)
      let target_level := heading_level_from_numbered_heading target_heading
      let target_line := List.replicate target_level '#' ++ " ".toList ++ target_heading
      let lines := splitLines converted_chunk
      let matchIdx := findHeadingIdxGo (fun g1 =>
        let title := strip_heading_attrs (pyStrip g1)
        normalize_heading_text title == target_norm ||
          normalize_heading_text ( strip_heading_number_prefix title) == target_plain_norm)
        0 false lines
      let anyIdx := findHeadingIdxGo (fun _ => true) 0 false lines
      match matchIdx.orElse (fun _ => anyIdx) with
      | some i =>
        if pyStrip (lines.getD i []) ≠ target_line then
          (joinLines (lines.set i target_line), true)
        else (converted_chunk, false)
      | none =>
        if chunk_has_heading then
          let content := pyStrip converted_chunk
          if content.isEmpty then (target_line, true)
          else (target_line ++ "\n\n".toList ++ content, true)
        else (converted_chunk, false)

/-! ### `_convert_chunk_with_retry` -/

/-- the inputs of the retry loop.  The LLM call `_convert_chunk` is an
oracle from the 0-based attempt number to its raw output and metadata (the
retry-reason feedback only affects the oracle's input, so it is absorbed
into the oracle). -/
structure RetryCtx where
  oracle : Nat → Str × LlmMeta
  max_chunk_retries : Nat
  allow_partial_on_chunk_failure : Bool
  chunk : Str
  chunk_index : Nat
  total_chunks : Nat
  section_label : Str
  allowed_headings : List Str
  continuation_mode : Bool
  chunk_has_heading : Bool

/-- the structured payload of the hard-failure `RuntimeError` message
(分片转换失败：第 i/n 片段（章节=…）在 k 次尝试后仍不合规，最后错误：…). -/
structure HardFail where
  chunk_index : Nat
  total_chunks : Nat
  section_label : Str
  attempts : Nat
  last_error : Option VReason
deriving Repr, DecidableEq

/-- the per-result metadata kept by the model (the json-report counters and
auto-repair notes of `merged_meta` are carried by the report passes and
omitted here); `fallback_reason = none` stands for the default
「达到最大重试次数」 text, and `fallback_validation_reason = none` for the
absent key when the fallback output validates. -/
structure ChunkMeta where
  attempts_used : Nat
  fallback_used : Bool
  fallback_reason : Option VReason
  fallback_validation_reason : Option VReason
deriving Repr, DecidableEq

/-- the post-call normalization pipeline applied to one attempt's raw
output: wrapper strip, source json replacement, output json sanitation,
continuation heading strip, heading enforcement. -/
def processChunkOutput (ctx : RetryCtx) (conv0 : Str) : Str :=
  let c1 := strip_markdown_wrapper conv0
  let c2 := (replace_output_json_blocks_with_source_and_report ctx.chunk c1).1
  let c3 := (sanitize_output_json_blocks_with_report c2).1
  let c4 := if ctx.continuation_mode then (strip_heading_lines_outside_code_blocks c3).1
    else c3
  (ensure_allowed_heading_in_chunk c4 ctx.allowed_headings ctx.continuation_mode
    ctx.chunk_has_heading).1

/-- the fallback text synthesized from the source chunk itself. -/
def fallbackText (ctx : RetryCtx) : Str :=
  let fb0 := (replace_output_json_blocks_with_source_and_report ctx.chunk ctx.chunk).1
  let fb1 := (sanitize_output_json_blocks_with_report fb0).1
  let fb2 := if ctx.continuation_mode then (strip_heading_lines_outside_code_blocks fb1).1
    else fb1
  (ensure_allowed_heading_in_chunk fb2 ctx.allowed_headings ctx.continuation_mode
    ctx.chunk_has_heading).1

/-- what happens when the loop exhausts its attempts: hard failure when
partial results are disallowed, otherwise the source-chunk fallback. -/
def convertFinish (ctx : RetryCtx) (last : Option VReason) :
    Except HardFail (Str × ChunkMeta) :=
  if !ctx.allow_partial_on_chunk_failure then
    .error ⟨ctx.chunk_index, ctx.total_chunks, ctx.section_label,
      ctx.max_chunk_retries + 1, last⟩
  else
    let fb := fallbackText ctx
    let fv := validate_chunk_output ctx.chunk fb ctx.allowed_headings
      ctx.continuation_mode ⟨false, []⟩
    .ok (fb, ⟨ctx.max_chunk_retries + 1, true, last, fv⟩)

/-- the retry loop (`for attempt in range(max_chunk_retries + 1)`). -/
def convertLoop (ctx : RetryCtx) : Nat → Nat → Option VReason →
    Except HardFail (Str × ChunkMeta)
  | 0, _, last => convertFinish ctx last
  | fuel + 1, attempt, last =>
    let o := ctx.oracle attempt
    let converted := processChunkOutput ctx o.1
    match validate_chunk_output ctx.chunk converted ctx.allowed_headings
        ctx.continuation_mode o.2 with
    | none => .ok (converted, ⟨attempt + 1, false, none, none⟩)
    | some r => convertLoop ctx fuel (attempt + 1) (some r)

/-- `_convert_chunk_with_retry(...)`. -/
def convert_chunk_with_retry (ctx : RetryCtx) : Except HardFail (Str × ChunkMeta) :=
  convertLoop ctx (ctx.max_chunk_retries + 1) 0 none

/-- ordered disjoint occurrence of a list of strings inside a text. -/
def occursInOrder : List Str → Str → Prop
  | [], _ => True
  | r :: rs, t => ∃ p s, t = p ++ r ++ s ∧ occursInOrder rs s

theorem occursInOrder_pre (rs : List Str) (p t : Str)
    (h : occursInOrder rs t) : occursInOrder rs (p ++ t) := by
  cases rs with
  | nil => trivial
  | cons r rs =>
    obtain ⟨q, s, ht, h2⟩ := h
    exact ⟨p ++ q, s, by rw [ht]; simp [List.append_assoc], h2⟩

theorem occursInOrder_concat (rs1 rs2 : List Str) (t1 t2 : Str)
    (h1 : occursInOrder rs1 t1) (h2 : occursInOrder rs2 t2) :
    occursInOrder (rs1 ++ rs2) (t1 ++ t2) := by
  induction rs1 generalizing t1 with
  | nil => simpa using occursInOrder_pre rs2 t1 t2 h2
  | cons r rs ih =>
    obtain ⟨p, s, ht, h3⟩ := h1
    exact ⟨p, s ++ t2, by rw [ht]; simp [List.append_assoc], ih s h3⟩

theorem spliceGo_occurs (ms : List (Str × Str × Str)) (rs : List Str) :
    occursInOrder (rs.take ms.length) (spliceGo rs ms) := by
  induction ms generalizing rs with
  | nil => simp [occursInOrder]
  | cons m ms ih =>
    cases rs with
    | nil => simp [occursInOrder]
    | cons r rs =>
      obtain ⟨pre, w, g⟩ := m
      exact ⟨pre, spliceGo rs ms, rfl, ih rs⟩

theorem joinSep_occurs (sep : Str) : ∀ rs : List Str, occursInOrder rs (joinSep sep rs)
  | [] => trivial
  | [x] => ⟨[], [], by simp [joinSep], trivial⟩
  | x :: y :: ys =>
    ⟨[], sep ++ joinSep sep (y :: ys), by simp [joinSep, List.append_assoc],
      occursInOrder_pre (y :: ys) sep _ (joinSep_occurs sep (y :: ys))⟩

theorem renderSourcesGo_fst : ∀ (idx : Nat) (bs : List Str),
    (renderSourcesGo idx bs).1 = bs.map renderOne
  | _, [] => rfl
  | idx, b :: bs => by
    rw [renderSourcesGo]
    try simp only []
    split
    · rename_i h
      simp [renderOne, h, renderSourcesGo_fst (idx + 1) bs]
    · rename_i h
      simp [renderOne, h, renderSourcesGo_fst (idx + 1) bs]

set_option maxHeartbeats 1000000 in
/-- C10: source JSON block preservation — when the source chunk contains at
least one fenced json block, the replacement pass renders every source
block in list order (a pretty-printed json fence when the repair pipeline
parses it, otherwise an annotated plain fenced block built by the fallback
builder), and its result contains the rendered blocks in source order as
disjoint segments: the first min(matches, N) json matches of the converted
text are replaced by the rendered blocks and the remaining rendered blocks
are appended after the end; in particular when the converted text has no
json match the result ends with all rendered blocks joined by blank
lines. -/
theorem C10_source_json_preserved (source converted : Str)
    (hsrc : extract_json_blocks source ≠ []) :
    (renderSourcesGo 1 (extract_json_blocks source)).1
        = (extract_json_blocks source).map renderOne ∧
    occursInOrder (renderSourcesGo 1 (extract_json_blocks source)).1
      (replace_output_json_blocks_with_source source converted) ∧
    ((jmF converted.length converted).1 = [] → ∃ p,
      replace_output_json_blocks_with_source source converted
        = p ++ joinSep ("\n\n".toList)
            (renderSourcesGo 1 (extract_json_blocks source)).1) := by
  have hne : (extract_json_blocks source).isEmpty = false := by
    cases hx : extract_json_blocks source with
    | nil => exact absurd hx hsrc
    | cons a l => simp
  refine ⟨renderSourcesGo_fst 1 (extract_json_blocks source), ?_⟩
  rw [replace_output_json_blocks_with_source,
    replace_output_json_blocks_with_source_and_report]
  try simp only []
  rw [hne]
  simp only [Bool.false_eq_true, if_false]
  by_cases hm : (jmF converted.length converted).1 = []
  · have hmi : (jmF converted.length converted).1.isEmpty = true := by simp [hm]
    rw [hmi, if_pos rfl]
    by_cases hb : (pyStrip converted).isEmpty = true
    · rw [if_pos hb]
      refine ⟨joinSep_occurs _ _, fun _ => ⟨[], by simp⟩⟩
    · rw [if_neg hb]
      have hocc := joinSep_occurs ("\n\n".toList)
        (renderSourcesGo 1 (extract_json_blocks source)).1
      constructor
      · have := occursInOrder_pre _ (pyStripR converted ++ "\n\n".toList) _ hocc
        simpa [List.append_assoc] using this
      · exact fun _ => ⟨pyStripR converted ++ "\n\n".toList, by simp [List.append_assoc]⟩
  · have hmi : (jmF converted.length converted).1.isEmpty = false := by
      cases hx : (jmF converted.length converted).1 with
      | nil => exact absurd hx hm
      | cons a l => simp
    rw [hmi]
    simp only [Bool.false_eq_true, if_false]
    refine ⟨?_, fun h => absurd h hm⟩
    have h1 := spliceGo_occurs (jmF converted.length converted).1
      (renderSourcesGo 1 (extract_json_blocks source)).1
    have h2 : occursInOrder
        ((renderSourcesGo 1 (extract_json_blocks source)).1.drop
          (jmF converted.length converted).1.length)
        ((jmF converted.length converted).2 ++
          (if decide ((jmF converted.length converted).1.length <
              (renderSourcesGo 1 (extract_json_blocks source)).1.length) = true then
            "\n\n".toList ++ joinSep ("\n\n".toList)
              ((renderSourcesGo 1 (extract_json_blocks source)).1.drop
                (jmF converted.length converted).1.length)
          else [])) := by
      by_cases hlt : (jmF converted.length converted).1.length <
          (renderSourcesGo 1 (extract_json_blocks source)).1.length
      · rw [if_pos (by simpa using hlt)]
        exact occursInOrder_pre _ ((jmF converted.length converted).2) _
          (occursInOrder_pre _ ("\n\n".toList) _ (joinSep_occurs ("\n\n".toList)
            ((renderSourcesGo 1 (extract_json_blocks source)).1.drop
              (jmF converted.length converted).1.length)))
      · rw [List.drop_eq_nil_of_le (Nat.le_of_not_lt hlt)]
        trivial
    have h3 := occursInOrder_concat _ _ _ _ h1 h2
    rw [List.take_append_drop] at h3
    simpa [List.append_assoc] using h3

/-- C10 (witness): a source with one json block against a converted text
with no json match — the preservation theorem applied at concrete inputs. -/
theorem C10_source_json_preserved_witness :
    (renderSourcesGo 1 (extract_json_blocks ("pre ```json\n\x7b\"a\": 1\x7d\n``` post").toList)).1
        = (extract_json_blocks ("pre ```json\n\x7b\"a\": 1\x7d\n``` post").toList).map renderOne ∧
    occursInOrder
      (renderSourcesGo 1 (extract_json_blocks ("pre ```json\n\x7b\"a\": 1\x7d\n``` post").toList)).1
      (replace_output_json_blocks_with_source ("pre ```json\n\x7b\"a\": 1\x7d\n``` post").toList
        ("no matches here").toList) ∧
    ((jmF ("no matches here").toList.length ("no matches here").toList).1 = [] → ∃ p,
      replace_output_json_blocks_with_source ("pre ```json\n\x7b\"a\": 1\x7d\n``` post").toList
          ("no matches here").toList
        = p ++ joinSep ("\n\n".toList)
            (renderSourcesGo 1
              (extract_json_blocks ("pre ```json\n\x7b\"a\": 1\x7d\n``` post").toList)).1) :=
  C10_source_json_preserved ("pre ```json\n\x7b\"a\": 1\x7d\n``` post").toList
    ("no matches here").toList (by decide)

/-- when every attempt in the window fails validation, the loop reaches the
finish case carrying the last attempt's failure reason. -/
theorem convertLoop_allFail (ctx : RetryCtx) :
    ∀ (fuel attempt : Nat) (last : Option VReason),
    (∀ k, attempt ≤ k → k < attempt + (fuel + 1) →
      validate_chunk_output ctx.chunk (processChunkOutput ctx ((ctx.oracle k).1))
        ctx.allowed_headings ctx.continuation_mode ((ctx.oracle k).2) ≠ none) →
    convertLoop ctx (fuel + 1) attempt last
      = convertFinish ctx (validate_chunk_output ctx.chunk
          (processChunkOutput ctx ((ctx.oracle (attempt + fuel)).1))
          ctx.allowed_headings ctx.continuation_mode ((ctx.oracle (attempt + fuel)).2))
  | 0, attempt, last, h => by
    rw [convertLoop]
    try simp only []
    have hv := h attempt (Nat.le_refl _) (by omega)
    cases hx : validate_chunk_output ctx.chunk (processChunkOutput ctx ((ctx.oracle attempt).1))
        ctx.allowed_headings ctx.continuation_mode ((ctx.oracle attempt).2) with
    | none => exact absurd hx hv
    | some r =>
      rw [show attempt + 0 = attempt from rfl, hx]
      rfl
  | fuel + 1, attempt, last, h => by
    rw [convertLoop]
    try simp only []
    have hv := h attempt (Nat.le_refl _) (by omega)
    cases hx : validate_chunk_output ctx.chunk (processChunkOutput ctx ((ctx.oracle attempt).1))
        ctx.allowed_headings ctx.continuation_mode ((ctx.oracle attempt).2) with
    | none => exact absurd hx hv
    | some r =>
      have step := convertLoop_allFail ctx fuel (attempt + 1) (some r)
        (fun k hk1 hk2 => h k (by omega) (by omega))
      rw [show attempt + 1 + fuel = attempt + (fuel + 1) from by omega] at step
      exact step

/-- C4: fallback contract — when every attempt's transformed output fails
chunk validation, then with partial results allowed the transformer
returns (never raises) the text synthesized from the source chunk itself
by the fallback pipeline, marked `fallback_used` with the last attempt's
validation failure attached; and with partial results disallowed it
returns the hard failure carrying the chunk index, total, section label,
attempt count and last validation failure (rendered by the source as the
RuntimeError message 「分片转换失败：第 i/n 片段…最后错误：…」). -/
theorem C4_fallback_contract (ctx : RetryCtx)
    (hfail : ∀ k, k < ctx.max_chunk_retries + 1 →
      validate_chunk_output ctx.chunk (processChunkOutput ctx ((ctx.oracle k).1))
        ctx.allowed_headings ctx.continuation_mode ((ctx.oracle k).2) ≠ none) :
    (ctx.allow_partial_on_chunk_failure = true →
      convert_chunk_with_retry ctx = .ok (fallbackText ctx,
        ⟨ctx.max_chunk_retries + 1, true,
         validate_chunk_output ctx.chunk
           (processChunkOutput ctx ((ctx.oracle ctx.max_chunk_retries).1))
           ctx.allowed_headings ctx.continuation_mode
           ((ctx.oracle ctx.max_chunk_retries).2),
         validate_chunk_output ctx.chunk (fallbackText ctx) ctx.allowed_headings
           ctx.continuation_mode ⟨false, []⟩⟩)) ∧
    (ctx.allow_partial_on_chunk_failure = false →
      convert_chunk_with_retry ctx = .error ⟨ctx.chunk_index, ctx.total_chunks,
        ctx.section_label, ctx.max_chunk_retries + 1,
        validate_chunk_output ctx.chunk
          (processChunkOutput ctx ((ctx.oracle ctx.max_chunk_retries).1))
          ctx.allowed_headings ctx.continuation_mode
          ((ctx.oracle ctx.max_chunk_retries).2)⟩) := by
  have hb := convertLoop_allFail ctx ctx.max_chunk_retries 0 none
    (fun k hk1 hk2 => hfail k (by omega))
  rw [Nat.zero_add] at hb
  rw [convert_chunk_with_retry, hb, convertFinish]
  constructor
  · intro hp
    rw [hp]
    rfl
  · intro hp
    rw [hp]
    rfl

def ctx4w : RetryCtx :=
  ⟨fun _ => (("bad ```json\n\x7b\"a\": 1\x7d\n```").toList, ⟨false, "stop".toList⟩),
   2, true, ("plain source text").toList, 2, 5, "lab".toList, [], false, false⟩

set_option maxRecDepth 40000 in
/-- C4 (witness): an oracle that keeps adding a json block the source
lacks — all three attempts fail and, with partial results allowed, the
loop returns the source-chunk fallback. -/
theorem C4_fallback_contract_witness :
    (ctx4w.allow_partial_on_chunk_failure = true →
      convert_chunk_with_retry ctx4w = .ok (fallbackText ctx4w,
        ⟨ctx4w.max_chunk_retries + 1, true,
         validate_chunk_output ctx4w.chunk
           (processChunkOutput ctx4w ((ctx4w.oracle ctx4w.max_chunk_retries).1))
           ctx4w.allowed_headings ctx4w.continuation_mode
           ((ctx4w.oracle ctx4w.max_chunk_retries).2),
         validate_chunk_output ctx4w.chunk (fallbackText ctx4w) ctx4w.allowed_headings
           ctx4w.continuation_mode ⟨false, []⟩⟩)) ∧
    (ctx4w.allow_partial_on_chunk_failure = false →
      convert_chunk_with_retry ctx4w = .error ⟨ctx4w.chunk_index, ctx4w.total_chunks,
        ctx4w.section_label, ctx4w.max_chunk_retries + 1,
        validate_chunk_output ctx4w.chunk
          (processChunkOutput ctx4w ((ctx4w.oracle ctx4w.max_chunk_retries).1))
          ctx4w.allowed_headings ctx4w.continuation_mode
          ((ctx4w.oracle ctx4w.max_chunk_retries).2)⟩) :=
  C4_fallback_contract ctx4w (by decide)

/-! ### C2: continuation headings never leak -/

/-- leak scanner: walking the lines with the fence toggle, is there a
heading line outside fenced code? -/
def hlkGo : Bool → List Str → Bool
  | _, [] => false
  | inCode, l :: ls =>
    if isFence l then hlkGo (!inCode) ls
    else if !inCode && isHeadingLine l then true
    else hlkGo inCode ls

/-- the C2 property: the text has zero heading-marker lines outside
fenced code blocks. -/
def noHeadingLeak (t : Str) : Bool := !(hlkGo false (splitLines t))

/-- empty-line filter (for relating line lists across newline collapse). -/
def eE (ls : List Str) : List Str := ls.filter (fun l => !l.isEmpty)

theorem hlk_shlGo : ∀ (st : Bool) (ls : List Str), hlkGo st (shlGo st ls).1 = false
  | _, [] => rfl
  | st, l :: ls => by
    rw [shlGo]
    by_cases hf : isFence l = true
    · rw [if_pos hf]
      try simp only []
      rw [hlkGo, if_pos hf]
      exact hlk_shlGo (!st) ls
    · rw [if_neg hf]
      by_cases hh : (!st && isHeadingLine l) = true
      · rw [if_pos hh]
        exact hlk_shlGo st ls
      · rw [if_neg hh]
        try simp only []
        rw [hlkGo, if_neg hf, if_neg (by simpa using hh)]
        exact hlk_shlGo st ls

theorem splitLines_head (s : Str) :
    (splitLines s).headD [] = s.takeWhile (fun c => c ≠ '\n') := by
  induction s with
  | nil => rfl
  | cons c r ih =>
    rw [splitLines]
    by_cases hc : c = '\n'
    · subst hc
      rw [if_pos rfl]
      simp [List.takeWhile_cons]
    · rw [if_neg hc]
      cases hr : splitLines r with
      | nil => exact absurd hr (splitLines_ne_nil r)
      | cons l ls =>
        rw [hr] at ih
        simp only [List.headD_cons] at ih
        simp [List.takeWhile_cons, hc, ih]

theorem splitLines_no_newline (s : Str) :
    ∀ l ∈ splitLines s, l.contains '\n' = false := by
  induction s with
  | nil =>
    intro l hl
    simp [splitLines] at hl
    simp [hl, List.contains_eq_any_beq]
  | cons c r ih =>
    intro l hl
    rw [splitLines] at hl
    by_cases hc : c = '\n'
    · subst hc
      rw [if_pos rfl] at hl
      cases hl with
      | head => simp [List.contains_eq_any_beq]
      | tail _ h => exact ih l h
    · rw [if_neg hc] at hl
      cases hr : splitLines r with
      | nil => exact absurd hr (splitLines_ne_nil r)
      | cons x xs =>
        rw [hr] at hl
        cases hl with
        | head =>
          have hx := ih x (by rw [hr]; exact List.mem_cons_self x xs)
          simp only [List.contains_cons]
          simp only [List.contains_eq_any_beq] at hx ⊢
          simp [hx]
          intro he
          exact absurd he.symm hc
        | tail _ h => exact ih l (by rw [hr]; exact List.mem_cons_of_mem x h)

theorem shlGo_fst_mem : ∀ (st : Bool) (ls : List Str) (l : Str),
    l ∈ (shlGo st ls).1 → l ∈ ls
  | _, [], _, h => absurd h (by simp [shlGo])
  | st, x :: ls, l, h => by
    rw [shlGo] at h
    by_cases hf : isFence x = true
    · rw [if_pos hf] at h
      simp only [] at h
      cases h with
      | head => exact List.mem_cons_self x ls
      | tail _ h2 => exact List.mem_cons_of_mem x (shlGo_fst_mem (!st) ls l h2)
    · rw [if_neg hf] at h
      by_cases hh : (!st && isHeadingLine x) = true
      · rw [if_pos hh] at h
        exact List.mem_cons_of_mem x (shlGo_fst_mem st ls l h)
      · rw [if_neg hh] at h
        simp only [] at h
        cases h with
        | head => exact List.mem_cons_self x ls
        | tail _ h2 => exact List.mem_cons_of_mem x (shlGo_fst_mem st ls l h2)

theorem splitLines_single (s : Str) (h : s.contains '\n' = false) :
    splitLines s = [s] := by
  induction s with
  | nil => rfl
  | cons c r ih =>
    simp only [List.contains_cons] at h
    have hc : (c = '\n') = False := by
      by_contra hx
      simp at hx
      simp [hx] at h
    have hr : r.contains '\n' = false := by
      revert h
      cases ('\n' == c) <;> simp <;> intro h <;> exact h
    rw [splitLines, if_neg (by simp [hc]), ih hr]

theorem splitLines_append_line (x t : Str) (h : x.contains '\n' = false) :
    splitLines (x ++ '\n' :: t) = x :: splitLines t := by
  induction x with
  | nil => rw [List.nil_append, splitLines, if_pos rfl]
  | cons c r ih =>
    simp only [List.contains_cons] at h
    have hc : (c = '\n') = False := by
      by_contra hx
      simp at hx
      simp [hx] at h
    have hr : r.contains '\n' = false := by
      revert h
      cases ('\n' == c) <;> simp <;> intro h <;> exact h
    rw [List.cons_append, splitLines, if_neg (by simp [hc]), ih hr]

theorem splitLines_joinLines : ∀ (K : List Str), K ≠ [] →
    (∀ l ∈ K, l.contains '\n' = false) → splitLines (joinLines K) = K
  | [], h, _ => absurd rfl h
  | [x], _, hn => by
    rw [joinLines, joinSep]
    exact splitLines_single x (hn x (List.mem_cons_self x []))
  | x :: y :: ys, _, hn => by
    rw [joinLines, joinSep]
    have hx := hn x (List.mem_cons_self _ _)
    have : (x ++ nl ++ joinSep nl (y :: ys)) = x ++ '\n' :: joinSep nl (y :: ys) := by
      simp [nl]
    rw [this, splitLines_append_line x _ hx]
    rw [show joinSep nl (y :: ys) = joinLines (y :: ys) from rfl]
    rw [splitLines_joinLines (y :: ys) (by simp)
      (fun l hl => hn l (List.mem_cons_of_mem x hl))]

theorem eE_cons_nil (ls : List Str) : eE ([] :: ls) = eE ls := by
  simp [eE]

theorem eE_cons (l : Str) (ls : List Str) (h : l.isEmpty = false) :
    eE (l :: ls) = l :: eE ls := by
  simp [eE, List.filter_cons, h]

theorem cnrF_firstLine : ∀ (fuel : Nat) (s : Str),
    (cnrF fuel s).takeWhile (fun c => c ≠ '\n') = s.takeWhile (fun c => c ≠ '\n')
  | fuel, [] => by cases fuel <;> rfl
  | 0, _ :: _ => rfl
  | fuel + 1, c :: rest => by
    rw [cnrF]
    by_cases hc : c = '\n'
    · subst hc
      rw [if_pos rfl]
      try simp only []
      split
      · simp [List.takeWhile_cons]
      · simp [List.takeWhile_cons]
    · rw [if_neg hc]
      rw [List.takeWhile_cons, List.takeWhile_cons, cnrF_firstLine fuel rest]

theorem splitLines_replicate_nl : ∀ (k : Nat) (t : Str),
    splitLines (List.replicate k '\n' ++ t) = List.replicate k [] ++ splitLines t
  | 0, t => by simp
  | k + 1, t => by
    rw [List.replicate_succ, List.cons_append, splitLines, if_pos rfl,
      splitLines_replicate_nl k t, List.replicate_succ, List.cons_append]

theorem eE_replicate_append (k : Nat) (X : List Str) :
    eE (List.replicate k [] ++ X) = eE X := by
  induction k with
  | zero => simp
  | succ n ih =>
    rw [List.replicate_succ, List.cons_append, eE_cons_nil]
    exact ih

theorem cnr_eE : ∀ (fuel : Nat) (s : Str),
    eE (splitLines (cnrF fuel s)) = eE (splitLines s)
  | fuel, [] => by cases fuel <;> rfl
  | 0, _ :: _ => rfl
  | fuel + 1, c :: rest => by
    rw [cnrF]
    by_cases hc : c = '\n'
    · subst hc
      rw [if_pos rfl]
      try simp only []
      by_cases h2 : 2 ≤ (rest.takeWhile (fun d => d = '\n')).length
      · rw [if_pos h2]
        rw [splitLines, if_pos rfl, splitLines, if_pos rfl, splitLines, if_pos rfl]
        rw [eE_cons_nil, eE_cons_nil, eE_cons_nil]
        have hrep : rest.takeWhile (fun d => d = '\n')
            = List.replicate (rest.takeWhile (fun d => d = '\n')).length '\n' :=
          List.eq_replicate_of_mem (fun b hb => by
            have := List.mem_takeWhile_imp hb
            simpa using this)
        have hdec : rest = List.replicate (rest.takeWhile (fun d => d = '\n')).length '\n'
            ++ rest.dropWhile (fun d => d = '\n') := by
          conv_lhs => rw [← List.takeWhile_append_dropWhile (p := fun d => d = '\n') (l := rest)]
          rw [← hrep]
        rw [cnr_eE fuel (rest.dropWhile (fun d => d = '\n'))]
        conv_rhs => rw [hdec]
        rw [splitLines_replicate_nl, eE_replicate_append]
      · rw [if_neg h2]
        rw [splitLines, if_pos rfl, splitLines, if_pos rfl]
        rw [eE_cons_nil, eE_cons_nil]
        exact cnr_eE fuel rest
    · rw [if_neg hc]
      cases hr' : splitLines (cnrF fuel rest) with
      | nil => exact absurd hr' (splitLines_ne_nil _)
      | cons l' ls' =>
        cases hr : splitLines rest with
        | nil => exact absurd hr (splitLines_ne_nil _)
        | cons l ls =>
          rw [splitLines, if_neg hc, hr', splitLines, if_neg hc, hr]
          have hl : l' = l := by
            have h1 := splitLines_head (cnrF fuel rest)
            have h2 := splitLines_head rest
            rw [hr'] at h1
            rw [hr] at h2
            simp only [List.headD_cons] at h1 h2
            rw [h1, h2, cnrF_firstLine fuel rest]
          subst hl
          have hIH := cnr_eE fuel rest
          rw [hr', hr] at hIH
          have htl : eE ls' = eE ls := by
            by_cases he : l'.isEmpty = true
            · have : l' = [] := by
                cases l' with
                | nil => rfl
                | cons a b => simp at he
              rw [this, eE_cons_nil, eE_cons_nil] at hIH
              exact hIH
            · rw [eE_cons l' ls' (by simpa using he),
                eE_cons l' ls (by simpa using he)] at hIH
              exact List.tail_eq_of_cons_eq hIH
          have hne : (c :: l').isEmpty = false := by simp
          rw [eE_cons _ _ hne, eE_cons _ _ hne, htl]

theorem hlk_eE : ∀ (st : Bool) (ls : List Str), hlkGo st (eE ls) = hlkGo st ls
  | _, [] => rfl
  | st, l :: ls => by
    by_cases he : l.isEmpty = true
    · have hl : l = [] := by
        cases l with
        | nil => rfl
        | cons a b => simp at he
      subst hl
      rw [eE_cons_nil]
      rw [show hlkGo st ([] :: ls) = hlkGo st ls from by
        rw [hlkGo, if_neg (by decide)]
        simp [show isHeadingLine ([] : Str) = false from rfl]]
      exact hlk_eE st ls
    · rw [eE_cons l ls (by simpa using he)]
      rw [hlkGo, hlkGo]
      by_cases hf : isFence l = true
      · rw [if_pos hf, if_pos hf]
        exact hlk_eE (!st) ls
      · rw [if_neg hf, if_neg hf]
        by_cases hh : (!st && isHeadingLine l) = true
        · rw [if_pos hh, if_pos hh]
        · rw [if_neg hh, if_neg hh]
          exact hlk_eE st ls

theorem hlk_cons_nil (st : Bool) (ls : List Str) :
    hlkGo st ([] :: ls) = hlkGo st ls := by
  rw [hlkGo, if_neg (by decide)]
  simp [show isHeadingLine ([] : Str) = false from rfl]

theorem hlk_congr_head (x y : Str) (h1 : isFence x = isFence y)
    (h2 : isHeadingLine x = isHeadingLine y) (st : Bool) (ls : List Str) :
    hlkGo st (x :: ls) = hlkGo st (y :: ls) := by
  rw [hlkGo, hlkGo, h1, h2]

theorem pyStripL_cons_ws (c : Char) (l : Str) (hc : pySpace c = true) :
    pyStripL (c :: l) = pyStripL l := by
  simp [pyStripL, List.dropWhile_cons, hc]

theorem isFence_cons_ws (c : Char) (l : Str) (hc : pySpace c = true) :
    isFence (c :: l) = isFence l := by
  rw [isFence, isFence, pyStrip, pyStrip, pyStripL_cons_ws c l hc]

theorem parseHeadingMarker_cons_ws (c : Char) (l : Str) (hc : pySpace c = true) :
    parseHeadingMarker (c :: l) = parseHeadingMarker l := by
  rw [parseHeadingMarker, parseHeadingMarker, List.dropWhile_cons, if_pos hc]

theorem isHeadingLine_cons_ws (c : Char) (l : Str) (hc : pySpace c = true) :
    isHeadingLine (c :: l) = isHeadingLine l := by
  rw [isHeadingLine, isHeadingLine, parseHeadingMarker_cons_ws c l hc]

theorem hlk_split_cons_ws (c : Char) (r : Str) (hc : pySpace c = true) :
    hlkGo false (splitLines (c :: r)) = hlkGo false (splitLines r) := by
  by_cases hn : c = '\n'
  · subst hn
    rw [splitLines, if_pos rfl, hlk_cons_nil]
  · rw [splitLines, if_neg hn]
    cases hr : splitLines r with
    | nil => exact absurd hr (splitLines_ne_nil r)
    | cons l ls =>
      exact hlk_congr_head (c :: l) l (isFence_cons_ws c l hc)
        (isHeadingLine_cons_ws c l hc) false ls

theorem hlk_pyStripL (s : Str) :
    hlkGo false (splitLines (pyStripL s)) = hlkGo false (splitLines s) := by
  induction s with
  | nil => rfl
  | cons c r ih =>
    by_cases hc : pySpace c = true
    · rw [pyStripL_cons_ws c r hc, ih, hlk_split_cons_ws c r hc]
    · rw [show pyStripL (c :: r) = c :: r from by
        simp [pyStripL, List.dropWhile_cons]
        intro hx
        exact absurd hx hc]

theorem dropWhile_eq_nil_all {α : Type} (p : α → Bool) : ∀ (l : List α),
    l.dropWhile p = [] → ∀ x ∈ l, p x = true
  | [], _, x, hx => absurd hx (by simp)
  | a :: l, h, x, hx => by
    rw [List.dropWhile_cons] at h
    by_cases hp : p a = true
    · rw [if_pos hp] at h
      cases hx with
      | head => exact hp
      | tail _ hx2 => exact dropWhile_eq_nil_all p l h x hx2
    · rw [if_neg hp] at h
      exact absurd h (by simp)

theorem dropWhile_append_ne {α : Type} (p : α → Bool) : ∀ (l : List α),
    l.dropWhile p ≠ [] → ∀ (t : List α), (l ++ t).dropWhile p = l.dropWhile p ++ t
  | [], h, _ => absurd rfl h
  | a :: l, h, t => by
    rw [List.dropWhile_cons] at h
    rw [List.cons_append, List.dropWhile_cons, List.dropWhile_cons]
    by_cases hp : p a = true
    · rw [if_pos hp] at h ⊢
      rw [if_pos hp]
      exact dropWhile_append_ne p l h t
    · rw [if_neg hp, if_neg hp]
      simp

theorem pyStripR_append_ws (x : Str) (c : Char) (hc : pySpace c = true) :
    pyStripR (x ++ [c]) = pyStripR x := by
  rw [pyStripR, pyStripR, show (x ++ [c]).reverse = c :: x.reverse from by simp,
    List.dropWhile_cons, if_pos hc]

theorem pyStrip_append_ws (l : Str) (c : Char) (hc : pySpace c = true) :
    pyStrip (l ++ [c]) = pyStrip l := by
  rw [pyStrip, pyStrip]
  by_cases hL : pyStripL l = []
  · have hall := dropWhile_eq_nil_all pySpace l hL
    rw [show pyStripL (l ++ [c]) = [] from by
      rw [pyStripL, dropWhile_append_of_all pySpace l [c] hall, List.dropWhile_cons,
        if_pos hc]
      rfl]
    rw [hL]
  · rw [show pyStripL (l ++ [c]) = pyStripL l ++ [c] from
      dropWhile_append_ne pySpace l hL [c]]
    exact pyStripR_append_ws (pyStripL l) c hc

theorem isFence_append_ws (l : Str) (c : Char) (hc : pySpace c = true) :
    isFence (l ++ [c]) = isFence l := by
  rw [isFence, isFence, pyStrip_append_ws l c hc]

theorem isHeadingLine_append_ws (l : Str) (c : Char) (hc : pySpace c = true)
    (h : isHeadingLine l = true) : isHeadingLine (l ++ [c]) = true := by
  rw [isHeadingLine, parseHeadingMarker] at h
  rw [isHeadingLine, parseHeadingMarker]
  try simp only [] at h
  try simp only []
  by_cases hrl : l.dropWhile pySpace = []
  · rw [hrl] at h
    simp at h
  · rw [dropWhile_append_ne pySpace l hrl [c]]
    generalize hR : l.dropWhile pySpace = R at *
    have hallhs : ∀ x ∈ R.takeWhile (· = '#'), (x = '#') := fun x hx => by
      have := List.mem_takeWhile_imp hx
      simpa using this
    split at h
    · simp at h
    · rename_i hcond
      have h1 : (R ++ [c]).takeWhile (· = '#') = R.takeWhile (· = '#') := by
        conv_lhs => rw [← List.takeWhile_append_dropWhile (p := (· = '#')) (l := R),
          List.append_assoc]
        rw [takeWhile_append_of_all _ _ _ (fun x hx => by simp [hallhs x hx])]
        cases heq : R.dropWhile (· = '#') with
        | nil =>
          rw [heq] at h
          simp at h
        | cons d tail =>
          have hdn := dropWhile_head_not _ _ _ _ heq
          rw [List.cons_append, List.takeWhile_cons, if_neg (by simp [hdn])]
          simp
      cases heq : R.dropWhile (· = '#') with
      | nil =>
        rw [heq] at h
        simp at h
      | cons d tail =>
        have hdn := dropWhile_head_not _ _ _ _ heq
        have h2 : (R ++ [c]).dropWhile (· = '#') = d :: (tail ++ [c]) := by
          conv_lhs => rw [← List.takeWhile_append_dropWhile (p := (· = '#')) (l := R),
            List.append_assoc]
          rw [dropWhile_append_of_all _ _ _ (fun x hx => by simp [hallhs x hx]), heq,
            List.cons_append, dropWhile_cons_false _ d _ hdn]
        rw [h1, h2]
        rw [heq] at h
        try simp only [] at h
        split
        · rename_i hcc
          exact absurd hcc hcond
        · try simp only []
          by_cases hd : pySpace d = true
          · rw [if_pos hd]
            by_cases ht : (d :: tail).dropWhile pySpace = []
            · have hall' := dropWhile_eq_nil_all pySpace (d :: tail) ht
              have ht' : (d :: (tail ++ [c])).dropWhile pySpace = [] := by
                rw [show d :: (tail ++ [c]) = (d :: tail) ++ [c] from rfl,
                  dropWhile_append_of_all pySpace (d :: tail) [c] hall',
                  List.dropWhile_cons, if_pos hc]
                rfl
              rw [ht']
              simp
            · have ht2 := dropWhile_append_ne pySpace (d :: tail) ht [c]
              rw [show d :: (tail ++ [c]) = (d :: tail) ++ [c] from rfl, ht2]
              have hne2 : ((d :: tail).dropWhile pySpace ++ [c]).isEmpty = false := by
                cases hx : (d :: tail).dropWhile pySpace <;> simp
              rw [hne2]
              simp
          · rw [if_neg hd] at h
            simp at h

/-- append a character to the last line of a line list. -/
def appendLast (c : Char) : List Str → List Str
  | [] => [[c]]
  | [l] => [l ++ [c]]
  | l :: l₂ :: ls => l :: appendLast c (l₂ :: ls)

theorem appendLast_cons₂ (c : Char) (l l₂ : Str) (ls : List Str) :
    appendLast c (l :: l₂ :: ls) = l :: appendLast c (l₂ :: ls) := rfl

theorem splitLines_append_char : ∀ (x : Str) (c : Char), c ≠ '\n' →
    splitLines (x ++ [c]) = appendLast c (splitLines x)
  | [], c, hc => by
    simp [splitLines, appendLast, hc]
  | c₀ :: r, c, hc => by
    rw [List.cons_append, splitLines, splitLines]
    by_cases h0 : c₀ = '\n'
    · rw [if_pos h0, if_pos h0, splitLines_append_char r c hc]
      cases hr : splitLines r with
      | nil => exact absurd hr (splitLines_ne_nil r)
      | cons l ls => rw [appendLast_cons₂]
    · rw [if_neg h0, if_neg h0, splitLines_append_char r c hc]
      cases hr : splitLines r with
      | nil => exact absurd hr (splitLines_ne_nil r)
      | cons l ls =>
        cases ls with
        | nil => simp [appendLast]
        | cons l₂ ls' => rfl

theorem hlk_true_append : ∀ (st : Bool) (ls : List Str), hlkGo st ls = true →
    ∀ (t : List Str), hlkGo st (ls ++ t) = true
  | st, [], h, _ => by rw [hlkGo] at h; exact absurd h (by simp)
  | st, l :: ls, h, t => by
    rw [hlkGo] at h
    rw [List.cons_append, hlkGo]
    by_cases hf : isFence l = true
    · rw [if_pos hf] at h ⊢
      exact hlk_true_append _ _ h t
    · rw [if_neg hf] at h ⊢
      by_cases hh : (!st && isHeadingLine l) = true
      · rw [if_pos hh]
      · rw [if_neg hh] at h ⊢
        exact hlk_true_append _ _ h t

theorem hlk_appendLast : ∀ (ls : List Str) (st : Bool) (c : Char), pySpace c = true →
    hlkGo st (appendLast c ls) = false → hlkGo st ls = false
  | [], _, _, _, _ => rfl
  | [l], st, c, hc, h => by
    rw [show appendLast c [l] = [l ++ [c]] from rfl] at h
    rw [hlkGo]
    by_cases hf : isFence l = true
    · rw [if_pos hf]
      rfl
    · rw [if_neg hf]
      by_cases hh : (!st && isHeadingLine l) = true
      · exfalso
        rw [hlkGo,
          if_neg (show ¬isFence (l ++ [c]) = true from by
            rw [isFence_append_ws l c hc]; exact hf)] at h
        obtain ⟨h1, h2⟩ := Bool.and_eq_true _ _ |>.mp hh
        rw [if_pos (Bool.and_eq_true _ _ |>.mpr
          ⟨h1, isHeadingLine_append_ws l c hc h2⟩)] at h
        exact Bool.noConfusion h
      · rw [if_neg hh]
        rfl
  | l :: l₂ :: ls, st, c, hc, h => by
    rw [appendLast_cons₂] at h
    rw [hlkGo] at h ⊢
    by_cases hf : isFence l = true
    · rw [if_pos hf] at h ⊢
      exact hlk_appendLast (l₂ :: ls) (!st) c hc h
    · rw [if_neg hf] at h ⊢
      by_cases hh : (!st && isHeadingLine l) = true
      · rw [if_pos hh] at h
        exact absurd h (by simp)
      · rw [if_neg hh] at h ⊢
        exact hlk_appendLast (l₂ :: ls) st c hc h

theorem splitLines_append_nl : ∀ (x : Str), splitLines (x ++ ['\n']) = splitLines x ++ [[]]
  | [] => rfl
  | c :: r => by
    rw [List.cons_append, splitLines, splitLines]
    by_cases hc : c = '\n'
    · rw [if_pos hc, if_pos hc, splitLines_append_nl r, List.cons_append]
    · rw [if_neg hc, if_neg hc, splitLines_append_nl r]
      cases hr : splitLines r with
      | nil => exact absurd hr (splitLines_ne_nil r)
      | cons l ls => rfl

theorem hlk_step_char (x : Str) (c : Char) (hc : pySpace c = true)
    (h : hlkGo false (splitLines (x ++ [c])) = false) :
    hlkGo false (splitLines x) = false := by
  by_cases hn : c = '\n'
  · subst hn
    rw [splitLines_append_nl] at h
    by_contra hx
    have hv : hlkGo false (splitLines x) = true := by
      cases hv : hlkGo false (splitLines x) with
      | false => exact absurd hv hx
      | true => rfl
    rw [hlk_true_append false (splitLines x) hv [[]]] at h
    exact Bool.noConfusion h
  · rw [splitLines_append_char x c hn] at h
    exact hlk_appendLast (splitLines x) false c hc h

theorem hlk_ws_suffix : ∀ (w x : Str), (∀ c ∈ w, pySpace c = true) →
    hlkGo false (splitLines (x ++ w)) = false → hlkGo false (splitLines x) = false
  | [], x, _, h => by simpa using h
  | c :: w, x, hws, h => by
    have h2 : hlkGo false (splitLines ((x ++ [c]) ++ w)) = false := by
      rw [List.append_assoc]
      simpa using h
    have h3 := hlk_ws_suffix w (x ++ [c])
      (fun d hd => hws d (List.mem_cons_of_mem c hd)) h2
    exact hlk_step_char x c (hws c (List.mem_cons_self _ _)) h3

theorem pyStripR_decomp (s : Str) :
    s = pyStripR s ++ (s.reverse.takeWhile pySpace).reverse := by
  rw [pyStripR]
  conv_rhs => rw [← List.reverse_append]
  rw [List.takeWhile_append_dropWhile, List.reverse_reverse]

theorem hlk_pyStripR (s : Str) (h : hlkGo false (splitLines s) = false) :
    hlkGo false (splitLines (pyStripR s)) = false := by
  apply hlk_ws_suffix (s.reverse.takeWhile pySpace).reverse (pyStripR s)
  · intro c hcmem
    have hmem : c ∈ s.reverse.takeWhile pySpace := by simpa using hcmem
    simpa using List.mem_takeWhile_imp hmem
  · rw [← pyStripR_decomp s]
    exact h

/-- the payoff: the continuation heading-strip pass always produces a text
with zero heading-marker lines outside fenced code. -/
theorem noLeak_strip (t : Str) :
    hlkGo false (splitLines (strip_heading_lines_outside_code_blocks t).1) = false := by
  rw [strip_heading_lines_outside_code_blocks]
  try simp only []
  rw [pyStrip]
  apply hlk_pyStripR
  rw [hlk_pyStripL, collapseNewlineRuns, ← hlk_eE, cnr_eE, hlk_eE]
  cases hK : (shlGo false (splitLines t)).1 with
  | nil => decide
  | cons l ls =>
    rw [splitLines_joinLines (l :: ls) (by simp)
      (fun l' hl' => splitLines_no_newline t l'
        (shlGo_fst_mem false (splitLines t) l' (by rw [hK]; exact hl')))]
    have hres := hlk_shlGo false (splitLines t)
    rw [hK] at hres
    exact hres

instance : DecidableEq (Except HardFail (Str × ChunkMeta)) := fun x y =>
  match x, y with
  | .ok a, .ok b =>
    if h : a = b then .isTrue (by rw [h])
    else .isFalse (fun hx => Except.noConfusion hx (fun hab => h hab))
  | .error a, .error b =>
    if h : a = b then .isTrue (by rw [h])
    else .isFalse (fun hx => Except.noConfusion hx (fun hab => h hab))
  | .ok _, .error _ => .isFalse (fun hx => Except.noConfusion hx)
  | .error _, .ok _ => .isFalse (fun hx => Except.noConfusion hx)

/-- every accepted loop result is either a processed oracle output or the
source-chunk fallback. -/
theorem convertLoop_ok_shape (ctx : RetryCtx) : ∀ (fuel attempt : Nat)
    (last : Option VReason) (text : Str) (meta : ChunkMeta),
    convertLoop ctx fuel attempt last = .ok (text, meta) →
    (∃ c0, text = processChunkOutput ctx c0) ∨ text = fallbackText ctx
  | 0, attempt, last, text, meta, h => by
    rw [convertLoop, convertFinish] at h
    by_cases hp : (!ctx.allow_partial_on_chunk_failure) = true
    · rw [if_pos hp] at h
      exact absurd h (by simp)
    · rw [if_neg hp] at h
      try simp only [] at h
      right
      simp only [Except.ok.injEq, Prod.mk.injEq] at h
      exact h.1.symm
  | fuel + 1, attempt, last, text, meta, h => by
    rw [convertLoop] at h
    try simp only [] at h
    split at h
    · left
      refine ⟨(ctx.oracle attempt).1, ?_⟩
      have h2 : processChunkOutput ctx (ctx.oracle attempt).1 = text := by
        have := h
        simp only [Except.ok.injEq, Prod.mk.injEq] at this
        exact this.1
      exact h2.symm
    · exact convertLoop_ok_shape ctx fuel (attempt + 1) _ text meta h

/-- in continuation mode the heading-enforcement pass is a no-op, so the
processed output ends at the heading-strip pass. -/
theorem ensure_cont (s : Str) (al : List Str) (chh : Bool) :
    ensure_allowed_heading_in_chunk s al true chh = (s, false) := by
  rw [ensure_allowed_heading_in_chunk, Bool.true_or, if_pos rfl]

theorem processChunkOutput_cont (ctx : RetryCtx) (hc : ctx.continuation_mode = true)
    (c0 : Str) :
    processChunkOutput ctx c0 = (strip_heading_lines_outside_code_blocks
      ((sanitize_output_json_blocks_with_report
        ((replace_output_json_blocks_with_source_and_report ctx.chunk
          (strip_markdown_wrapper c0)).1)).1)).1 := by
  rw [processChunkOutput]
  try simp only []
  rw [hc, if_pos rfl, ensure_cont]

/-- the fallback text in continuation mode likewise ends at the
heading-strip pass. -/
theorem fallbackText_cont (ctx : RetryCtx) (hc : ctx.continuation_mode = true) :
    fallbackText ctx = (strip_heading_lines_outside_code_blocks
      ((sanitize_output_json_blocks_with_report
        ((replace_output_json_blocks_with_source_and_report ctx.chunk ctx.chunk).1)).1)).1 := by
  rw [fallbackText]
  try simp only []
  rw [hc, if_pos rfl, ensure_cont]

/-- C2: continuation headings never leak — every text accepted by the
retry loop in continuation mode (whether a validated oracle output or the
source-chunk fallback) contains zero Markdown heading-marker lines outside
fenced code blocks. -/
theorem C2_continuation_no_heading_leak (ctx : RetryCtx)
    (hcont : ctx.continuation_mode = true) (text : Str) (meta : ChunkMeta)
    (h : convert_chunk_with_retry ctx = .ok (text, meta)) :
    noHeadingLeak text = true := by
  rw [convert_chunk_with_retry] at h
  rcases convertLoop_ok_shape ctx _ _ _ _ _ h with ⟨c0, rfl⟩ | rfl
  · rw [noHeadingLeak, processChunkOutput_cont ctx hcont c0, noLeak_strip]
    rfl
  · rw [noHeadingLeak, fallbackText_cont ctx hcont, noLeak_strip]
    rfl

def ctx2w : RetryCtx :=
  ⟨fun _ => (("## 2 Leak\nbody text here").toList, ⟨false, "stop".toList⟩),
   2, true, ("body text here").toList, 2, 5, "lab".toList, [], true, false⟩

set_option maxRecDepth 40000 in
/-- C2 (witness): a continuation chunk whose oracle output leaks a heading
line; the accepted text has the heading stripped and leaks nothing. -/
theorem C2_continuation_no_heading_leak_witness :
    noHeadingLeak (("body text here").toList) = true :=
  C2_continuation_no_heading_leak ctx2w rfl ("body text here").toList
    ⟨1, false, none, none⟩ (by decide)

/-- C6 (witness): source codes 10001 and 10003 under a 「错误码」 marker,
output injecting 100000, rejected with the offending code named. -/
theorem C6_error_code_subset_witness :
    validate_chunk_output
        ("错误码表\n| 10001 | A |\n| 10003 | B |\n").toList
        ("| 10001 | A |\n| 100000 | C |\n").toList [] false
        ⟨false, "stop".toList⟩
      = some (VReason.extraErrorCodes [("100000").toList]) := by
  have h := (C6_error_code_subset
    ("错误码表\n| 10001 | A |\n| 10003 | B |\n").toList
    ("| 10001 | A |\n| 100000 | C |\n").toList [] false
    ⟨false, "stop".toList⟩ (by decide) (by decide) (by decide)).2.2
    rfl rfl rfl (by decide) (by decide) (by decide)
  rw [h]
  decide

end DocAgent
